import Mathlib

/-!
Verification of the zsh line-editor widget-binding subsystem
(`Src/Zle/zle_thingy.c`).

The registry state is embedded shallowly:
* the thingy hash table becomes an association list from name strings to
  `Thingy` records (`rc` is a C `int`, so it is modelled as `Int`);
* widget structures are stored in a second association list keyed by a
  freshly allocated numeric id (`nextW` plays the role of the allocator);
* C pointers between thingies (the circular `samew` list and a widget's
  `first` back-pointer) become `Option String` name links, and a thingy's
  widget pointer becomes an `Option Nat` id;
* every operation of the source file is translated to a state-passing
  function returning its C result value where the source returns one.
-/

namespace ZleThingy

/-- Lookup in an association list (the hash-table `getnode2` access path:
disabled nodes are returned too). -/
def alookup {α β : Type} [DecidableEq α] : List (α × β) → α → Option β
  | [], _ => none
  | (k, v) :: r, a => if k = a then some v else alookup r a

/-- Update the (first) entry with the given key, in place; no-op when the
key is absent. -/
def aupdate {α β : Type} [DecidableEq α] : List (α × β) → α → (β → β) → List (α × β)
  | [], _, _ => []
  | (k, v) :: r, a, f => if k = a then (k, f v) :: r else (k, v) :: aupdate r a f

/-- Remove the (first) entry with the given key (`removenode`). -/
def aremove {α β : Type} [DecidableEq α] : List (α × β) → α → List (α × β)
  | [], _ => []
  | (k, v) :: r, a => if k = a then r else (k, v) :: aremove r a

/-- A thingy record (`struct thingy`): reference count, the `DISABLED` and
`TH_IMMORTAL` flag bits, the bound-widget pointer and the circular
next-same-widget link.  The last two fields are only meaningful while the
thingy is enabled; the source leaves them stale after an unbind, and so
does this model. -/
structure Thingy where
  rc : Int
  disabled : Bool
  immortal : Bool
  widget : Option Nat
  samew : Option String
deriving DecidableEq, Repr

/-- Widget payload: the three widget kinds of the source.  `intFn` is an
internal (module-provided) widget, carrying its completion-capability flag
(`ZLE_ISCOMP`); `fnnam` is a user-defined widget naming a shell function;
`comp` is a completion widget wrapping a widget name and a post-completion
function name (`WIDGET_NCOMP`). -/
inductive WPayload
  | intFn (isComp : Bool)
  | fnnam (s : String)
  | comp (wid func : String)
deriving DecidableEq, Repr

/-- A widget structure: its kind-specific payload and the back-pointer to
one member of its bound-names circular list. -/
structure Widget where
  payload : WPayload
  first : Option String
deriving DecidableEq, Repr

/-- The registry state: the thingy table, the live widget structures keyed
by allocation id, and the allocator counter. -/
structure ZleState where
  tab : List (String × Thingy)
  widgets : List (Nat × Widget)
  nextW : Nat
deriving DecidableEq, Repr

/-- The empty registry. -/
def init : ZleState := ⟨[], [], 0⟩

def lookupT (st : ZleState) (n : String) : Option Thingy := alookup st.tab n

def lookupW (st : ZleState) (w : Nat) : Option Widget := alookup st.widgets w

def updT (st : ZleState) (n : String) (f : Thingy → Thingy) : ZleState :=
  { st with tab := aupdate st.tab n f }

def updW (st : ZleState) (w : Nat) (f : Widget → Widget) : ZleState :=
  { st with widgets := aupdate st.widgets w f }

/-- `refthingy`: increment the reference count (handles an absent/NULL
reference as a no-op, as the source handles a NULL pointer). -/
def refthingy (st : ZleState) (n : String) : ZleState :=
  updT st n (fun t => { t with rc := t.rc + 1 })

/-- `unrefthingy`: decrement the reference count and, when it reaches
zero, remove the node from the table and free it. -/
def unrefthingy (st : ZleState) (n : String) : ZleState :=
  match lookupT st n with
  | none => st
  | some t =>
    if t.rc - 1 = 0 then { st with tab := aremove st.tab n }
    else updT st n (fun u => { u with rc := u.rc - 1 })

/-- `makethingynode`: a fresh disabled node with zero references. -/
def makethingynode : Thingy := ⟨0, true, false, none, none⟩

/-- `rthingy`: turn a string into a thingy, creating a disabled node if
necessary, and increment the reference count. -/
def rthingy (st : ZleState) (n : String) : ZleState :=
  match lookupT st n with
  | some _ => refthingy st n
  | none => refthingy { st with tab := (n, makethingynode) :: st.tab } n

/-- `rthingy_nocreate`: lookup with reference increment, no creation. -/
def rthingy_nocreate (st : ZleState) (n : String) : Option Thingy × ZleState :=
  match lookupT st n with
  | none => (none, st)
  | some t => (some t, refthingy st n)

/-- The `getnode` access path of the thingy table: `gethashnode` skips
disabled nodes. -/
def getnode (st : ZleState) (n : String) : Option Thingy :=
  match lookupT st n with
  | none => none
  | some t => if t.disabled then none else some t

/-- `freewidget`: destroy a widget structure together with its
kind-specific payload. -/
def freewidget (st : ZleState) (w : Nat) : ZleState :=
  { st with widgets := aremove st.widgets w }

/-- The predecessor-finding loop of `unbindwidget`:
`for(p = w->first; p->samew != t; p = p->samew)`.  The source loop can
only diverge on a corrupted list; the model returns `none` in that case
(and when a link is dangling), using the table size as fuel. -/
def findPred (st : ZleState) (tn : String) : Nat → Option String → Option String
  | 0, _ => none
  | _ + 1, none => none
  | fuel + 1, some p =>
    match lookupT st p with
    | none => none
    | some pt => if pt.samew = some tn then some p else findPred st tn fuel pt.samew

/-- `unbindwidget`: success (0) as a no-op if the thingy is disabled;
-1 if it is immortal and `override` is false; otherwise remove it from its
widget's circular list (destroying the widget when it was the sole
member), clear `TH_IMMORTAL`, set `DISABLED` and release one reference. -/
def unbindwidget (st : ZleState) (tn : String) (override : Bool) : Int × ZleState :=
  match lookupT st tn with
  | none => (0, st)
  | some t =>
    if t.disabled then (0, st)
    else if !override && t.immortal then (-1, st)
    else
      let st1 :=
        match t.widget with
        | none => st
        | some w =>
          if t.samew = some tn then freewidget st w
          else
            match lookupW st w with
            | none => st
            | some wrec =>
              match findPred st tn (st.tab.length + 1) wrec.first with
              | none => st
              | some p =>
                let sta := updW st w (fun wr => { wr with first := some p })
                updT sta p (fun pt => { pt with samew := t.samew })
      let st2 := updT st1 tn (fun u => { u with immortal := false, disabled := true })
      (0, unrefthingy st2 tn)

/-- The list-insertion step of `bindwidget`: splice the thingy into the
widget's circular list next to `w->first` (or as the sole member when the
widget has no names yet), then point the thingy at the widget and clear
`DISABLED`. -/
def spliceIn (st1 : ZleState) (w : Nat) (tn : String) : ZleState :=
  let st2 :=
    match lookupW st1 w with
    | none => st1
    | some wrec =>
      match wrec.first with
      | some f =>
        let fsw := (lookupT st1 f).bind (fun ft => ft.samew)
        let sta := updT st1 tn (fun u => { u with samew := fsw })
        updT sta f (fun ft => { ft with samew := some tn })
      | none =>
        let sta := updW st1 w (fun wr => { wr with first := some tn })
        updT sta tn (fun u => { u with samew := some tn })
  updT st2 tn (fun u => { u with widget := some w, disabled := false })

/-- `bindwidget`: bind a widget to a thingy whose reference count has
already been incremented by the caller.  Fails with -1 (releasing the
passed reference) if the thingy is immortal; succeeds as a no-op if it is
already bound to this same widget; otherwise unbinds it from any current
widget (with override) and splices it into the circular list. -/
def bindwidget (st : ZleState) (w : Nat) (tn : String) : Int × ZleState :=
  match lookupT st tn with
  | none => (0, st)
  | some t =>
    if t.immortal then (-1, unrefthingy st tn)
    else if !t.disabled && t.widget = some w then (0, st)
    else
      (0, spliceIn (if !t.disabled then (unbindwidget st tn true).2 else st) w tn)

/-- Allocate a fresh widget structure (`zalloc` plus field setup) with a
`NULL` first pointer, returning its id. -/
def addWidget (st : ZleState) (p : WPayload) : Nat × ZleState :=
  (st.nextW,
   { st with widgets := (st.nextW, ⟨p, none⟩) :: st.widgets, nextW := st.nextW + 1 })

/-- `addzlefunction`: register an internal widget.  A name beginning with
the separator `'.'` is rejected; a dotted name already claimed by an
(enabled) immortal thingy is rejected without allocating; otherwise a
fresh internal widget is bound first to the dotted name (made immortal)
and then to the plain name. -/
def addzlefunction (st : ZleState) (name : String) (isComp : Bool) :
    Option Nat × ZleState :=
  if name.startsWith "." then (none, st)
  else
    let dotn := "." ++ name
    if (match getnode st dotn with
        | some t => t.immortal
        | none => false) then (none, st)
    else
      let wst := addWidget st (.intFn isComp)
      let st2 := rthingy wst.2 dotn
      let st3 := (bindwidget st2 wst.1 dotn).2
      let st4 := updT st3 dotn (fun u => { u with immortal := true })
      let st5 := rthingy st4 name
      let st6 := (bindwidget st5 wst.1 name).2
      (some wst.1, st6)

/-- One name of the `zle -D` loop body (`bin_zle_del`): resolve via
`getnode` (which skips disabled nodes) and unbind without override;
status 1 on "no such widget" or "is protected". -/
def zleDelOne (st : ZleState) (n : String) : Int × ZleState :=
  match getnode st n with
  | none => (1, st)
  | some _ =>
    let r := unbindwidget st n false
    (if r.1 = 0 then 0 else 1, r.2)

end ZleThingy

namespace ZleThingy

/-! ### Association-list lemmas -/

section AList

variable {α β : Type} [DecidableEq α]

theorem alookup_aupdate (tab : List (α × β)) (k k' : α) (f : β → β) :
    alookup (aupdate tab k f) k' =
      if k' = k then (alookup tab k).map f else alookup tab k' := by
  induction tab with
  | nil => simp [alookup, aupdate]
  | cons e r ih =>
    obtain ⟨a, v⟩ := e
    by_cases hak : a = k
    · subst hak
      by_cases hk' : k' = a
      · subst hk'; simp [alookup, aupdate]
      · have h2 : ¬(a = k') := fun h => hk' h.symm
        simp [alookup, aupdate, hk', h2]
    · by_cases hk' : k' = a
      · subst hk'
        simp [alookup, aupdate, hak]
      · have h2 : ¬(a = k') := fun h => hk' h.symm
        simp [alookup, aupdate, hak, hk', h2, ih]

theorem alookup_aupdate_self (tab : List (α × β)) (k : α) (f : β → β) :
    alookup (aupdate tab k f) k = (alookup tab k).map f := by
  simp [alookup_aupdate]

theorem alookup_aupdate_ne (tab : List (α × β)) {k k' : α} (f : β → β) (h : k' ≠ k) :
    alookup (aupdate tab k f) k' = alookup tab k' := by
  simp [alookup_aupdate, h]

theorem aupdate_absent (tab : List (α × β)) (k : α) (f : β → β)
    (h : alookup tab k = none) : aupdate tab k f = tab := by
  induction tab with
  | nil => simp [aupdate]
  | cons e r ih =>
    obtain ⟨a, v⟩ := e
    by_cases hak : a = k
    · subst hak; simp [alookup] at h
    · simp [alookup, hak] at h
      simp [aupdate, hak, ih h]

theorem alookup_aremove_ne (tab : List (α × β)) {k k' : α} (h : k' ≠ k) :
    alookup (aremove tab k) k' = alookup tab k' := by
  induction tab with
  | nil => simp [aremove]
  | cons e r ih =>
    obtain ⟨a, v⟩ := e
    by_cases hak : a = k
    · subst hak
      simp [aremove, alookup, Ne.symm h]
    · by_cases hk' : a = k'
      · subst hk'; simp [aremove, alookup, hak]
      · simp [aremove, alookup, hak, hk', ih]

theorem alookup_eq_none_iff (tab : List (α × β)) (k : α) :
    alookup tab k = none ↔ k ∉ tab.map Prod.fst := by
  induction tab with
  | nil => simp [alookup]
  | cons e r ih =>
    obtain ⟨a, v⟩ := e
    by_cases hak : a = k
    · subst hak; simp [alookup]
    · simp [alookup, hak, ih, Ne.symm hak]

theorem alookup_aremove_self (tab : List (α × β)) (k : α)
    (hnd : (tab.map Prod.fst).Nodup) : alookup (aremove tab k) k = none := by
  induction tab with
  | nil => simp [aremove, alookup]
  | cons e r ih =>
    obtain ⟨a, v⟩ := e
    simp only [List.map_cons, List.nodup_cons] at hnd
    by_cases hak : a = k
    · subst hak
      simp only [aremove, if_pos rfl]
      exact (alookup_eq_none_iff r a).2 hnd.1
    · simp [aremove, alookup, hak, ih hnd.2]

theorem aremove_absent (tab : List (α × β)) (k : α)
    (h : alookup tab k = none) : aremove tab k = tab := by
  induction tab with
  | nil => simp [aremove]
  | cons e r ih =>
    obtain ⟨a, v⟩ := e
    by_cases hak : a = k
    · subst hak; simp [alookup] at h
    · simp [alookup, hak] at h
      simp [aremove, hak, ih h]

theorem map_fst_aupdate (tab : List (α × β)) (k : α) (f : β → β) :
    (aupdate tab k f).map Prod.fst = tab.map Prod.fst := by
  induction tab with
  | nil => simp [aupdate]
  | cons e r ih =>
    obtain ⟨a, v⟩ := e
    by_cases hak : a = k <;> simp [aupdate, hak, ih]

theorem map_fst_aremove_sublist (tab : List (α × β)) (k : α) :
    ((aremove tab k).map Prod.fst).Sublist (tab.map Prod.fst) := by
  induction tab with
  | nil => simp [aremove]
  | cons e r ih =>
    obtain ⟨a, v⟩ := e
    by_cases hak : a = k
    · subst hak
      simp only [aremove, if_pos rfl, List.map_cons]
      exact List.sublist_cons_self a (r.map Prod.fst)
    · simp only [aremove, if_neg hak, List.map_cons]
      exact ih.cons₂ a

theorem nodup_aremove (tab : List (α × β)) (k : α)
    (hnd : (tab.map Prod.fst).Nodup) : ((aremove tab k).map Prod.fst).Nodup :=
  (map_fst_aremove_sublist tab k).nodup hnd

theorem mem_of_alookup_eq_some {tab : List (α × β)} {k : α} {v : β}
    (h : alookup tab k = some v) : k ∈ tab.map Prod.fst := by
  by_contra hk
  rw [← alookup_eq_none_iff] at hk
  rw [hk] at h
  exact Option.noConfusion h

end AList

/-! ### Views of the registry state -/

/-- The `samew` link of a name, when present. -/
def samewOf (st : ZleState) (n : String) : Option String :=
  (lookupT st n).bind (fun t => t.samew)

/-- `true` iff the name is in the table with `DISABLED` unset. -/
def enabledB (st : ZleState) (n : String) : Bool :=
  match lookupT st n with
  | some t => !t.disabled
  | none => false

/-- `true` iff the name is currently bound to widget `w`: present, enabled
and with its widget pointer equal to `w`. -/
def boundToB (st : ZleState) (w : Nat) (n : String) : Bool :=
  match lookupT st n with
  | some t => !t.disabled && t.widget = some w
  | none => false

theorem lookupT_updT (st : ZleState) (k n : String) (f : Thingy → Thingy) :
    lookupT (updT st k f) n =
      if n = k then (lookupT st k).map f else lookupT st n := by
  simp [lookupT, updT, alookup_aupdate]

theorem lookupT_updW (st : ZleState) (w : Nat) (n : String) (f : Widget → Widget) :
    lookupT (updW st w f) n = lookupT st n := rfl

theorem lookupW_updT (st : ZleState) (k : String) (w : Nat) (f : Thingy → Thingy) :
    lookupW (updT st k f) w = lookupW st w := rfl

theorem lookupW_updW (st : ZleState) (k w : Nat) (f : Widget → Widget) :
    lookupW (updW st k f) w =
      if w = k then (lookupW st k).map f else lookupW st w := by
  simp [lookupW, updW, alookup_aupdate]

theorem lookupW_freewidget (st : ZleState) {k w : Nat} (h : w ≠ k) :
    lookupW (freewidget st k) w = lookupW st w := by
  simp [lookupW, freewidget, alookup_aremove_ne _ h]

theorem lookupT_freewidget (st : ZleState) (k : Nat) (n : String) :
    lookupT (freewidget st k) n = lookupT st n := rfl

end ZleThingy

namespace ZleThingy

/-! ### The circular `next-same-widget` chain -/

/-- `chainTo st l h`: the names in `l` form a `samew` path — each
element's `samew` link points at the next one — and the last element's
link points at `h`.  A cycle through `l` is `chainTo st l (head l)`. -/
def chainTo (st : ZleState) : List String → String → Prop
  | [], _ => True
  | [x], h => samewOf st x = some h
  | x :: y :: r, h => samewOf st x = some y ∧ chainTo st (y :: r) h

theorem chainTo_nil (st : ZleState) (h : String) : chainTo st [] h := trivial

theorem chainTo_single (st : ZleState) (x h : String) :
    chainTo st [x] h ↔ samewOf st x = some h := Iff.rfl

theorem chainTo_cons₂ (st : ZleState) (x y : String) (r : List String) (h : String) :
    chainTo st (x :: y :: r) h ↔ samewOf st x = some y ∧ chainTo st (y :: r) h :=
  Iff.rfl

/-- The chain property only looks at the `samew` links of the listed
names: states agreeing there satisfy it equally. -/
theorem chainTo_congr {st st' : ZleState} {l : List String} {h : String}
    (hs : ∀ x ∈ l, samewOf st' x = samewOf st x) :
    chainTo st' l h ↔ chainTo st l h := by
  induction l with
  | nil => exact Iff.rfl
  | cons x r ih =>
    cases r with
    | nil =>
      rw [chainTo_single, chainTo_single, hs x (by simp)]
    | cons y r' =>
      rw [chainTo_cons₂, chainTo_cons₂, hs x (by simp)]
      have ih' := ih (fun z hz => hs z (List.mem_cons_of_mem x hz))
      rw [ih']

/-- Splitting a chain at an append. -/
theorem chainTo_append (st : ZleState) (l₁ : List String) {l₂ : List String}
    (h : String) (hne : l₂ ≠ []) :
    chainTo st (l₁ ++ l₂) h ↔ chainTo st l₁ (l₂.headD "") ∧ chainTo st l₂ h := by
  induction l₁ with
  | nil => simp [chainTo_nil]
  | cons x r ih =>
    cases r with
    | nil =>
      cases l₂ with
      | nil => exact absurd rfl hne
      | cons z l₂' =>
        simp only [List.nil_append, List.singleton_append, List.headD_cons]
        rw [chainTo_cons₂, chainTo_single]
    | cons y r' =>
      simp only [List.cons_append] at ih ⊢
      rw [chainTo_cons₂, chainTo_cons₂, ih, and_assoc]

/-- A cycle may be started at any of its members: rotating a chain that
closes on its own head yields a chain closing on the new head. -/
theorem chainTo_rotate (st : ZleState) {l₁ l₂ : List String} {n : String}
    (hc : chainTo st (l₁ ++ n :: l₂) ((l₁ ++ n :: l₂).headD "")) :
    chainTo st (n :: l₂ ++ l₁) n := by
  cases l₁ with
  | nil => simpa using hc
  | cons a l₁' =>
    rw [chainTo_append st (a :: l₁') _ (by simp)] at hc
    simp only [List.headD_cons] at hc
    have h2 : chainTo st ((n :: l₂) ++ (a :: l₁')) n := by
      rw [chainTo_append st (n :: l₂) n (by simp)]
      simp only [List.headD_cons]
      exact ⟨hc.2, hc.1⟩
    simpa using h2

/-- The predecessor-walk succeeds along any chain that ends by pointing at
the target, given enough fuel. -/
theorem findPred_of_chainTo (st : ZleState) (tn : String) :
    ∀ (l : List String) (fuel : Nat), l ≠ [] → chainTo st l tn →
      l.length ≤ fuel →
      ∃ p, findPred st tn fuel (some (l.headD "")) = some p ∧ p ∈ l ∧
        samewOf st p = some tn := by
  intro l
  induction l with
  | nil => intro fuel h; exact absurd rfl h
  | cons x r ih =>
    intro fuel _ hc hlen
    obtain ⟨fuel', rfl⟩ : ∃ f', fuel = f' + 1 := by
      cases fuel with
      | zero => simp at hlen
      | succ f => exact ⟨f, rfl⟩
    obtain ⟨t, ht, hts⟩ : ∃ t, lookupT st x = some t ∧ t.samew = samewOf st x := by
      cases hx : lookupT st x with
      | none =>
        exfalso
        cases r with
        | nil => rw [chainTo_single] at hc; simp [samewOf, hx] at hc
        | cons y r' =>
          rw [chainTo_cons₂] at hc
          obtain ⟨hc1, _⟩ := hc
          simp [samewOf, hx] at hc1
      | some t => exact ⟨t, rfl, by simp [samewOf, hx]⟩
    by_cases hself : samewOf st x = some tn
    · refine ⟨x, ?_, by simp, hself⟩
      simp only [List.headD_cons, findPred, ht]
      rw [hts.symm] at hself
      simp [hself]
    · cases r with
      | nil => rw [chainTo_single] at hc; exact absurd hc hself
      | cons y r' =>
        rw [chainTo_cons₂] at hc
        obtain ⟨p, hp, hpmem, hps⟩ :=
          ih fuel' (by simp) hc.2 (by simpa using Nat.le_of_succ_le_succ hlen)
        refine ⟨p, ?_, List.mem_cons_of_mem x hpmem, hps⟩
        simp only [List.headD_cons, findPred, ht]
        have hne : ¬(t.samew = some tn) := by rw [hts]; exact hself
        rw [if_neg hne, hts, hc.1]
        simpa using hp

/-- Locate a found predecessor inside a cycle: any member whose `samew`
link is `some n` (with `n` a member and the link not a self-link) sits
either directly before `n`, or at the end of the list with `n` at the
head. -/
theorem pred_position (st : ZleState) {l : List String} {p n : String}
    (hnd : l.Nodup) (hc : chainTo st l (l.headD ""))
    (hpmem : p ∈ l) (hps : samewOf st p = some n) (hpn : p ≠ n) :
    (∃ a b, l = a ++ p :: n :: b) ∨ (∃ a, l = n :: a ++ [p]) := by
  obtain ⟨a, b, rfl⟩ := List.append_of_mem hpmem
  cases b with
  | cons z b' =>
    left
    refine ⟨a, b', ?_⟩
    have hsplit := hc
    rw [chainTo_append st a _ (by simp)] at hsplit
    have h2 := hsplit.2
    rw [chainTo_cons₂] at h2
    have hzn := h2.1
    rw [hps] at hzn
    have hz : z = n := (Option.some.inj hzn).symm
    rw [hz]
  | nil =>
    right
    cases a with
    | nil =>
      exfalso
      simp only [List.nil_append] at hc
      rw [chainTo_single] at hc
      simp only [List.headD_cons] at hc
      rw [hps] at hc
      exact hpn (Option.some.inj hc).symm
    | cons a0 a' =>
      have hlast : chainTo st [p] (((a0 :: a') ++ [p]).headD "") := by
        have hsplit := hc
        rw [chainTo_append st (a0 :: a') _ (by simp)] at hsplit
        exact hsplit.2
      rw [chainTo_single] at hlast
      simp only [List.cons_append, List.headD_cons] at hlast
      rw [hps] at hlast
      have ha0 : a0 = n := Option.some.inj hlast.symm
      subst ha0
      exact ⟨a', by simp⟩

end ZleThingy

namespace ZleThingy

/-! ### The per-widget cycle invariant -/

/-- The bound-name cycle of widget `w`: a nonempty duplicate-free list
holding exactly the names currently bound to `w`, starting at the
widget's `first` back-pointer, whose `samew` links run through the list
in order and close back on the head. -/
def WidgetCycle (st : ZleState) (w : Nat) (l : List String) : Prop :=
  l ≠ [] ∧ l.Nodup ∧ (∀ m, m ∈ l ↔ boundToB st w m = true) ∧
  (∃ wr, lookupW st w = some wr ∧ wr.first = l.head?) ∧
  chainTo st l (l.headD "")

/-- The registry invariant: both tables have duplicate-free keys, widget
ids are below the allocator counter, every enabled thingy points at a
live widget, and every live widget has a well-formed bound-name cycle. -/
def Inv (st : ZleState) : Prop :=
  (st.tab.map Prod.fst).Nodup ∧
  (st.widgets.map Prod.fst).Nodup ∧
  (∀ w wr, lookupW st w = some wr → w < st.nextW) ∧
  (∀ n t, lookupT st n = some t → t.disabled = false →
     ∃ w, t.widget = some w ∧ ∃ wr, lookupW st w = some wr) ∧
  (∀ w wr, lookupW st w = some wr → ∃ l, WidgetCycle st w l)

theorem inv_init : Inv init := by
  refine ⟨List.nodup_nil, List.nodup_nil, ?_, ?_, ?_⟩ <;>
    intro a b h <;> simp [lookupW, lookupT, alookup, init] at h

/-- Transfer a widget cycle between states that agree on the bound set of
`w`, the `samew` links of the members, and the widget record. -/
theorem widgetCycle_congr {st st' : ZleState} {w : Nat} {l : List String}
    (hb : ∀ m, boundToB st' w m = boundToB st w m)
    (hs : ∀ x ∈ l, samewOf st' x = samewOf st x)
    (hw : lookupW st' w = lookupW st w) :
    WidgetCycle st w l → WidgetCycle st' w l := by
  rintro ⟨h1, h2, h3, ⟨wr, hwr, hf⟩, h5⟩
  exact ⟨h1, h2, fun m => by rw [hb]; exact h3 m, ⟨wr, by rw [hw]; exact hwr, hf⟩,
    (chainTo_congr hs).2 h5⟩

/-- Cycle members are present and enabled, hence distinct from any
disabled or absent name. -/
theorem cycle_mem_ne {st : ZleState} {w : Nat} {l : List String} {x n : String}
    (h3 : ∀ m, m ∈ l ↔ boundToB st w m = true) (hx : x ∈ l)
    (hn : boundToB st w n = false) : x ≠ n := by
  intro h
  subst h
  rw [h3 x] at hx
  rw [hx] at hn
  exact Bool.noConfusion hn

/-! ### View lemmas for the primitive operations -/

theorem lookupT_cons (st : ZleState) (n : String) (t0 : Thingy) (m : String) :
    lookupT { st with tab := (n, t0) :: st.tab } m =
      if n = m then some t0 else lookupT st m := by
  simp [lookupT, alookup]

theorem lookupT_rthingy (st : ZleState) (n m : String) :
    lookupT (rthingy st n) m =
      if m = n then
        some (match lookupT st n with
              | some t => { t with rc := t.rc + 1 }
              | none => { makethingynode with rc := 1 })
      else lookupT st m := by
  unfold rthingy refthingy
  cases hn : lookupT st n with
  | some t =>
    rw [lookupT_updT]
    by_cases hm : m = n
    · subst hm; simp [hn]
    · simp [hm]
  | none =>
    rw [lookupT_updT]
    by_cases hm : m = n
    · subst hm
      simp [lookupT_cons, hn, makethingynode]
    · simp [hm, lookupT_cons]
      intro h
      subst h
      simp [hn] at hm

theorem lookupW_rthingy (st : ZleState) (n : String) (w : Nat) :
    lookupW (rthingy st n) w = lookupW st w := by
  unfold rthingy refthingy
  cases lookupT st n <;> rfl

theorem nextW_rthingy (st : ZleState) (n : String) :
    (rthingy st n).nextW = st.nextW := by
  unfold rthingy refthingy
  cases lookupT st n <;> rfl

theorem tabKeys_rthingy (st : ZleState) (n : String) :
    (rthingy st n).tab.map Prod.fst =
      if lookupT st n = none then n :: st.tab.map Prod.fst
      else st.tab.map Prod.fst := by
  unfold rthingy refthingy
  cases hn : lookupT st n <;>
    simp [updT, map_fst_aupdate, hn]

theorem lookupT_unrefthingy_ne (st : ZleState) {n m : String} (h : m ≠ n) :
    lookupT (unrefthingy st n) m = lookupT st m := by
  unfold unrefthingy
  cases hn : lookupT st n with
  | none => rfl
  | some t =>
    dsimp only
    by_cases hrc : t.rc - 1 = 0
    · simp only [hrc, if_pos rfl]
      exact alookup_aremove_ne st.tab h
    · rw [if_neg hrc, lookupT_updT]
      simp [h]

theorem lookupT_unrefthingy_self (st : ZleState) (n : String)
    (hnd : (st.tab.map Prod.fst).Nodup) :
    lookupT (unrefthingy st n) n =
      match lookupT st n with
      | none => none
      | some t => if t.rc - 1 = 0 then none else some { t with rc := t.rc - 1 } := by
  unfold unrefthingy
  cases hn : lookupT st n with
  | none => simp [hn]
  | some t =>
    by_cases hrc : t.rc - 1 = 0
    · simp only [hrc, if_pos rfl]
      exact alookup_aremove_self st.tab n hnd
    · simp only [if_neg hrc]
      rw [lookupT_updT]
      simp [hn]

theorem lookupW_unrefthingy (st : ZleState) (n : String) (w : Nat) :
    lookupW (unrefthingy st n) w = lookupW st w := by
  unfold unrefthingy
  cases lookupT st n with
  | none => rfl
  | some t => by_cases hrc : t.rc - 1 = 0 <;> simp [hrc] <;> rfl

theorem nextW_unrefthingy (st : ZleState) (n : String) :
    (unrefthingy st n).nextW = st.nextW := by
  unfold unrefthingy
  cases lookupT st n with
  | none => rfl
  | some t => by_cases hrc : t.rc - 1 = 0 <;> simp [hrc] <;> rfl

theorem tabKeys_unrefthingy_nodup (st : ZleState) (n : String)
    (hnd : (st.tab.map Prod.fst).Nodup) :
    ((unrefthingy st n).tab.map Prod.fst).Nodup := by
  unfold unrefthingy
  cases lookupT st n with
  | none => exact hnd
  | some t =>
    by_cases hrc : t.rc - 1 = 0
    · simp only [hrc, if_pos rfl]
      exact nodup_aremove st.tab n hnd
    · simp only [if_neg hrc]
      simpa [updT, map_fst_aupdate] using hnd

end ZleThingy

namespace ZleThingy

/-! ### Invariant preservation: reference-count-only operations -/

theorem boundToB_updT_keep (st : ZleState) (n : String) (f : Thingy → Thingy)
    (hd : ∀ t, (f t).disabled = t.disabled) (hw : ∀ t, (f t).widget = t.widget)
    (w : Nat) (m : String) : boundToB (updT st n f) w m = boundToB st w m := by
  unfold boundToB
  rw [lookupT_updT]
  by_cases hm : m = n
  · subst hm
    simp only [if_pos rfl]
    cases lookupT st m with
    | none => rfl
    | some t => simp [hd, hw]
  · simp [hm]

theorem samewOf_updT_keep (st : ZleState) (n : String) (f : Thingy → Thingy)
    (hs : ∀ t, (f t).samew = t.samew) (m : String) :
    samewOf (updT st n f) m = samewOf st m := by
  unfold samewOf
  rw [lookupT_updT]
  by_cases hm : m = n
  · subst hm
    simp only [if_pos rfl]
    cases lookupT st m with
    | none => rfl
    | some t => simp [hs]
  · simp [hm]

/-- An in-place thingy update that leaves the `DISABLED` flag, the widget
pointer and the `samew` link untouched (reference-count or `TH_IMMORTAL`
changes) preserves the invariant. -/
theorem inv_updT_keep (st : ZleState) (n : String) (f : Thingy → Thingy)
    (hd : ∀ t, (f t).disabled = t.disabled) (hw : ∀ t, (f t).widget = t.widget)
    (hs : ∀ t, (f t).samew = t.samew) (hi : Inv st) : Inv (updT st n f) := by
  obtain ⟨k1, k2, k3, k4, k5⟩ := hi
  refine ⟨by simpa [updT, map_fst_aupdate] using k1, k2, fun w wr h => k3 w wr h, ?_, ?_⟩
  · intro m t hm ht
    rw [lookupT_updT] at hm
    by_cases hmn : m = n
    · rw [if_pos hmn] at hm
      cases ho : lookupT st n with
      | none => rw [ho] at hm; exact Option.noConfusion hm
      | some t0 =>
        rw [ho] at hm
        have : t = f t0 := by simpa using hm.symm
        subst this
        rw [hd t0] at ht
        obtain ⟨w, hw0, wr, hwr⟩ := k4 n t0 ho ht
        exact ⟨w, by rw [hw t0]; exact hw0, wr, hwr⟩
    · rw [if_neg hmn] at hm
      exact k4 m t hm ht
  · intro w wr hwr
    obtain ⟨l, hl⟩ := k5 w wr hwr
    exact ⟨l, widgetCycle_congr (boundToB_updT_keep st n f hd hw w)
      (fun x _ => samewOf_updT_keep st n f hs x) rfl hl⟩

theorem boundToB_rthingy (st : ZleState) (n : String) (w : Nat) (m : String) :
    boundToB (rthingy st n) w m = boundToB st w m := by
  unfold boundToB
  rw [lookupT_rthingy]
  by_cases hm : m = n
  · subst hm
    simp only [if_pos rfl]
    cases hn : lookupT st m with
    | none => simp [hn, makethingynode]
    | some t => simp [hn]
  · simp [hm]

theorem samewOf_rthingy (st : ZleState) (n m : String) :
    samewOf (rthingy st n) m = samewOf st m := by
  unfold samewOf
  rw [lookupT_rthingy]
  by_cases hm : m = n
  · subst hm
    simp only [if_pos rfl]
    cases hn : lookupT st m with
    | none => simp [hn, makethingynode]
    | some t => simp [hn]
  · simp [hm]

/-- `rthingy` preserves the invariant. -/
theorem inv_rthingy (st : ZleState) (n : String) (hi : Inv st) :
    Inv (rthingy st n) := by
  obtain ⟨k1, k2, k3, k4, k5⟩ := hi
  refine ⟨?_, ?_, ?_, ?_, ?_⟩
  · rw [tabKeys_rthingy]
    by_cases hn : lookupT st n = none
    · rw [if_pos hn]
      exact List.Nodup.cons ((alookup_eq_none_iff st.tab n).1 hn) k1
    · rw [if_neg hn]; exact k1
  · have : (rthingy st n).widgets = st.widgets := by
      unfold rthingy refthingy
      cases lookupT st n <;> rfl
    rw [this]; exact k2
  · intro w wr h
    rw [lookupW_rthingy] at h
    rw [nextW_rthingy]
    exact k3 w wr h
  · intro m t hm ht
    rw [lookupT_rthingy] at hm
    by_cases hmn : m = n
    · rw [if_pos hmn] at hm
      cases ho : lookupT st n with
      | none =>
        rw [ho] at hm
        have : t = { makethingynode with rc := 1 } := by simpa using hm.symm
        subst this
        simp [makethingynode] at ht
      | some t0 =>
        rw [ho] at hm
        have : t = { t0 with rc := t0.rc + 1 } := by simpa using hm.symm
        subst this
        obtain ⟨w, hw0, wr, hwr⟩ := k4 n t0 ho (by simpa using ht)
        exact ⟨w, hw0, wr, by rw [lookupW_rthingy]; exact hwr⟩
    · rw [if_neg hmn] at hm
      obtain ⟨w, hw0, wr, hwr⟩ := k4 m t hm ht
      exact ⟨w, hw0, wr, by rw [lookupW_rthingy]; exact hwr⟩
  · intro w wr hwr
    rw [lookupW_rthingy] at hwr
    obtain ⟨l, hl⟩ := k5 w wr hwr
    exact ⟨l, widgetCycle_congr (boundToB_rthingy st n w)
      (fun x _ => samewOf_rthingy st n x) (lookupW_rthingy st n w) hl⟩

/-- `unrefthingy` preserves the invariant whenever a node it would remove
is disabled (which the reference-count accounting guarantees: an enabled
node always holds its binding reference). -/
theorem inv_unrefthingy (st : ZleState) (n : String) (hi : Inv st)
    (hdis : ∀ t, lookupT st n = some t → t.rc - 1 = 0 → t.disabled = true) :
    Inv (unrefthingy st n) := by
  obtain ⟨k1, k2, k3, k4, k5⟩ := hi
  cases hn : lookupT st n with
  | none =>
    unfold unrefthingy
    rw [hn]
    exact ⟨k1, k2, k3, k4, k5⟩
  | some t =>
    by_cases hrc : t.rc - 1 = 0
    · have htd : t.disabled = true := hdis t hn hrc
      have hb : ∀ w m, boundToB (unrefthingy st n) w m = boundToB st w m := by
        intro w m
        unfold boundToB
        by_cases hmn : m = n
        · subst hmn
          rw [lookupT_unrefthingy_self st m k1, hn]
          simp [hrc, htd]
        · rw [lookupT_unrefthingy_ne st hmn]
      have hwid : ∀ w, lookupW (unrefthingy st n) w = lookupW st w :=
        lookupW_unrefthingy st n
      refine ⟨tabKeys_unrefthingy_nodup st n k1, ?_, ?_, ?_, ?_⟩
      · have : (unrefthingy st n).widgets = st.widgets := by
          unfold unrefthingy
          rw [hn]
          dsimp only
          rw [if_pos hrc]
        rw [this]; exact k2
      · intro w wr h
        rw [hwid] at h
        rw [nextW_unrefthingy]
        exact k3 w wr h
      · intro m t' hm ht'
        by_cases hmn : m = n
        · subst hmn
          rw [lookupT_unrefthingy_self st m k1, hn] at hm
          simp [hrc] at hm
        · rw [lookupT_unrefthingy_ne st hmn] at hm
          obtain ⟨w, hw0, wr, hwr⟩ := k4 m t' hm ht'
          exact ⟨w, hw0, wr, by rw [hwid]; exact hwr⟩
      · intro w wr hwr
        rw [hwid] at hwr
        obtain ⟨l, hl⟩ := k5 w wr hwr
        refine ⟨l, widgetCycle_congr (hb w) ?_ (hwid w) hl⟩
        intro x hx
        have hxn : x ≠ n := by
          refine cycle_mem_ne hl.2.2.1 hx ?_
          unfold boundToB
          rw [hn]
          simp [htd]
        unfold samewOf
        rw [lookupT_unrefthingy_ne st hxn]
    · have heq : unrefthingy st n = updT st n (fun u => { u with rc := u.rc - 1 }) := by
        unfold unrefthingy
        rw [hn]
        dsimp only
        rw [if_neg hrc]
      rw [heq]
      exact inv_updT_keep st n _ (fun _ => rfl) (fun _ => rfl) (fun _ => rfl)
        ⟨k1, k2, k3, k4, k5⟩

/-- Marking a thingy immortal (`t->flags |= TH_IMMORTAL`) preserves the
invariant. -/
theorem inv_setImmortal (st : ZleState) (n : String) (hi : Inv st) :
    Inv (updT st n (fun u => { u with immortal := true })) :=
  inv_updT_keep st n _ (fun _ => rfl) (fun _ => rfl) (fun _ => rfl) hi

end ZleThingy

namespace ZleThingy

/-! ### Cycle surgery -/

/-- Splicing a new member next to `w->first` (the `bindwidget` list
insertion) turns a widget cycle into a widget cycle. -/
theorem cycle_splice {st st' : ZleState} {w : Nat} {l : List String} {n : String}
    (hcy : WidgetCycle st w l) (hnb : boundToB st w n = false)
    (hw' : ∃ wr', lookupW st' w = some wr' ∧ wr'.first = l.head?)
    (hb : ∀ m, boundToB st' w m = true ↔ (boundToB st w m = true ∨ m = n))
    (hs : ∀ x, x ≠ n → x ≠ l.headD "" → samewOf st' x = samewOf st x)
    (hsn : samewOf st' n = samewOf st (l.headD ""))
    (hsf : samewOf st' (l.headD "") = some n) :
    WidgetCycle st' w (l.headD "" :: n :: l.tail) := by
  obtain ⟨hne, hnd, hmem, _, hchain⟩ := hcy
  obtain ⟨f, r, rfl⟩ : ∃ f r, l = f :: r := by
    cases l with
    | nil => exact absurd rfl hne
    | cons f r => exact ⟨f, r, rfl⟩
  simp only [List.headD_cons, List.tail_cons] at hs hsn hsf ⊢
  have hnl : n ∉ f :: r := by
    intro hmm
    rw [hmem n] at hmm
    rw [hmm] at hnb
    exact Bool.noConfusion hnb
  refine ⟨by simp, ?_, ?_, ?_, ?_⟩
  · -- nodup of f :: n :: r
    rw [List.nodup_cons] at hnd ⊢
    refine ⟨?_, ?_⟩
    · intro hf
      rcases List.mem_cons.1 hf with h | h
      · exact hnl (by rw [← h]; exact List.mem_cons_self f r)
      · exact hnd.1 h
    · rw [List.nodup_cons]
      exact ⟨fun h => hnl (List.mem_cons_of_mem f h), hnd.2⟩
  · -- membership
    intro m
    rw [hb m, ← hmem m]
    constructor
    · intro h
      rcases List.mem_cons.1 h with h | h
      · exact Or.inl (by rw [h]; exact List.mem_cons_self f r)
      · rcases List.mem_cons.1 h with h | h
        · exact Or.inr h
        · exact Or.inl (List.mem_cons_of_mem f h)
    · intro h
      rcases h with h | h
      · rcases List.mem_cons.1 h with h | h
        · rw [h]; exact List.mem_cons_self f (n :: r)
        · exact List.mem_cons_of_mem f (List.mem_cons_of_mem n h)
      · rw [h]; exact List.mem_cons_of_mem f (List.mem_cons_self n r)
  · -- first pointer
    obtain ⟨wr', hwr', hf⟩ := hw'
    exact ⟨wr', hwr', by simpa using hf⟩
  · -- the chain
    simp only [List.headD_cons]
    rw [chainTo_cons₂]
    refine ⟨hsf, ?_⟩
    cases r with
    | nil =>
      rw [chainTo_single, hsn]
      rw [chainTo_single] at hchain
      simpa using hchain
    | cons y r' =>
      rw [chainTo_cons₂] at hchain ⊢
      simp only [List.headD_cons] at hchain
      refine ⟨by rw [hsn]; exact hchain.1, ?_⟩
      have hcong : ∀ x ∈ y :: r', samewOf st' x = samewOf st x := by
        intro x hx
        have hxn : x ≠ n := fun h =>
          hnl (by rw [← h]; exact List.mem_cons_of_mem f hx)
        have hxf : x ≠ f := by
          intro h
          rw [List.nodup_cons] at hnd
          exact hnd.1 (by rw [← h]; exact hx)
        exact hs x hxn hxf
      exact (chainTo_congr hcong).2 hchain.2

/-- Removing a member from a multi-element widget cycle (the
`unbindwidget` list deletion, with `w->first` moved to the found
predecessor) yields a widget cycle again. -/
theorem cycle_surgery {st st' : ZleState} {w : Nat} {l : List String} {n p : String}
    (hcy : WidgetCycle st w l) (hn : n ∈ l) (hp : p ∈ l) (hpn : p ≠ n)
    (hps : samewOf st p = some n)
    (hw' : ∃ wr', lookupW st' w = some wr' ∧ wr'.first = some p)
    (hb : ∀ m, boundToB st' w m = true ↔ (boundToB st w m = true ∧ m ≠ n))
    (hs : ∀ x, x ≠ n → x ≠ p → samewOf st' x = samewOf st x)
    (hsp : samewOf st' p = samewOf st n) :
    ∃ a, WidgetCycle st' w (p :: a) := by
  obtain ⟨hne, hnd, hmem, _, hchain⟩ := hcy
  obtain ⟨l₁, l₂, rfl⟩ := List.append_of_mem hn
  -- rotate the cycle so that `n` is at the head
  have hperm : (l₁ ++ n :: l₂).Perm (n :: (l₂ ++ l₁)) :=
    List.perm_middle.trans (List.Perm.cons n (List.perm_append_comm))
  have hndrot : (n :: (l₂ ++ l₁)).Nodup := hperm.nodup hnd
  have hchrot : chainTo st (n :: (l₂ ++ l₁)) n := chainTo_rotate st hchain
  have hmemrot : ∀ m, m ∈ n :: (l₂ ++ l₁) ↔ m ∈ l₁ ++ n :: l₂ :=
    fun m => (hperm.mem_iff).symm
  have hprot : p ∈ n :: (l₂ ++ l₁) := (hmemrot p).2 hp
  -- locate the predecessor: it must be the last element of the rotation
  have hloc := pred_position st hndrot (by simpa using hchrot) hprot hps hpn
  have hploc : ∃ a, l₂ ++ l₁ = a ++ [p] := by
    rcases hloc with ⟨a, b, hab⟩ | ⟨a, hab⟩
    · -- impossible: `n` would occur twice (or be equal to `p`)
      exfalso
      cases a with
      | nil =>
        simp only [List.nil_append] at hab
        have : n = p := by
          have := congrArg (fun t => t.headD "") hab
          simpa using this
        exact hpn this.symm
      | cons a0 a' =>
        have ha0 : n = a0 := by
          have := congrArg (fun t => t.headD "") hab
          simpa using this
        rw [← ha0] at hab
        have htl : l₂ ++ l₁ = a' ++ p :: n :: b := by
          have := congrArg List.tail hab
          simpa using this
        rw [List.nodup_cons] at hndrot
        exact hndrot.1 (by
          rw [htl]
          exact List.mem_append_right a' (List.mem_cons_of_mem p (List.mem_cons_self n b)))
    · exact ⟨a, by
        have := congrArg List.tail hab
        simpa using this⟩
  obtain ⟨a, ha⟩ := hploc
  refine ⟨a, ?_, ?_, ?_, ?_, ?_⟩
  · simp
  · -- nodup of p :: a
    have : (a ++ [p]).Nodup := by
      rw [List.nodup_cons] at hndrot
      rw [← ha]
      exact hndrot.2
    have hperm2 : (a ++ [p]).Perm (p :: a) := List.perm_append_singleton p a
    exact hperm2.nodup this
  · -- membership
    intro m
    rw [hb m, ← hmem m]
    have hmr := hmemrot m
    rw [ha] at hmr
    constructor
    · intro hmm
      have hma : m ∈ a ++ [p] := (List.perm_append_singleton p a).mem_iff.2 hmm
      have hmn : m ≠ n := by
        intro h
        subst h
        rw [List.nodup_cons, ha] at hndrot
        exact hndrot.1 hma
      exact ⟨hmr.1 (List.mem_cons_of_mem n hma), hmn⟩
    · rintro ⟨hml, hmn⟩
      have : m ∈ n :: (a ++ [p]) := hmr.2 hml
      rcases List.mem_cons.1 this with h | h
      · exact absurd h hmn
      · exact (List.perm_append_singleton p a).mem_iff.1 h
  · -- first pointer
    obtain ⟨wr', hwr', hf⟩ := hw'
    exact ⟨wr', hwr', by simpa using hf⟩
  · -- the chain
    have hchc : chainTo st (n :: (a ++ [p])) n := by rw [← ha]; exact hchrot
    have hpa : p ∉ a := by
      rw [List.nodup_cons, ha] at hndrot
      have := hndrot.2
      rw [List.nodup_append] at this
      intro hmm
      exact this.2.2 hmm (List.mem_singleton_self p)
    have hna : n ∉ a := by
      rw [List.nodup_cons, ha] at hndrot
      intro hmm
      exact hndrot.1 (List.mem_append_left [p] hmm)
    simp only [List.headD_cons]
    cases a with
    | nil =>
      rw [chainTo_single, hsp]
      simp only [List.nil_append] at hchc
      rw [chainTo_cons₂, chainTo_single] at hchc
      simpa using hchc.1
    | cons a0 a' =>
      simp only [List.cons_append] at hchc
      rw [chainTo_cons₂] at hchc
      rw [chainTo_cons₂]
      have hh : samewOf st n = some a0 := by simpa using hchc.1
      refine ⟨by rw [hsp, hh], ?_⟩
      have hch2 : chainTo st ((a0 :: a') ++ [p]) n := hchc.2
      rw [chainTo_append st (a0 :: a') n (by simp)] at hch2
      simp only [List.headD_cons] at hch2
      have hcong : ∀ x ∈ a0 :: a', samewOf st' x = samewOf st x := by
        intro x hx
        exact hs x (fun h => hna (h ▸ hx)) (fun h => hpa (h ▸ hx))
      exact (chainTo_congr hcong).2 hch2.1

end ZleThingy

namespace ZleThingy

/-! ### Analysis of `unbindwidget` -/

/-- A cycle member is a key of the thingy table. -/
theorem cycle_subset_keys {st : ZleState} {w : Nat} {l : List String}
    (hmem : ∀ m, m ∈ l ↔ boundToB st w m = true) :
    ∀ m ∈ l, m ∈ st.tab.map Prod.fst := by
  intro m hm
  rw [hmem] at hm
  unfold boundToB at hm
  cases ht : lookupT st m with
  | none => rw [ht] at hm; exact Bool.noConfusion hm
  | some t => exact mem_of_alookup_eq_some ht

/-- A widget cycle is no longer than the thingy table. -/
theorem cycle_length_le {st : ZleState} {w : Nat} {l : List String}
    (hnd : l.Nodup) (hmem : ∀ m, m ∈ l ↔ boundToB st w m = true) :
    l.length ≤ st.tab.length := by
  have hsub : l.toFinset ⊆ (st.tab.map Prod.fst).toFinset := by
    intro x hx
    rw [List.mem_toFinset] at hx ⊢
    exact cycle_subset_keys hmem x hx
  calc l.length = l.toFinset.card := (List.toFinset_card_of_nodup hnd).symm
    _ ≤ (st.tab.map Prod.fst).toFinset.card := Finset.card_le_card hsub
    _ ≤ (st.tab.map Prod.fst).length := List.toFinset_card_le _
    _ = st.tab.length := by simp

/-- A member whose `samew` link is a self-link is the sole member of its
cycle. -/
theorem cycle_self_loop {st : ZleState} {w : Nat} {l : List String} {n : String}
    (hcy : WidgetCycle st w l) (hnl : n ∈ l) (hself : samewOf st n = some n) :
    l = [n] := by
  obtain ⟨_, hnd, _, _, hchain⟩ := hcy
  obtain ⟨l₁, l₂, rfl⟩ := List.append_of_mem hnl
  have hrot : chainTo st (n :: (l₂ ++ l₁)) n := chainTo_rotate st hchain
  have hndrot : (n :: (l₂ ++ l₁)).Nodup :=
    (List.perm_middle.trans (List.Perm.cons n List.perm_append_comm)).nodup hnd
  cases hc : l₂ ++ l₁ with
  | nil =>
    obtain ⟨h2, h1⟩ := List.append_eq_nil.1 hc
    rw [h1, h2]
    rfl
  | cons c0 c' =>
    exfalso
    rw [hc] at hrot hndrot
    rw [chainTo_cons₂] at hrot
    have : c0 = n := by
      have := hrot.1
      rw [hself] at this
      exact (Option.some.inj this).symm
    subst this
    rw [List.nodup_cons] at hndrot
    exact hndrot.1 (List.mem_cons_self c0 c')

/-- Inside a cycle, the predecessor walk of `unbindwidget` finds a member
whose `samew` link points at the target. -/
theorem cycle_findPred {st : ZleState} {w : Nat} {wr : Widget} {l : List String}
    {n : String} (hcy : WidgetCycle st w l) (hnl : n ∈ l)
    (hns : samewOf st n ≠ some n) (hwr : lookupW st w = some wr) :
    ∃ p pt, findPred st n (st.tab.length + 1) wr.first = some p ∧
      lookupT st p = some pt ∧ pt.samew = some n ∧ p ∈ l ∧ p ≠ n := by
  obtain ⟨hne, hnd, hmem, ⟨wr0, hwr0, hf0⟩, hchain⟩ := hcy
  rw [hwr] at hwr0
  rw [← Option.some.inj hwr0] at hf0
  have hfuel : l.length ≤ st.tab.length + 1 :=
    Nat.le_succ_of_le (cycle_length_le hnd hmem)
  obtain ⟨x, r, rfl⟩ : ∃ x r, l = x :: r := by
    cases l with
    | nil => exact absurd rfl hne
    | cons x r => exact ⟨x, r, rfl⟩
  have hfirst : wr.first = some x := by simpa using hf0
  have hget : ∀ p, p ∈ x :: r → samewOf st p = some n →
      ∃ pt, lookupT st p = some pt ∧ pt.samew = some n := by
    intro p _ hp
    unfold samewOf at hp
    cases ht : lookupT st p with
    | none => rw [ht] at hp; exact Option.noConfusion hp
    | some pt => rw [ht] at hp; exact ⟨pt, rfl, by simpa using hp⟩
  obtain ⟨l₁, l₂, hsplit⟩ := List.append_of_mem hnl
  cases hl₁ : l₁ with
  | nil =>
    -- the target is at the head: walk the whole cycle
    rw [hl₁] at hsplit
    simp only [List.nil_append] at hsplit
    have hxn : x = n := by
      have := congrArg (fun t => t.headD "") hsplit
      simpa using this
    have hchain' : chainTo st (x :: r) n := by
      have : ((x :: r).headD "") = n := by rw [hxn]; rfl
      rw [this] at hchain
      exact hchain
    obtain ⟨p, hp, hpmem, hps⟩ :=
      findPred_of_chainTo st n (x :: r) (st.tab.length + 1) (by simp) hchain' hfuel
    obtain ⟨pt, hpt, hpts⟩ := hget p hpmem hps
    refine ⟨p, pt, ?_, hpt, hpts, hpmem, ?_⟩
    · rw [hfirst]
      simpa using hp
    · intro h
      rw [h] at hps
      exact hns hps
  | cons y l₁' =>
    -- the head starts a proper chain segment ending at the target
    rw [hl₁] at hsplit
    have hxy : x = y := by
      have := congrArg (fun t => t.headD "") hsplit
      simpa using this
    have hch1 : chainTo st l₁ n := by
      have hc := hchain
      rw [hsplit] at hc
      rw [hl₁]
      rw [chainTo_append st (y :: l₁') _ (by simp)] at hc
      simpa using hc.1
    have hlen1 : l₁.length ≤ st.tab.length + 1 := by
      have h2 : l₁.length ≤ (x :: r).length := by
        rw [hsplit, hl₁]
        simp only [List.length_cons, List.cons_append, List.length_append]
        omega
      omega
    obtain ⟨p, hp, hpmem, hps⟩ :=
      findPred_of_chainTo st n l₁ (st.tab.length + 1) (by rw [hl₁]; simp) hch1
        hlen1
    have hpl : p ∈ x :: r := by
      rw [hsplit]
      rw [hl₁] at hpmem
      exact List.mem_append_left _ hpmem
    obtain ⟨pt, hpt, hpts⟩ := hget p hpl hps
    refine ⟨p, pt, ?_, hpt, hpts, hpl, ?_⟩
    · rw [hfirst]
      have hhd : (x :: r).headD "" = l₁.headD "" := by
        rw [hsplit, hl₁]
        simp [hxy]
      rw [← hhd] at hp
      simpa using hp
    · intro h
      rw [h] at hps
      exact hns hps

end ZleThingy

namespace ZleThingy

/-- Flag update applied by `unbindwidget` before releasing the
reference. -/
def unbindFlags (u : Thingy) : Thingy := { u with immortal := false, disabled := true }

/-- Result of `unbindwidget` on an enabled, unprotected thingy that is the
sole member of its widget's cycle: the widget is destroyed and the thingy
disabled, its immortal bit cleared, and one reference released. -/
theorem unbind_views_sole (st : ZleState) (n : String) (ov : Bool) (t : Thingy)
    (w : Nat) (l : List String)
    (hn : lookupT st n = some t) (hd : t.disabled = false)
    (hg : (!ov && t.immortal) = false) (hw : t.widget = some w)
    (hcy : WidgetCycle st w l) (hnl : n ∈ l)
    (hndt : (st.tab.map Prod.fst).Nodup) (hndw : (st.widgets.map Prod.fst).Nodup)
    (hsw : t.samew = some n) :
    l = [n] ∧
    (unbindwidget st n ov).1 = 0 ∧
    lookupT (unbindwidget st n ov).2 n =
      (if t.rc - 1 = 0 then none
       else some { t with rc := t.rc - 1, disabled := true, immortal := false }) ∧
    (∀ m, m ≠ n → lookupT (unbindwidget st n ov).2 m = lookupT st m) ∧
    lookupW (unbindwidget st n ov).2 w = none ∧
    (∀ w', w' ≠ w → lookupW (unbindwidget st n ov).2 w' = lookupW st w') ∧
    (unbindwidget st n ov).2.nextW = st.nextW ∧
    ((unbindwidget st n ov).2.tab.map Prod.fst).Nodup ∧
    ((unbindwidget st n ov).2.widgets.map Prod.fst).Nodup := by
  have hred : unbindwidget st n ov =
      (0, unrefthingy (updT (freewidget st w) n unbindFlags) n) := by
    unfold unbindwidget
    rw [hn]
    dsimp only
    rw [if_neg (by simp [hd]), if_neg (by simp [hg]), hw]
    dsimp only
    rw [if_pos hsw]
    rfl
  have hl : l = [n] := cycle_self_loop hcy hnl (by unfold samewOf; rw [hn]; simpa using hsw)
  have hst2n : lookupT (updT (freewidget st w) n unbindFlags) n =
      some (unbindFlags t) := by
    rw [lookupT_updT]
    simp only [if_pos rfl, lookupT_freewidget]
    rw [hn]
    rfl
  have hkeys2 : (updT (freewidget st w) n unbindFlags).tab.map Prod.fst =
      st.tab.map Prod.fst := by
    simp [updT, freewidget, map_fst_aupdate]
  refine ⟨hl, by rw [hred], ?_, ?_, ?_, ?_, ?_, ?_, ?_⟩
  · rw [hred]
    dsimp only
    rw [lookupT_unrefthingy_self _ n (by rw [hkeys2]; exact hndt), hst2n]
    rfl
  · intro m hm
    rw [hred]
    dsimp only
    rw [lookupT_unrefthingy_ne _ hm, lookupT_updT]
    simp [hm, lookupT_freewidget]
  · rw [hred]
    dsimp only
    rw [lookupW_unrefthingy, lookupW_updT]
    unfold lookupW freewidget
    exact alookup_aremove_self st.widgets w hndw
  · intro w' hw'
    rw [hred]
    dsimp only
    rw [lookupW_unrefthingy, lookupW_updT]
    unfold lookupW freewidget
    exact alookup_aremove_ne st.widgets hw'
  · rw [hred]
    dsimp only
    rw [nextW_unrefthingy]
    rfl
  · rw [hred]
    dsimp only
    exact tabKeys_unrefthingy_nodup _ n (by rw [hkeys2]; exact hndt)
  · rw [hred]
    dsimp only
    have : (unrefthingy (updT (freewidget st w) n unbindFlags) n).widgets =
        aremove st.widgets w := by
      unfold unrefthingy
      cases lookupT (updT (freewidget st w) n unbindFlags) n with
      | none => rfl
      | some u =>
        dsimp only
        by_cases hrc : u.rc - 1 = 0
        · rw [if_pos hrc]
          rfl
        · rw [if_neg hrc]; rfl
    rw [this]
    exact nodup_aremove st.widgets w hndw

end ZleThingy

namespace ZleThingy

theorem widgets_unrefthingy (st : ZleState) (n : String) :
    (unrefthingy st n).widgets = st.widgets := by
  unfold unrefthingy
  cases lookupT st n with
  | none => rfl
  | some u =>
    dsimp only
    by_cases hrc : u.rc - 1 = 0
    · rw [if_pos hrc]
    · rw [if_neg hrc]
      rfl

/-- Result of `unbindwidget` on an enabled, unprotected thingy that
shares its widget's cycle with other names: the predecessor is located by
the walk, the widget's `first` pointer moves to it, its `samew` link skips
the removed member, and the thingy is disabled with one reference
released. -/
theorem unbind_views_multi (st : ZleState) (n : String) (ov : Bool) (t : Thingy)
    (w : Nat) (wr : Widget) (l : List String)
    (hn : lookupT st n = some t) (hd : t.disabled = false)
    (hg : (!ov && t.immortal) = false) (hw : t.widget = some w)
    (hwr : lookupW st w = some wr)
    (hcy : WidgetCycle st w l) (hnl : n ∈ l)
    (hndt : (st.tab.map Prod.fst).Nodup) (hndw : (st.widgets.map Prod.fst).Nodup)
    (hsw : t.samew ≠ some n) :
    ∃ p pt, lookupT st p = some pt ∧ pt.samew = some n ∧ p ∈ l ∧ p ≠ n ∧
    (unbindwidget st n ov).1 = 0 ∧
    lookupT (unbindwidget st n ov).2 n =
      (if t.rc - 1 = 0 then none
       else some { t with rc := t.rc - 1, disabled := true, immortal := false }) ∧
    lookupT (unbindwidget st n ov).2 p = some { pt with samew := t.samew } ∧
    (∀ m, m ≠ n → m ≠ p → lookupT (unbindwidget st n ov).2 m = lookupT st m) ∧
    lookupW (unbindwidget st n ov).2 w = some { wr with first := some p } ∧
    (∀ w', w' ≠ w → lookupW (unbindwidget st n ov).2 w' = lookupW st w') ∧
    (unbindwidget st n ov).2.nextW = st.nextW ∧
    ((unbindwidget st n ov).2.tab.map Prod.fst).Nodup ∧
    ((unbindwidget st n ov).2.widgets.map Prod.fst).Nodup := by
  have hns : samewOf st n ≠ some n := by
    unfold samewOf
    rw [hn]
    simpa using hsw
  obtain ⟨p, pt, hfp, hpt, hpts, hpl, hpn⟩ := cycle_findPred hcy hnl hns hwr
  refine ⟨p, pt, hpt, hpts, hpl, hpn, ?_⟩
  have hred : unbindwidget st n ov =
      (0, unrefthingy (updT (updT (updW st w (fun u => { u with first := some p }))
        p (fun u => { u with samew := t.samew })) n unbindFlags) n) := by
    unfold unbindwidget
    rw [hn]
    dsimp only
    rw [if_neg (by simp [hd]), if_neg (by simp [hg]), hw]
    dsimp only
    rw [if_neg hsw, hwr]
    dsimp only
    rw [hfp]
    rfl
  have hst1n : lookupT (updT (updW st w (fun u => { u with first := some p }))
      p (fun u => { u with samew := t.samew })) n = some t := by
    rw [lookupT_updT]
    rw [if_neg (Ne.symm hpn)]
    rw [lookupT_updW]
    exact hn
  have hst2n : lookupT (updT (updT (updW st w (fun u => { u with first := some p }))
      p (fun u => { u with samew := t.samew })) n unbindFlags) n =
      some (unbindFlags t) := by
    rw [lookupT_updT]
    simp only [if_pos rfl, hst1n]
    rfl
  have hkeys2 : ∀ s1 : ZleState,
      (updT s1 n unbindFlags).tab.map Prod.fst = s1.tab.map Prod.fst := by
    intro s1
    simp [updT, map_fst_aupdate]
  have hkeysall : (updT (updT (updW st w (fun u => { u with first := some p }))
      p (fun u => { u with samew := t.samew })) n unbindFlags).tab.map Prod.fst =
      st.tab.map Prod.fst := by
    simp [updT, updW, map_fst_aupdate]
  refine ⟨by rw [hred], ?_, ?_, ?_, ?_, ?_, ?_, ?_, ?_⟩
  · rw [hred]
    dsimp only
    rw [lookupT_unrefthingy_self _ n (by rw [hkeysall]; exact hndt), hst2n]
    rfl
  · rw [hred]
    dsimp only
    rw [lookupT_unrefthingy_ne _ hpn, lookupT_updT, if_neg hpn, lookupT_updT,
      if_pos rfl, lookupT_updW, hpt]
    rfl
  · intro m hmn hmp
    rw [hred]
    dsimp only
    rw [lookupT_unrefthingy_ne _ hmn, lookupT_updT, if_neg hmn, lookupT_updT,
      if_neg hmp, lookupT_updW]
  · rw [hred]
    dsimp only
    rw [lookupW_unrefthingy, lookupW_updT, lookupW_updT, lookupW_updW,
      if_pos rfl, hwr]
    rfl
  · intro w' hw'
    rw [hred]
    dsimp only
    rw [lookupW_unrefthingy, lookupW_updT, lookupW_updT, lookupW_updW,
      if_neg hw']
  · rw [hred]
    dsimp only
    rw [nextW_unrefthingy]
    rfl
  · rw [hred]
    dsimp only
    exact tabKeys_unrefthingy_nodup _ n (by rw [hkeysall]; exact hndt)
  · rw [hred]
    dsimp only
    rw [widgets_unrefthingy]
    have : (updT (updT (updW st w (fun u => { u with first := some p }))
        p (fun u => { u with samew := t.samew })) n unbindFlags).widgets =
        aupdate st.widgets w (fun u => { u with first := some p }) := rfl
    rw [this]
    simpa [map_fst_aupdate] using hndw

end ZleThingy

namespace ZleThingy

theorem unbind_noop_absent (st : ZleState) (n : String) (ov : Bool)
    (hn : lookupT st n = none) : unbindwidget st n ov = (0, st) := by
  unfold unbindwidget
  rw [hn]

theorem unbind_noop_disabled (st : ZleState) (n : String) (ov : Bool) (t : Thingy)
    (hn : lookupT st n = some t) (hd : t.disabled = true) :
    unbindwidget st n ov = (0, st) := by
  unfold unbindwidget
  rw [hn]
  dsimp only
  rw [if_pos hd]

theorem unbind_protected (st : ZleState) (n : String) (ov : Bool) (t : Thingy)
    (hn : lookupT st n = some t) (hd : t.disabled = false)
    (hg : (!ov && t.immortal) = true) : unbindwidget st n ov = (-1, st) := by
  unfold unbindwidget
  rw [hn]
  dsimp only
  rw [if_neg (by simp [hd]), if_pos hg]

theorem boundToB_eq_of_lookup {st st' : ZleState} {m : String} (w : Nat)
    (h : lookupT st' m = lookupT st m) : boundToB st' w m = boundToB st w m := by
  unfold boundToB
  rw [h]

theorem samewOf_eq_of_lookup {st st' : ZleState} {m : String}
    (h : lookupT st' m = lookupT st m) : samewOf st' m = samewOf st m := by
  unfold samewOf
  rw [h]

/-- `unbindwidget` preserves the registry invariant. -/
theorem inv_unbind (st : ZleState) (n : String) (ov : Bool) (hi : Inv st) :
    Inv (unbindwidget st n ov).2 := by
  obtain ⟨k1, k2, k3, k4, k5⟩ := hi
  cases hn : lookupT st n with
  | none =>
    rw [unbind_noop_absent st n ov hn]
    exact ⟨k1, k2, k3, k4, k5⟩
  | some t =>
    by_cases hd : t.disabled = true
    · rw [unbind_noop_disabled st n ov t hn hd]
      exact ⟨k1, k2, k3, k4, k5⟩
    · have hd' : t.disabled = false := by
        cases hdd : t.disabled
        · rfl
        · exact absurd hdd hd
      by_cases hg : (!ov && t.immortal) = true
      · rw [unbind_protected st n ov t hn hd' hg]
        exact ⟨k1, k2, k3, k4, k5⟩
      · have hg' : (!ov && t.immortal) = false := by
          cases hgg : (!ov && t.immortal)
          · rfl
          · exact absurd hgg hg
        obtain ⟨w, hw, wr, hwr⟩ := k4 n t hn hd'
        obtain ⟨l, hcy⟩ := k5 w wr hwr
        have hbn : boundToB st w n = true := by
          unfold boundToB
          rw [hn]
          simp [hd', hw]
        have hnl : n ∈ l := (hcy.2.2.1 n).2 hbn
        have hbn' : ∀ w', w' ≠ w → boundToB st w' n = false := by
          intro w' hww
          unfold boundToB
          rw [hn]
          dsimp only
          simp [hd', hw]
          intro h
          exact hww h.symm
        by_cases hsw : t.samew = some n
        · -- sole member: the widget is destroyed
          obtain ⟨hl, _, hRn, hRm, hRw, hRw', hnx, hndt', hndw'⟩ :=
            unbind_views_sole st n ov t w l hn hd' hg' hw hcy hnl k1 k2 hsw
          have hRnd : ∀ u, lookupT (unbindwidget st n ov).2 n = some u →
              u.disabled = true := by
            intro u hu
            rw [hRn] at hu
            by_cases hrc : t.rc - 1 = 0
            · rw [if_pos hrc] at hu; exact Option.noConfusion hu
            · rw [if_neg hrc] at hu
              have : u = { t with rc := t.rc - 1, disabled := true, immortal := false } :=
                (Option.some.inj hu).symm
              rw [this]
          have hbR : ∀ w' m, w' ≠ w → boundToB (unbindwidget st n ov).2 w' m =
              boundToB st w' m := by
            intro w' m hww
            by_cases hmn : m = n
            · subst hmn
              rw [hbn' w' hww]
              unfold boundToB
              cases hu : lookupT (unbindwidget st m ov).2 m with
              | none => rfl
              | some u => simp [hRnd u hu]
            · exact boundToB_eq_of_lookup w' (hRm m hmn)
          refine ⟨hndt', hndw', ?_, ?_, ?_⟩
          · intro w'' wr'' h
            rw [hnx]
            by_cases hww : w'' = w
            · subst hww
              rw [hRw] at h
              exact Option.noConfusion h
            · rw [hRw' w'' hww] at h
              exact k3 w'' wr'' h
          · intro m u hm hu
            by_cases hmn : m = n
            · subst hmn
              rw [hRnd u hm] at hu
              exact Bool.noConfusion hu
            · rw [hRm m hmn] at hm
              obtain ⟨wm, hwm, wrm, hwrm⟩ := k4 m u hm hu
              have hwmw : wm ≠ w := by
                intro h
                subst h
                have : m ∈ l := (hcy.2.2.1 m).2 (by
                  unfold boundToB
                  rw [hm]
                  simp [hu, hwm])
                rw [hl] at this
                exact hmn (by simpa using this)
              exact ⟨wm, hwm, wrm, by rw [hRw' wm hwmw]; exact hwrm⟩
          · intro w'' wr'' h
            by_cases hww : w'' = w
            · subst hww
              rw [hRw] at h
              exact Option.noConfusion h
            · rw [hRw' w'' hww] at h
              obtain ⟨l', hl'⟩ := k5 w'' wr'' h
              refine ⟨l', widgetCycle_congr (hbR w'' · hww) ?_ (hRw' w'' hww) hl'⟩
              intro x hx
              have hxn : x ≠ n := cycle_mem_ne hl'.2.2.1 hx (hbn' w'' hww)
              exact samewOf_eq_of_lookup (hRm x hxn)
        · -- several members: splice the thingy out of the cycle
          obtain ⟨p, pt, hpt, hpts, hpl, hpn, _, hRn, hRp, hRm, hRw, hRw', hnx,
            hndt', hndw'⟩ :=
            unbind_views_multi st n ov t w wr l hn hd' hg' hw hwr hcy hnl k1 k2 hsw
          have hbp : boundToB st w p = true := (hcy.2.2.1 p).1 hpl
          have hptd : pt.disabled = false ∧ pt.widget = some w := by
            unfold boundToB at hbp
            rw [hpt] at hbp
            dsimp only at hbp
            cases hpd : pt.disabled
            · refine ⟨rfl, ?_⟩
              rw [hpd] at hbp
              simpa using hbp
            · rw [hpd] at hbp
              simp at hbp
          have hRnd : ∀ u, lookupT (unbindwidget st n ov).2 n = some u →
              u.disabled = true := by
            intro u hu
            rw [hRn] at hu
            by_cases hrc : t.rc - 1 = 0
            · rw [if_pos hrc] at hu; exact Option.noConfusion hu
            · rw [if_neg hrc] at hu
              have : u = { t with rc := t.rc - 1, disabled := true, immortal := false } :=
                (Option.some.inj hu).symm
              rw [this]
          have hbRp : ∀ w', boundToB (unbindwidget st n ov).2 w' p = boundToB st w' p := by
            intro w'
            unfold boundToB
            rw [hRp, hpt]
          have hbRn : ∀ w', boundToB (unbindwidget st n ov).2 w' n = false := by
            intro w'
            unfold boundToB
            cases hu : lookupT (unbindwidget st n ov).2 n with
            | none => rfl
            | some u => simp [hRnd u hu]
          have hbR : ∀ w' m, w' ≠ w → boundToB (unbindwidget st n ov).2 w' m =
              boundToB st w' m := by
            intro w' m hww
            by_cases hmn : m = n
            · subst hmn
              rw [hbRn w', hbn' w' hww]
            · by_cases hmp : m = p
              · subst hmp
                exact hbRp w'
              · exact boundToB_eq_of_lookup w' (hRm m hmn hmp)
          have hsamewR : ∀ x, x ≠ n → x ≠ p →
              samewOf (unbindwidget st n ov).2 x = samewOf st x := by
            intro x h1 h2
            exact samewOf_eq_of_lookup (hRm x h1 h2)
          have hcyR : ∃ a, WidgetCycle (unbindwidget st n ov).2 w (p :: a) := by
            refine cycle_surgery hcy hnl hpl hpn ?_ ?_ ?_ ?_ ?_
            · unfold samewOf
              rw [hpt]
              exact hpts
            · exact ⟨{ wr with first := some p }, hRw, rfl⟩
            · intro m
              constructor
              · intro hm
                by_cases hmn : m = n
                · subst hmn
                  rw [hbRn w] at hm
                  exact Bool.noConfusion hm
                · refine ⟨?_, hmn⟩
                  by_cases hmp : m = p
                  · subst hmp
                    rw [hbRp w] at hm
                    exact hm
                  · rw [boundToB_eq_of_lookup w (hRm m hmn hmp)] at hm
                    exact hm
              · rintro ⟨hm, hmn⟩
                by_cases hmp : m = p
                · subst hmp
                  rw [hbRp w]
                  exact hm
                · rw [boundToB_eq_of_lookup w (hRm m hmn hmp)]
                  exact hm
            · exact hsamewR
            · unfold samewOf
              rw [hRp, hn]
              rfl
          refine ⟨hndt', hndw', ?_, ?_, ?_⟩
          · intro w'' wr'' h
            rw [hnx]
            by_cases hww : w'' = w
            · subst hww
              exact k3 w'' wr hwr
            · rw [hRw' w'' hww] at h
              exact k3 w'' wr'' h
          · intro m u hm hu
            by_cases hmn : m = n
            · subst hmn
              rw [hRnd u hm] at hu
              exact Bool.noConfusion hu
            · by_cases hmp : m = p
              · subst hmp
                rw [hRp] at hm
                have hupt : u = { pt with samew := t.samew } := (Option.some.inj hm).symm
                refine ⟨w, ?_, { wr with first := some m }, hRw⟩
                rw [hupt]
                exact hptd.2
              · rw [hRm m hmn hmp] at hm
                obtain ⟨wm, hwm, wrm, hwrm⟩ := k4 m u hm hu
                by_cases hwmw : wm = w
                · subst hwmw
                  exact ⟨wm, hwm, { wr with first := some p }, hRw⟩
                · exact ⟨wm, hwm, wrm, by rw [hRw' wm hwmw]; exact hwrm⟩
          · intro w'' wr'' h
            by_cases hww : w'' = w
            · subst hww
              obtain ⟨a, ha⟩ := hcyR
              exact ⟨p :: a, ha⟩
            · rw [hRw' w'' hww] at h
              obtain ⟨l', hl'⟩ := k5 w'' wr'' h
              refine ⟨l', widgetCycle_congr (hbR w'' · hww) ?_ (hRw' w'' hww) hl'⟩
              intro x hx
              have hxn : x ≠ n := cycle_mem_ne hl'.2.2.1 hx (hbn' w'' hww)
              have hbp' : boundToB st w'' p = false := by
                unfold boundToB
                rw [hpt]
                dsimp only
                simp [hptd.1, hptd.2]
                intro h2
                exact hww h2.symm
              have hxp : x ≠ p := cycle_mem_ne hl'.2.2.1 hx hbp'
              exact hsamewR x hxn hxp

end ZleThingy

namespace ZleThingy

/-- The invariant with one exempt widget id `xw` (used across the widget
allocation inside `bin_zle_new` / `bin_zle_complete` / `addzlefunction`,
where a freshly allocated widget briefly exists with no bound names). -/
def InvX (st : ZleState) (xw : Option Nat) : Prop :=
  (st.tab.map Prod.fst).Nodup ∧
  (st.widgets.map Prod.fst).Nodup ∧
  (∀ w wr, lookupW st w = some wr → w < st.nextW) ∧
  (∀ n t, lookupT st n = some t → t.disabled = false →
     ∃ w, t.widget = some w ∧ ∃ wr, lookupW st w = some wr) ∧
  (∀ w wr, lookupW st w = some wr → some w ≠ xw → ∃ l, WidgetCycle st w l) ∧
  (∀ x wr, xw = some x → lookupW st x = some wr →
     (∃ l, WidgetCycle st x l) ∨ (wr.first = none ∧ ∀ m, boundToB st x m = false))

theorem inv_to_invx (st : ZleState) (xw : Option Nat) (hi : Inv st) : InvX st xw := by
  obtain ⟨k1, k2, k3, k4, k5⟩ := hi
  exact ⟨k1, k2, k3, k4, fun w wr h _ => k5 w wr h,
    fun x wr _ h => Or.inl (k5 x wr h)⟩

theorem invx_none_to_inv (st : ZleState) (hx : InvX st none) : Inv st := by
  obtain ⟨k1, k2, k3, k4, k5, _⟩ := hx
  exact ⟨k1, k2, k3, k4, fun w wr h => k5 w wr h (by simp)⟩

/-- `unbindwidget` preserves the generalized invariant. -/
theorem invx_unbind (st : ZleState) (n : String) (ov : Bool) (xw : Option Nat)
    (hx : InvX st xw) : InvX (unbindwidget st n ov).2 xw := by
  obtain ⟨k1, k2, k3, k4, k5, k6⟩ := hx
  cases hn : lookupT st n with
  | none =>
    rw [unbind_noop_absent st n ov hn]
    exact ⟨k1, k2, k3, k4, k5, k6⟩
  | some t =>
    by_cases hd : t.disabled = true
    · rw [unbind_noop_disabled st n ov t hn hd]
      exact ⟨k1, k2, k3, k4, k5, k6⟩
    · have hd' : t.disabled = false := by
        cases hdd : t.disabled
        · rfl
        · exact absurd hdd hd
      by_cases hg : (!ov && t.immortal) = true
      · rw [unbind_protected st n ov t hn hd' hg]
        exact ⟨k1, k2, k3, k4, k5, k6⟩
      · have hg' : (!ov && t.immortal) = false := by
          cases hgg : (!ov && t.immortal)
          · rfl
          · exact absurd hgg hg
        obtain ⟨w, hw, wr, hwr⟩ := k4 n t hn hd'
        have hbn : boundToB st w n = true := by
          unfold boundToB
          rw [hn]
          simp [hd', hw]
        have hbn' : ∀ w', w' ≠ w → boundToB st w' n = false := by
          intro w' hww
          unfold boundToB
          rw [hn]
          dsimp only
          simp [hd', hw]
          intro h
          exact hww h.symm
        obtain ⟨l, hcy⟩ : ∃ l, WidgetCycle st w l := by
          by_cases hxw : some w = xw
          · rcases k6 w wr hxw.symm hwr with h | ⟨_, hb0⟩
            · exact h
            · rw [hb0 n] at hbn
              exact Bool.noConfusion hbn
          · exact k5 w wr hwr hxw
        have hnl : n ∈ l := (hcy.2.2.1 n).2 hbn
        by_cases hsw : t.samew = some n
        · -- sole member: the widget is destroyed
          obtain ⟨hl, _, hRn, hRm, hRw, hRw', hnx, hndt', hndw'⟩ :=
            unbind_views_sole st n ov t w l hn hd' hg' hw hcy hnl k1 k2 hsw
          have hRnd : ∀ u, lookupT (unbindwidget st n ov).2 n = some u →
              u.disabled = true := by
            intro u hu
            rw [hRn] at hu
            by_cases hrc : t.rc - 1 = 0
            · rw [if_pos hrc] at hu; exact Option.noConfusion hu
            · rw [if_neg hrc] at hu
              have : u = { t with rc := t.rc - 1, disabled := true, immortal := false } :=
                (Option.some.inj hu).symm
              rw [this]
          have hbR : ∀ w' m, w' ≠ w → boundToB (unbindwidget st n ov).2 w' m =
              boundToB st w' m := by
            intro w' m hww
            by_cases hmn : m = n
            · subst hmn
              rw [hbn' w' hww]
              unfold boundToB
              cases hu : lookupT (unbindwidget st m ov).2 m with
              | none => rfl
              | some u => simp [hRnd u hu]
            · exact boundToB_eq_of_lookup w' (hRm m hmn)
          refine ⟨hndt', hndw', ?_, ?_, ?_, ?_⟩
          · intro w'' wr'' h
            rw [hnx]
            by_cases hww : w'' = w
            · subst hww
              rw [hRw] at h
              exact Option.noConfusion h
            · rw [hRw' w'' hww] at h
              exact k3 w'' wr'' h
          · intro m u hm hu
            by_cases hmn : m = n
            · subst hmn
              rw [hRnd u hm] at hu
              exact Bool.noConfusion hu
            · rw [hRm m hmn] at hm
              obtain ⟨wm, hwm, wrm, hwrm⟩ := k4 m u hm hu
              have hwmw : wm ≠ w := by
                intro h
                subst h
                have : m ∈ l := (hcy.2.2.1 m).2 (by
                  unfold boundToB
                  rw [hm]
                  simp [hu, hwm])
                rw [hl] at this
                exact hmn (by simpa using this)
              exact ⟨wm, hwm, wrm, by rw [hRw' wm hwmw]; exact hwrm⟩
          · intro w'' wr'' h hxne
            by_cases hww : w'' = w
            · subst hww
              rw [hRw] at h
              exact Option.noConfusion h
            · rw [hRw' w'' hww] at h
              obtain ⟨l', hl'⟩ := k5 w'' wr'' h hxne
              refine ⟨l', widgetCycle_congr (hbR w'' · hww) ?_ (hRw' w'' hww) hl'⟩
              intro x hx
              have hxn : x ≠ n := cycle_mem_ne hl'.2.2.1 hx (hbn' w'' hww)
              exact samewOf_eq_of_lookup (hRm x hxn)
          · intro x wrx hxeq hlx
            by_cases hww : x = w
            · subst hww
              rw [hRw] at hlx
              exact Option.noConfusion hlx
            · rw [hRw' x hww] at hlx
              rcases k6 x wrx hxeq hlx with ⟨l', hl'⟩ | ⟨hf0, hb0⟩
              · refine Or.inl ⟨l', widgetCycle_congr (hbR x · hww) ?_ (hRw' x hww) hl'⟩
                intro y hy
                have hyn : y ≠ n := cycle_mem_ne hl'.2.2.1 hy (hbn' x hww)
                exact samewOf_eq_of_lookup (hRm y hyn)
              · refine Or.inr ⟨hf0, ?_⟩
                intro m
                rw [hbR x m hww]
                exact hb0 m
        · -- several members: splice the thingy out of the cycle
          obtain ⟨p, pt, hpt, hpts, hpl, hpn, _, hRn, hRp, hRm, hRw, hRw', hnx,
            hndt', hndw'⟩ :=
            unbind_views_multi st n ov t w wr l hn hd' hg' hw hwr hcy hnl k1 k2 hsw
          have hbp : boundToB st w p = true := (hcy.2.2.1 p).1 hpl
          have hptd : pt.disabled = false ∧ pt.widget = some w := by
            unfold boundToB at hbp
            rw [hpt] at hbp
            dsimp only at hbp
            cases hpd : pt.disabled
            · refine ⟨rfl, ?_⟩
              rw [hpd] at hbp
              simpa using hbp
            · rw [hpd] at hbp
              simp at hbp
          have hRnd : ∀ u, lookupT (unbindwidget st n ov).2 n = some u →
              u.disabled = true := by
            intro u hu
            rw [hRn] at hu
            by_cases hrc : t.rc - 1 = 0
            · rw [if_pos hrc] at hu; exact Option.noConfusion hu
            · rw [if_neg hrc] at hu
              have : u = { t with rc := t.rc - 1, disabled := true, immortal := false } :=
                (Option.some.inj hu).symm
              rw [this]
          have hbRp : ∀ w', boundToB (unbindwidget st n ov).2 w' p = boundToB st w' p := by
            intro w'
            unfold boundToB
            rw [hRp, hpt]
          have hbRn : ∀ w', boundToB (unbindwidget st n ov).2 w' n = false := by
            intro w'
            unfold boundToB
            cases hu : lookupT (unbindwidget st n ov).2 n with
            | none => rfl
            | some u => simp [hRnd u hu]
          have hbR : ∀ w' m, w' ≠ w → boundToB (unbindwidget st n ov).2 w' m =
              boundToB st w' m := by
            intro w' m hww
            by_cases hmn : m = n
            · subst hmn
              rw [hbRn w', hbn' w' hww]
            · by_cases hmp : m = p
              · subst hmp
                exact hbRp w'
              · exact boundToB_eq_of_lookup w' (hRm m hmn hmp)
          have hsamewR : ∀ x, x ≠ n → x ≠ p →
              samewOf (unbindwidget st n ov).2 x = samewOf st x := by
            intro x h1 h2
            exact samewOf_eq_of_lookup (hRm x h1 h2)
          have hbp'' : ∀ w'', w'' ≠ w → boundToB st w'' p = false := by
            intro w'' hww
            unfold boundToB
            rw [hpt]
            dsimp only
            simp [hptd.1, hptd.2]
            intro h2
            exact hww h2.symm
          have hcyR : ∃ a, WidgetCycle (unbindwidget st n ov).2 w (p :: a) := by
            refine cycle_surgery hcy hnl hpl hpn ?_ ?_ ?_ ?_ ?_
            · unfold samewOf
              rw [hpt]
              exact hpts
            · exact ⟨{ wr with first := some p }, hRw, rfl⟩
            · intro m
              constructor
              · intro hm
                by_cases hmn : m = n
                · subst hmn
                  rw [hbRn w] at hm
                  exact Bool.noConfusion hm
                · refine ⟨?_, hmn⟩
                  by_cases hmp : m = p
                  · subst hmp
                    rw [hbRp w] at hm
                    exact hm
                  · rw [boundToB_eq_of_lookup w (hRm m hmn hmp)] at hm
                    exact hm
              · rintro ⟨hm, hmn⟩
                by_cases hmp : m = p
                · subst hmp
                  rw [hbRp w]
                  exact hm
                · rw [boundToB_eq_of_lookup w (hRm m hmn hmp)]
                  exact hm
            · exact hsamewR
            · unfold samewOf
              rw [hRp, hn]
              rfl
          refine ⟨hndt', hndw', ?_, ?_, ?_, ?_⟩
          · intro w'' wr'' h
            rw [hnx]
            by_cases hww : w'' = w
            · subst hww
              exact k3 w'' wr hwr
            · rw [hRw' w'' hww] at h
              exact k3 w'' wr'' h
          · intro m u hm hu
            by_cases hmn : m = n
            · subst hmn
              rw [hRnd u hm] at hu
              exact Bool.noConfusion hu
            · by_cases hmp : m = p
              · subst hmp
                rw [hRp] at hm
                have hupt : u = { pt with samew := t.samew } := (Option.some.inj hm).symm
                refine ⟨w, ?_, { wr with first := some m }, hRw⟩
                rw [hupt]
                exact hptd.2
              · rw [hRm m hmn hmp] at hm
                obtain ⟨wm, hwm, wrm, hwrm⟩ := k4 m u hm hu
                by_cases hwmw : wm = w
                · subst hwmw
                  exact ⟨wm, hwm, { wr with first := some p }, hRw⟩
                · exact ⟨wm, hwm, wrm, by rw [hRw' wm hwmw]; exact hwrm⟩
          · intro w'' wr'' h hxne
            by_cases hww : w'' = w
            · subst hww
              obtain ⟨a, ha⟩ := hcyR
              exact ⟨p :: a, ha⟩
            · rw [hRw' w'' hww] at h
              obtain ⟨l', hl'⟩ := k5 w'' wr'' h hxne
              refine ⟨l', widgetCycle_congr (hbR w'' · hww) ?_ (hRw' w'' hww) hl'⟩
              intro x hx
              have hxn : x ≠ n := cycle_mem_ne hl'.2.2.1 hx (hbn' w'' hww)
              have hxp : x ≠ p := cycle_mem_ne hl'.2.2.1 hx (hbp'' w'' hww)
              exact hsamewR x hxn hxp
          · intro x wrx hxeq hlx
            by_cases hww : x = w
            · subst hww
              obtain ⟨a, ha⟩ := hcyR
              exact Or.inl ⟨p :: a, ha⟩
            · rw [hRw' x hww] at hlx
              rcases k6 x wrx hxeq hlx with ⟨l', hl'⟩ | ⟨hf0, hb0⟩
              · refine Or.inl ⟨l', widgetCycle_congr (hbR x · hww) ?_ (hRw' x hww) hl'⟩
                intro y hy
                have hyn : y ≠ n := cycle_mem_ne hl'.2.2.1 hy (hbn' x hww)
                have hyp : y ≠ p := cycle_mem_ne hl'.2.2.1 hy (hbp'' x hww)
                exact hsamewR y hyn hyp
              · refine Or.inr ⟨hf0, ?_⟩
                intro m
                rw [hbR x m hww]
                exact hb0 m

end ZleThingy

namespace ZleThingy

/-! ### Analysis of `bindwidget` -/

theorem boundToB_record {st st' : ZleState} {m : String} {u v : Thingy} (w : Nat)
    (h' : lookupT st' m = some u) (h : lookupT st m = some v)
    (hd : u.disabled = v.disabled) (hw : u.widget = v.widget) :
    boundToB st' w m = boundToB st w m := by
  unfold boundToB
  rw [h', h]
  dsimp only
  rw [hd, hw]

theorem boundToB_false_of_widget {st : ZleState} {m : String} {u : Thingy} {w0 w' : Nat}
    (h : lookupT st m = some u) (hw : u.widget = some w0) (hne : w0 ≠ w') :
    boundToB st w' m = false := by
  unfold boundToB
  rw [h]
  dsimp only
  rw [hw]
  simp [hne]

theorem boundToB_false_of_disabled {st : ZleState} {w : Nat} {m : String} {u : Thingy}
    (h : lookupT st m = some u) (hd : u.disabled = true) :
    boundToB st w m = false := by
  unfold boundToB
  rw [h]
  simp [hd]

theorem boundToB_true_intro {st : ZleState} {w : Nat} {m : String} {u : Thingy}
    (h : lookupT st m = some u) (hd : u.disabled = false) (hw : u.widget = some w) :
    boundToB st w m = true := by
  unfold boundToB
  rw [h]
  simp [hd, hw]

theorem boundToB_true_elim {st : ZleState} {w : Nat} {m : String}
    (h : boundToB st w m = true) :
    ∃ u, lookupT st m = some u ∧ u.disabled = false ∧ u.widget = some w := by
  unfold boundToB at h
  cases hm : lookupT st m with
  | none => rw [hm] at h; exact Bool.noConfusion h
  | some u =>
    rw [hm] at h
    dsimp only at h
    refine ⟨u, rfl, ?_, ?_⟩
    · cases hd : u.disabled
      · rfl
      · rw [hd] at h; simp at h
    · have h2 := h
      simp at h2
      exact h2.2

theorem samewOf_some {st : ZleState} {m : String} {u : Thingy}
    (h : lookupT st m = some u) : samewOf st m = u.samew := by
  unfold samewOf
  rw [h]
  rfl

/-- The splice step of `bindwidget` restores the full invariant: starting
from a state whose only exempt widget is `w` itself and a disabled (just
unbound or fresh) thingy, after the splice every widget of the store has a
well-formed cycle. -/
theorem inv_spliceIn (S : ZleState) (w : Nat) (tn : String) (t1 : Thingy) (wr : Widget)
    (hx : InvX S (some w)) (htn : lookupT S tn = some t1) (hd1 : t1.disabled = true)
    (hwr : lookupW S w = some wr) : Inv (spliceIn S w tn) := by
  obtain ⟨j1, j2, j3, j4, j5, j6⟩ := hx
  have hbtn : ∀ w', boundToB S w' tn = false :=
    fun w' => boundToB_false_of_disabled htn hd1
  rcases j6 w wr rfl hwr with ⟨l1, hcyc⟩ | ⟨hfresh, hb0⟩
  · -- the widget already has a cycle: insert next to `w->first`
    obtain ⟨f, r, rfl⟩ : ∃ f r, l1 = f :: r := by
      cases l1 with
      | nil => exact absurd rfl hcyc.1
      | cons f r => exact ⟨f, r, rfl⟩
    obtain ⟨wr0, hwr0, hf0⟩ := hcyc.2.2.2.1
    have hwr0eq : wr0 = wr := Option.some.inj (hwr0.symm.trans hwr)
    subst hwr0eq
    have hfirst : wr0.first = some f := by simpa using hf0
    have hbf : boundToB S w f = true := (hcyc.2.2.1 f).1 (List.mem_cons_self f r)
    obtain ⟨f1, hf1, hf1d, hf1w⟩ := boundToB_true_elim hbf
    have hftn : f ≠ tn := by
      intro h
      rw [h] at hbf
      rw [hbtn w] at hbf
      exact Bool.noConfusion hbf
    have hred : spliceIn S w tn =
        updT (updT (updT S tn (fun u => { u with samew := samewOf S f })) f
          (fun ft => { ft with samew := some tn })) tn
          (fun u => { u with widget := some w, disabled := false }) := by
      unfold spliceIn
      rw [hwr0]
      dsimp only
      rw [hfirst]
      rfl
    have hRtn : lookupT (spliceIn S w tn) tn =
        some { t1 with samew := samewOf S f, widget := some w, disabled := false } := by
      rw [hred]
      simp only [lookupT_updT, if_pos rfl, if_neg (Ne.symm hftn), htn]
      rfl
    have hRf : lookupT (spliceIn S w tn) f =
        some { f1 with samew := some tn } := by
      rw [hred]
      simp only [lookupT_updT, if_pos rfl, if_neg hftn, hf1]
      rfl
    have hRm : ∀ m, m ≠ tn → m ≠ f → lookupT (spliceIn S w tn) m = lookupT S m := by
      intro m h1 h2
      rw [hred, lookupT_updT, if_neg h1, lookupT_updT, if_neg h2, lookupT_updT,
        if_neg h1]
    have hRW : ∀ w', lookupW (spliceIn S w tn) w' = lookupW S w' := by
      intro w'
      rw [hred, lookupW_updT, lookupW_updT, lookupW_updT]
    have hRnx : (spliceIn S w tn).nextW = S.nextW := by
      rw [hred]
      rfl
    have hRkeys : ((spliceIn S w tn).tab.map Prod.fst) = S.tab.map Prod.fst := by
      rw [hred]
      simp [updT, map_fst_aupdate]
    have hnewcy : WidgetCycle (spliceIn S w tn) w (f :: tn :: r) := by
      have h := @cycle_splice S (spliceIn S w tn) w (f :: r) tn
        hcyc (hbtn w) ?_ ?_ ?_ ?_ ?_
      · simpa using h
      · exact ⟨wr0, by rw [hRW]; exact hwr0, hf0⟩
      · intro m
        constructor
        · intro hm
          by_cases h1 : m = tn
          · exact Or.inr h1
          · by_cases h2 : m = f
            · subst h2
              refine Or.inl ?_
              rw [boundToB_record w hRf hf1 rfl rfl] at hm
              exact hm
            · rw [boundToB_eq_of_lookup w (hRm m h1 h2)] at hm
              exact Or.inl hm
        · intro hm
          rcases hm with hm | hm
          · by_cases h2 : m = f
            · subst h2
              rw [boundToB_record w hRf hf1 rfl rfl]
              exact hm
            · have h1 : m ≠ tn := by
                intro h
                rw [h, hbtn w] at hm
                exact Bool.noConfusion hm
              rw [boundToB_eq_of_lookup w (hRm m h1 h2)]
              exact hm
          · subst hm
            exact boundToB_true_intro hRtn rfl rfl
      · intro x h1 h2
        simp only [List.headD_cons] at h2
        exact samewOf_eq_of_lookup (hRm x h1 h2)
      · simp only [List.headD_cons]
        rw [samewOf_some hRtn]
      · simp only [List.headD_cons]
        rw [samewOf_some hRf]
    refine ⟨by rw [hRkeys]; exact j1, ?_, ?_, ?_, ?_⟩
    · have : (spliceIn S w tn).widgets = S.widgets := by rw [hred]; rfl
      rw [this]
      exact j2
    · intro w'' wr'' h
      rw [hRnx]
      rw [hRW] at h
      exact j3 w'' wr'' h
    · intro m u hm hu
      by_cases h1 : m = tn
      · subst h1
        rw [hRtn] at hm
        have hueq : u = { t1 with samew := samewOf S f, widget := some w, disabled := false } :=
          (Option.some.inj hm).symm
        refine ⟨w, by rw [hueq], wr0, by rw [hRW]; exact hwr0⟩
      · by_cases h2 : m = f
        · subst h2
          rw [hRf] at hm
          have hueq : u = { f1 with samew := some tn } := (Option.some.inj hm).symm
          obtain ⟨wm, hwm, wrm, hwrm⟩ := j4 m f1 hf1 (by
            rw [hueq] at hu
            exact hu)
          exact ⟨wm, by rw [hueq]; exact hwm, wrm, by rw [hRW]; exact hwrm⟩
        · rw [hRm m h1 h2] at hm
          obtain ⟨wm, hwm, wrm, hwrm⟩ := j4 m u hm hu
          exact ⟨wm, hwm, wrm, by rw [hRW]; exact hwrm⟩
    · intro w'' wr'' h
      by_cases hww : w'' = w
      · subst hww
        exact ⟨f :: tn :: r, hnewcy⟩
      · rw [hRW] at h
        obtain ⟨l'', hl''⟩ := j5 w'' wr'' h (by simp [hww])
        refine ⟨l'', widgetCycle_congr ?_ ?_ (hRW w'') hl''⟩
        · intro m
          by_cases h1 : m = tn
          · subst h1
            rw [hbtn w'']
            exact boundToB_false_of_widget hRtn rfl (Ne.symm hww)
          · by_cases h2 : m = f
            · subst h2
              exact boundToB_record w'' hRf hf1 rfl rfl
            · exact boundToB_eq_of_lookup w'' (hRm m h1 h2)
        · intro x hxm
          have h1 : x ≠ tn := cycle_mem_ne hl''.2.2.1 hxm (hbtn w'')
          have h2 : x ≠ f := cycle_mem_ne hl''.2.2.1 hxm
            (boundToB_false_of_widget hf1 hf1w (Ne.symm hww))
          exact samewOf_eq_of_lookup (hRm x h1 h2)
  · -- fresh widget with no names yet: the thingy becomes the sole member
    have hred : spliceIn S w tn =
        updT (updT (updW S w (fun u => { u with first := some tn })) tn
          (fun u => { u with samew := some tn })) tn
          (fun u => { u with widget := some w, disabled := false }) := by
      unfold spliceIn
      rw [hwr]
      dsimp only
      rw [hfresh]
    have hRtn : lookupT (spliceIn S w tn) tn =
        some { t1 with samew := some tn, widget := some w, disabled := false } := by
      rw [hred]
      simp only [lookupT_updT, if_pos rfl, lookupT_updW, htn]
      rfl
    have hRm : ∀ m, m ≠ tn → lookupT (spliceIn S w tn) m = lookupT S m := by
      intro m h1
      rw [hred, lookupT_updT, if_neg h1, lookupT_updT, if_neg h1, lookupT_updW]
    have hRWw : lookupW (spliceIn S w tn) w = some { wr with first := some tn } := by
      rw [hred, lookupW_updT, lookupW_updT, lookupW_updW]
      simp only [if_pos rfl, hwr]
      rfl
    have hRW : ∀ w', w' ≠ w → lookupW (spliceIn S w tn) w' = lookupW S w' := by
      intro w' hww
      rw [hred, lookupW_updT, lookupW_updT, lookupW_updW, if_neg hww]
    have hRnx : (spliceIn S w tn).nextW = S.nextW := by
      rw [hred]
      rfl
    have hRkeys : ((spliceIn S w tn).tab.map Prod.fst) = S.tab.map Prod.fst := by
      rw [hred]
      simp [updT, updW, map_fst_aupdate]
    have hnewcy : WidgetCycle (spliceIn S w tn) w [tn] := by
      refine ⟨by simp, by simp, ?_, ⟨{ wr with first := some tn }, hRWw, rfl⟩, ?_⟩
      · intro m
        constructor
        · intro hm
          have : m = tn := by simpa using hm
          subst this
          exact boundToB_true_intro hRtn rfl rfl
        · intro hm
          by_cases h1 : m = tn
          · simp [h1]
          · rw [boundToB_eq_of_lookup w (hRm m h1), hb0 m] at hm
            exact Bool.noConfusion hm
      · rw [chainTo_single, samewOf_some hRtn]
        rfl
    refine ⟨by rw [hRkeys]; exact j1, ?_, ?_, ?_, ?_⟩
    · have : (spliceIn S w tn).widgets =
          aupdate S.widgets w (fun u => { u with first := some tn }) := by
        rw [hred]
        rfl
      rw [this]
      simpa [map_fst_aupdate] using j2
    · intro w'' wr'' h
      rw [hRnx]
      by_cases hww : w'' = w
      · subst hww
        exact j3 w'' wr hwr
      · rw [hRW w'' hww] at h
        exact j3 w'' wr'' h
    · intro m u hm hu
      by_cases h1 : m = tn
      · subst h1
        rw [hRtn] at hm
        have hueq : u = { t1 with samew := some m, widget := some w, disabled := false } :=
          (Option.some.inj hm).symm
        exact ⟨w, by rw [hueq], { wr with first := some m }, hRWw⟩
      · rw [hRm m h1] at hm
        obtain ⟨wm, hwm, wrm, hwrm⟩ := j4 m u hm hu
        by_cases hwmw : wm = w
        · subst hwmw
          exact ⟨wm, hwm, { wr with first := some tn }, hRWw⟩
        · exact ⟨wm, hwm, wrm, by rw [hRW wm hwmw]; exact hwrm⟩
    · intro w'' wr'' h
      by_cases hww : w'' = w
      · subst hww
        exact ⟨[tn], hnewcy⟩
      · rw [hRW w'' hww] at h
        obtain ⟨l'', hl''⟩ := j5 w'' wr'' h (by simp [hww])
        refine ⟨l'', widgetCycle_congr ?_ ?_ (hRW w'' hww) hl''⟩
        · intro m
          by_cases h1 : m = tn
          · subst h1
            rw [hbtn w'']
            exact boundToB_false_of_widget hRtn rfl (Ne.symm hww)
          · exact boundToB_eq_of_lookup w'' (hRm m h1)
        · intro x hxm
          have h1 : x ≠ tn := cycle_mem_ne hl''.2.2.1 hxm (hbtn w'')
          exact samewOf_eq_of_lookup (hRm x h1)

end ZleThingy

namespace ZleThingy

/-- `bindwidget` on a non-immortal thingy (whose reference count the
caller has incremented, so an enabled thingy holds at least two
references) restores the full invariant, starting from a state whose only
possibly-empty widget is the bind target itself. -/
theorem invx_bind (st : ZleState) (w : Nat) (tn : String) (wr : Widget) (t : Thingy)
    (hx : InvX st (some w)) (hwr : lookupW st w = some wr)
    (htn : lookupT st tn = some t) (hni : t.immortal = false)
    (hsurv : t.disabled = false → 2 ≤ t.rc) :
    Inv (bindwidget st w tn).2 := by
  have hred0 : bindwidget st w tn =
      (if !t.disabled && t.widget = some w then (0, st)
       else (0, spliceIn (if !t.disabled then (unbindwidget st tn true).2 else st)
          w tn)) := by
    unfold bindwidget
    rw [htn]
    dsimp only
    rw [if_neg (by simp [hni])]
  by_cases hno : (!t.disabled && decide (t.widget = some w)) = true
  · -- already bound to this widget: a successful no-op
    have hred : bindwidget st w tn = (0, st) := by
      rw [hred0, if_pos hno]
    rw [hred]
    obtain ⟨j1, j2, j3, j4, j5, j6⟩ := hx
    have htd : t.disabled = false ∧ t.widget = some w := by
      simp only [Bool.and_eq_true, Bool.not_eq_true', decide_eq_true_eq] at hno
      exact hno
    have hb : boundToB st w tn = true := boundToB_true_intro htn htd.1 htd.2
    refine ⟨j1, j2, j3, j4, ?_⟩
    intro w'' wr'' h
    by_cases hww : w'' = w
    · subst hww
      rcases j6 w'' wr'' rfl h with hcyc | ⟨_, hb0⟩
      · exact hcyc
      · rw [hb0 tn] at hb
        exact Bool.noConfusion hb
    · exact j5 w'' wr'' h (by simp [hww])
  · have hred : bindwidget st w tn =
        (0, spliceIn (if !t.disabled then (unbindwidget st tn true).2 else st) w tn) := by
      rw [hred0, if_neg hno]
    rw [hred]
    by_cases hdt : t.disabled = true
    · -- the thingy was disabled: splice directly
      have hst1 : (if !t.disabled then (unbindwidget st tn true).2 else st) = st := by
        rw [hdt]
        rfl
      rw [hst1]
      exact inv_spliceIn st w tn t wr hx htn hdt hwr
    · -- the thingy was bound elsewhere: unbind with override, then splice
      have hd' : t.disabled = false := by
        cases hdd : t.disabled
        · rfl
        · exact absurd hdd hdt
      have hst1 : (if !t.disabled then (unbindwidget st tn true).2 else st) =
          (unbindwidget st tn true).2 := by
        rw [hd']
        rfl
      rw [hst1]
      obtain ⟨j1, j2, j3, j4, j5, j6⟩ := hx
      obtain ⟨w', hw', wr', hwr'⟩ := j4 tn t htn hd'
      have hww' : w' ≠ w := by
        intro h
        subst h
        rw [hd', hw'] at hno
        simp at hno
      obtain ⟨l, hcy⟩ := j5 w' wr' hwr' (by simp [hww'])
      have hnl : tn ∈ l := (hcy.2.2.1 tn).2 (boundToB_true_intro htn hd' hw')
      have hx1 : InvX (unbindwidget st tn true).2 (some w) :=
        invx_unbind st tn true (some w) ⟨j1, j2, j3, j4, j5, j6⟩
      have hrc2 : ¬(t.rc - 1 = 0) := by
        have := hsurv hd'
        omega
      have hg' : (!true && t.immortal) = false := by simp
      have hkey : lookupT (unbindwidget st tn true).2 tn =
          some { t with rc := t.rc - 1, disabled := true, immortal := false } ∧
          lookupW (unbindwidget st tn true).2 w = lookupW st w := by
        by_cases hsw : t.samew = some tn
        · obtain ⟨_, _, hRn, _, _, hRw', _, _, _⟩ :=
            unbind_views_sole st tn true t w' l htn hd' hg' hw' hcy hnl j1 j2 hsw
          exact ⟨by rw [hRn, if_neg hrc2], hRw' w hww'.symm⟩
        · obtain ⟨p, pt, _, _, _, _, _, hRn, _, _, _, hRw', _, _, _⟩ :=
            unbind_views_multi st tn true t w' wr' l htn hd' hg' hw' hwr' hcy hnl
              j1 j2 hsw
          exact ⟨by rw [hRn, if_neg hrc2], hRw' w hww'.symm⟩
      exact inv_spliceIn (unbindwidget st tn true).2 w tn
        { t with rc := t.rc - 1, disabled := true, immortal := false } wr hx1
        hkey.1 rfl (by rw [hkey.2]; exact hwr)

end ZleThingy

namespace ZleThingy

/-! ### Reference-count bookkeeping across the operations -/

theorem bind_immortal_eq (st : ZleState) (w : Nat) (tn : String) (t : Thingy)
    (htn : lookupT st tn = some t) (hi : t.immortal = true) :
    bindwidget st w tn = (-1, unrefthingy st tn) := by
  unfold bindwidget
  rw [htn]
  dsimp only
  rw [if_pos hi]

theorem bind_noop_eq (st : ZleState) (w : Nat) (tn : String) (t : Thingy)
    (htn : lookupT st tn = some t) (hi : t.immortal = false)
    (hc : (!t.disabled && decide (t.widget = some w)) = true) :
    bindwidget st w tn = (0, st) := by
  unfold bindwidget
  rw [htn]
  dsimp only
  rw [if_neg (by simp [hi]), if_pos hc]

theorem bind_main_eq (st : ZleState) (w : Nat) (tn : String) (t : Thingy)
    (htn : lookupT st tn = some t) (hi : t.immortal = false)
    (hc : (!t.disabled && decide (t.widget = some w)) = false) :
    bindwidget st w tn =
      (0, spliceIn (if !t.disabled then (unbindwidget st tn true).2 else st) w tn) := by
  unfold bindwidget
  rw [htn]
  dsimp only
  rw [if_neg (by simp [hi]), if_neg (by simp [hc])]

theorem lookupT_updT_self (st : ZleState) (k : String) (f : Thingy → Thingy) :
    lookupT (updT st k f) k = (lookupT st k).map f := by
  rw [lookupT_updT]
  simp

theorem lookupT_updT_ne (st : ZleState) {k m : String} (f : Thingy → Thingy)
    (h : m ≠ k) : lookupT (updT st k f) m = lookupT st m := by
  rw [lookupT_updT, if_neg h]

/-- Reference counts and `DISABLED` bits across the splice step: the
target becomes enabled with its count unchanged; every other record keeps
its count and flag (only a `samew` link may change). -/
theorem spliceIn_rc (S : ZleState) (w : Nat) (tn : String) (t1 : Thingy)
    (htn : lookupT S tn = some t1) :
    (∃ u, lookupT (spliceIn S w tn) tn = some u ∧ u.rc = t1.rc ∧
      u.disabled = false ∧ u.widget = some w) ∧
    (∀ m v, m ≠ tn → lookupT S m = some v →
       ∃ u, lookupT (spliceIn S w tn) m = some u ∧ u.rc = v.rc ∧
         u.disabled = v.disabled) ∧
    (∀ m, m ≠ tn → lookupT S m = none → lookupT (spliceIn S w tn) m = none) := by
  unfold spliceIn
  cases hw : lookupW S w with
  | none =>
    dsimp only
    refine ⟨⟨{ t1 with widget := some w, disabled := false }, ?_, rfl, rfl, rfl⟩, ?_, ?_⟩
    · rw [lookupT_updT_self, htn]
      rfl
    · intro m v hm hv
      rw [lookupT_updT_ne _ _ hm, hv]
      exact ⟨v, rfl, rfl, rfl⟩
    · intro m hm hv
      rw [lookupT_updT_ne _ _ hm, hv]
  | some wrec =>
    dsimp only
    cases hf : wrec.first with
    | some f =>
      dsimp only
      by_cases hftn : f = tn
      · subst hftn
        refine ⟨⟨{ t1 with samew := some f, widget := some w, disabled := false },
          ?_, rfl, rfl, rfl⟩, ?_, ?_⟩
        · rw [lookupT_updT_self, lookupT_updT_self, lookupT_updT_self, htn]
          rfl
        · intro m v hm hv
          rw [lookupT_updT_ne _ _ hm, lookupT_updT_ne _ _ hm,
            lookupT_updT_ne _ _ hm, hv]
          exact ⟨v, rfl, rfl, rfl⟩
        · intro m hm hv
          rw [lookupT_updT_ne _ _ hm, lookupT_updT_ne _ _ hm,
            lookupT_updT_ne _ _ hm, hv]
      · refine ⟨⟨{ t1 with samew := (lookupT S f).bind (fun ft => ft.samew), widget := some w, disabled := false }, ?_, rfl, rfl, rfl⟩, ?_, ?_⟩
        · rw [lookupT_updT_self, lookupT_updT_ne _ _ (Ne.symm hftn),
            lookupT_updT_self, htn]
          rfl
        · intro m v hm hv
          by_cases hmf : m = f
          · subst hmf
            rw [lookupT_updT_ne _ _ hm, lookupT_updT_self,
              lookupT_updT_ne _ _ hm, hv]
            exact ⟨{ v with samew := some tn }, rfl, rfl, rfl⟩
          · rw [lookupT_updT_ne _ _ hm, lookupT_updT_ne _ _ hmf,
              lookupT_updT_ne _ _ hm, hv]
            exact ⟨v, rfl, rfl, rfl⟩
        · intro m hm hv
          by_cases hmf : m = f
          · subst hmf
            rw [lookupT_updT_ne _ _ hm, lookupT_updT_self,
              lookupT_updT_ne _ _ hm, hv]
            rfl
          · rw [lookupT_updT_ne _ _ hm, lookupT_updT_ne _ _ hmf,
              lookupT_updT_ne _ _ hm, hv]
    | none =>
      dsimp only
      refine ⟨⟨{ t1 with samew := some tn, widget := some w, disabled := false },
        ?_, rfl, rfl, rfl⟩, ?_, ?_⟩
      · rw [lookupT_updT_self, lookupT_updT_self, lookupT_updW, htn]
        rfl
      · intro m v hm hv
        rw [lookupT_updT_ne _ _ hm, lookupT_updT_ne _ _ hm, lookupT_updW, hv]
        exact ⟨v, rfl, rfl, rfl⟩
      · intro m hm hv
        rw [lookupT_updT_ne _ _ hm, lookupT_updT_ne _ _ hm, lookupT_updW, hv]

/-- Reference counts and `DISABLED` bits across `unbindwidget`: the target
either is untouched (no-op and protected paths), or loses exactly one
reference while becoming disabled (vanishing from the table when the
count hits zero); all other records keep count and flag. -/
theorem unbind_rc (st : ZleState) (n : String) (ov : Bool) (hi : Inv st) :
    (∀ m v, m ≠ n → lookupT st m = some v →
       ∃ u, lookupT (unbindwidget st n ov).2 m = some u ∧ u.rc = v.rc ∧
         u.disabled = v.disabled) ∧
    (∀ m, lookupT st m = none → lookupT (unbindwidget st n ov).2 m = none) ∧
    (∀ t, lookupT st n = some t →
       (lookupT (unbindwidget st n ov).2 n = some t ∨
        (t.disabled = false ∧
         ((t.rc = 1 ∧ lookupT (unbindwidget st n ov).2 n = none) ∨
          (t.rc ≠ 1 ∧ lookupT (unbindwidget st n ov).2 n =
            some { t with rc := t.rc - 1, disabled := true, immortal := false }))))) := by
  obtain ⟨k1, k2, k3, k4, k5⟩ := hi
  cases hn : lookupT st n with
  | none =>
    rw [unbind_noop_absent st n ov hn]
    refine ⟨fun m v _ hv => ⟨v, hv, rfl, rfl⟩, fun m hv => hv, fun t ht => ?_⟩
    exact Option.noConfusion (hn ▸ ht : (none : Option Thingy) = some t)
  | some t =>
    by_cases hd : t.disabled = true
    · rw [unbind_noop_disabled st n ov t hn hd]
      exact ⟨fun m v _ hv => ⟨v, hv, rfl, rfl⟩, fun m hv => hv,
        fun t' ht => Or.inl (hn.trans ht)⟩
    · have hd' : t.disabled = false := by
        cases hdd : t.disabled
        · rfl
        · exact absurd hdd hd
      by_cases hg : (!ov && t.immortal) = true
      · rw [unbind_protected st n ov t hn hd' hg]
        exact ⟨fun m v _ hv => ⟨v, hv, rfl, rfl⟩, fun m hv => hv,
          fun t' ht => Or.inl (hn.trans ht)⟩
      · have hg' : (!ov && t.immortal) = false := by
          cases hgg : (!ov && t.immortal)
          · rfl
          · exact absurd hgg hg
        obtain ⟨w, hw, wr, hwr⟩ := k4 n t hn hd'
        obtain ⟨l, hcy⟩ := k5 w wr hwr
        have hnl : n ∈ l := (hcy.2.2.1 n).2 (boundToB_true_intro hn hd' hw)
        have hrc : lookupT (unbindwidget st n ov).2 n =
            (if t.rc - 1 = 0 then none
             else some { t with rc := t.rc - 1, disabled := true, immortal := false }) ∧
            (∀ m v, m ≠ n → lookupT st m = some v →
              ∃ u, lookupT (unbindwidget st n ov).2 m = some u ∧ u.rc = v.rc ∧
                u.disabled = v.disabled) ∧
            (∀ m, lookupT st m = none → lookupT (unbindwidget st n ov).2 m = none) := by
          by_cases hsw : t.samew = some n
          · obtain ⟨_, _, hRn, hRm, _, _, _, _, _⟩ :=
              unbind_views_sole st n ov t w l hn hd' hg' hw hcy hnl k1 k2 hsw
            refine ⟨hRn, ?_, ?_⟩
            · intro m v hm hv
              rw [hRm m hm, hv]
              exact ⟨v, rfl, rfl, rfl⟩
            · intro m hv
              have hm : m ≠ n := by
                intro h
                rw [h, hn] at hv
                exact Option.noConfusion hv
              rw [hRm m hm, hv]
          · obtain ⟨p, pt, hpt, hpts, hpl, hpn, _, hRn, hRp, hRm, _, _, _, _, _⟩ :=
              unbind_views_multi st n ov t w wr l hn hd' hg' hw hwr hcy hnl k1 k2 hsw
            refine ⟨hRn, ?_, ?_⟩
            · intro m v hm hv
              by_cases hmp : m = p
              · subst hmp
                rw [hpt] at hv
                have hvpt : v = pt := (Option.some.inj hv).symm
                subst hvpt
                exact ⟨_, hRp, rfl, rfl⟩
              · rw [hRm m hm hmp, hv]
                exact ⟨v, rfl, rfl, rfl⟩
            · intro m hv
              have hm : m ≠ n := by
                intro h
                rw [h, hn] at hv
                exact Option.noConfusion hv
              have hmp : m ≠ p := by
                intro h
                rw [h, hpt] at hv
                exact Option.noConfusion hv
              rw [hRm m hm hmp, hv]
        refine ⟨hrc.2.1, hrc.2.2, ?_⟩
        intro t' ht
        have htt : t' = t := (Option.some.inj ht).symm
        subst htt
        refine Or.inr ⟨hd', ?_⟩
        by_cases hone : t'.rc = 1
        · refine Or.inl ⟨hone, ?_⟩
          rw [hrc.1, if_pos (by omega)]
        · refine Or.inr ⟨hone, ?_⟩
          rw [hrc.1, if_neg (by omega)]

end ZleThingy

namespace ZleThingy

/-! ### The operation sequences of the binding API -/

/-- The widget-allocating bind pattern of `bin_zle_new` /
`bin_zle_complete` (and of each half of `addzlefunction`): allocate a
fresh widget, bind it to the named thingy (acquiring the reference with
`rthingy`), and destroy the widget again if binding failed on a protected
name. -/
def bindFreshOp (st : ZleState) (p : WPayload) (tn : String) : Int × ZleState :=
  let wn := addWidget st p
  let r := bindwidget (rthingy wn.2 tn) wn.1 tn
  if r.1 = 0 then (0, r.2) else (1, freewidget r.2 wn.1)

/-- Whether `bindwidget` takes its silent no-op path (thingy already
enabled on this same widget), in which case the caller's acquired
reference is simply kept. -/
def bindKeeps (st : ZleState) (w : Nat) (n : String) : Bool :=
  match lookupT st n with
  | some t => !t.immortal && (!t.disabled && decide (t.widget = some w))
  | none => false

section AListExtra

variable {α β : Type} [DecidableEq α]

theorem aupdate_comp (tab : List (α × β)) (k : α) (f g : β → β) :
    aupdate (aupdate tab k f) k g = aupdate tab k (fun v => g (f v)) := by
  induction tab with
  | nil => rfl
  | cons e r ih =>
    obtain ⟨a, v⟩ := e
    by_cases hak : a = k
    · simp [aupdate, hak]
    · simp [aupdate, hak, ih]

theorem aupdate_id' (tab : List (α × β)) (k : α) (f : β → β) (h : ∀ v, f v = v) :
    aupdate tab k f = tab := by
  induction tab with
  | nil => rfl
  | cons e r ih =>
    obtain ⟨a, v⟩ := e
    by_cases hak : a = k
    · simp [aupdate, hak, h v]
    · simp [aupdate, hak, ih]

end AListExtra

/-- An `rthingy` immediately followed by `unrefthingy` (the failure path
of a protected bind) leaves the registry unchanged, provided existing
records hold at least one reference. -/
theorem rthingy_unref_cancel (st : ZleState) (n : String)
    (hrc : ∀ u, lookupT st n = some u → 1 ≤ u.rc) :
    unrefthingy (rthingy st n) n = st := by
  cases hn : lookupT st n with
  | some t =>
    have h2 : lookupT (rthingy st n) n = some { t with rc := t.rc + 1 } := by
      rw [lookupT_rthingy]
      simp [hn]
    unfold unrefthingy
    rw [h2]
    dsimp only
    rw [if_neg (by have := hrc t hn; omega)]
    have h1 : rthingy st n = updT st n (fun u => { u with rc := u.rc + 1 }) := by
      unfold rthingy
      rw [hn]
      rfl
    rw [h1]
    show updT (updT st n _) n _ = st
    unfold updT
    dsimp only
    rw [aupdate_comp]
    rw [aupdate_id' st.tab n _ (by intro v; cases v; simp)]
  | none =>
    have h1 : rthingy st n =
        { st with tab := (n, { makethingynode with rc := 1 }) :: st.tab } := by
      unfold rthingy refthingy updT
      rw [hn]
      dsimp only
      show { st with tab := aupdate ((n, makethingynode) :: st.tab) n _ } = _
      simp [aupdate, makethingynode]
    have h2 : lookupT (rthingy st n) n = some { makethingynode with rc := 1 } := by
      rw [lookupT_rthingy]
      simp [hn]
    unfold unrefthingy
    rw [h2]
    dsimp only
    rw [if_pos (by simp [makethingynode])]
    rw [h1]
    show { st with tab := aremove ((n, _) :: st.tab) n } = st
    simp [aremove]

/-- Ghost state for reference-count accounting: the registry plus, for
each name, the number of retained references currently held by callers
("in flight"). -/
structure GState where
  st : ZleState
  infl : String → Nat

def ginit : GState := ⟨init, fun _ => 0⟩

def bumpf (f : String → Nat) (n : String) : String → Nat :=
  fun m => if m = n then f m + 1 else f m

def dropf (f : String → Nat) (n : String) : String → Nat :=
  fun m => if m = n then f m - 1 else f m

/-- The legal call sequences of the binding API, with their reference
accounting: acquiring via `rthingy`, releasing a held reference, binding
a name to an existing or freshly allocated widget (the acquired reference
being consumed by the binding, released on the protected-name failure
path, or kept by the caller on the silent no-op path), unbinding, and
marking a name immortal (`addzlefunction`). -/
inductive Step : GState → GState → Prop
  | acquire (g : GState) (n : String) :
      Step g ⟨rthingy g.st n, bumpf g.infl n⟩
  | release (g : GState) (n : String) (h : 0 < g.infl n) :
      Step g ⟨unrefthingy g.st n, dropf g.infl n⟩
  | bindExisting (g : GState) (w : Nat) (n : String) (wr : Widget)
      (hw : lookupW g.st w = some wr) :
      Step g ⟨(bindwidget (rthingy g.st n) w n).2,
              if bindKeeps g.st w n then bumpf g.infl n else g.infl⟩
  | bindFresh (g : GState) (p : WPayload) (n : String) :
      Step g ⟨(bindFreshOp g.st p n).2,
              if bindKeeps g.st (addWidget g.st p).1 n then bumpf g.infl n
              else g.infl⟩
  | unbind (g : GState) (n : String) (ov : Bool) :
      Step g ⟨(unbindwidget g.st n ov).2, g.infl⟩
  | setImmortal (g : GState) (n : String) :
      Step g ⟨updT g.st n (fun u => { u with immortal := true }), g.infl⟩

/-- States reachable from the empty registry by legal call sequences. -/
inductive Reachable : GState → Prop
  | init : Reachable ginit
  | step {g g' : GState} : Reachable g → Step g g' → Reachable g'

/-- Reference-count accounting invariant: every record's count equals its
in-flight references plus one if it currently names a widget, is at least
one, and absent names have nothing in flight. -/
def RcInv (g : GState) : Prop :=
  (∀ n t, lookupT g.st n = some t →
     t.rc = (g.infl n : Int) + (if t.disabled then 0 else 1) ∧ 1 ≤ t.rc) ∧
  (∀ n, lookupT g.st n = none → g.infl n = 0)

/-- The combined invariant of reachable states. -/
def InvG (g : GState) : Prop := Inv g.st ∧ RcInv g

end ZleThingy

namespace ZleThingy

theorem aremove_cons_self {α β : Type} [DecidableEq α] (k : α) (v : β)
    (l : List (α × β)) : aremove ((k, v) :: l) k = l := by
  simp [aremove]

theorem widgets_rthingy (st : ZleState) (n : String) :
    (rthingy st n).widgets = st.widgets := by
  unfold rthingy refthingy
  cases lookupT st n <;> rfl

theorem lookupT_addWidget (st : ZleState) (p : WPayload) (m : String) :
    lookupT (addWidget st p).2 m = lookupT st m := rfl

theorem lookupW_addWidget (st : ZleState) (p : WPayload) (w : Nat) :
    lookupW (addWidget st p).2 w =
      if st.nextW = w then some ⟨p, none⟩ else lookupW st w := by
  simp [addWidget, lookupW, alookup]

theorem lookupW_fresh_none (st : ZleState)
    (k3 : ∀ w wr, lookupW st w = some wr → w < st.nextW) :
    lookupW st st.nextW = none := by
  cases hw : lookupW st st.nextW with
  | none => rfl
  | some wr => exact absurd (k3 _ _ hw) (lt_irrefl _)

/-- Bumping the allocator counter alone preserves the invariant (the
state after an allocate/free round trip). -/
theorem inv_bumpNextW (st : ZleState) (hi : Inv st) :
    Inv { st with nextW := st.nextW + 1 } := by
  obtain ⟨k1, k2, k3, k4, k5⟩ := hi
  refine ⟨k1, k2, fun w wr h => ?_, k4, fun w wr h => ?_⟩
  · have := k3 w wr h
    dsimp only
    omega
  · obtain ⟨l, hl⟩ := k5 w wr h
    refine ⟨l, widgetCycle_congr ?_ ?_ ?_ hl⟩
    · intro m; rfl
    · intro x _; rfl
    · rfl

/-- Allocating a fresh widget yields the generalized invariant with the
new (memberless) widget exempted. -/
theorem invx_addWidget (st : ZleState) (p : WPayload) (hi : Inv st) :
    InvX (addWidget st p).2 (some st.nextW) := by
  obtain ⟨k1, k2, k3, k4, k5⟩ := hi
  have hfresh : lookupW st st.nextW = none := lookupW_fresh_none st k3
  refine ⟨k1, ?_, ?_, ?_, ?_, ?_⟩
  · show (st.nextW :: st.widgets.map Prod.fst).Nodup
    exact List.Nodup.cons ((alookup_eq_none_iff st.widgets st.nextW).1 hfresh) k2
  · intro w wr h
    rw [lookupW_addWidget] at h
    show w < st.nextW + 1
    by_cases hw : st.nextW = w
    · omega
    · rw [if_neg hw] at h
      have := k3 w wr h
      omega
  · intro m t hm hd
    obtain ⟨w0, hw0, wr0, hwr0⟩ := k4 m t hm hd
    refine ⟨w0, hw0, ?_⟩
    by_cases hw : st.nextW = w0
    · exact ⟨⟨p, none⟩, by rw [lookupW_addWidget, if_pos hw]⟩
    · exact ⟨wr0, by rw [lookupW_addWidget, if_neg hw]; exact hwr0⟩
  · intro w wr h hne
    have hw : st.nextW ≠ w := fun he => hne (by rw [he])
    rw [lookupW_addWidget, if_neg hw] at h
    obtain ⟨l, hl⟩ := k5 w wr h
    refine ⟨l, widgetCycle_congr ?_ ?_ ?_ hl⟩
    · intro m; rfl
    · intro x _; rfl
    · rw [lookupW_addWidget, if_neg hw]
  · intro x wr hx hlx
    have hxe : st.nextW = x := Option.some.inj hx
    refine Or.inr ⟨?_, ?_⟩
    · rw [lookupW_addWidget, if_pos hxe] at hlx
      have : wr = (⟨p, none⟩ : Widget) := (Option.some.inj hlx).symm
      rw [this]
    · intro m
      show boundToB st x m = false
      cases hbb : boundToB st x m with
      | false => rfl
      | true =>
        exfalso
        obtain ⟨u, hu, hud, huw⟩ := boundToB_true_elim hbb
        obtain ⟨w0, hw0, wr0, hwr0⟩ := k4 m u hu hud
        have hwx : w0 = x := Option.some.inj (hw0.symm.trans huw)
        rw [hwx, ← hxe] at hwr0
        rw [hfresh] at hwr0
        exact Option.noConfusion hwr0

/-- `rthingy` only touches the table and `addWidget` only the widget
store, so the two commute. -/
theorem rthingy_addWidget_comm (st : ZleState) (p : WPayload) (n : String) :
    rthingy (addWidget st p).2 n = (addWidget (rthingy st n) p).2 := by
  unfold rthingy refthingy addWidget updT lookupT
  dsimp only
  cases alookup st.tab n <;> rfl

/-- Binding to a freshly allocated widget can never hit the silent no-op
path: no thingy can already point at the fresh id. -/
theorem bindKeeps_fresh (st : ZleState) (n : String) (hi : Inv st) :
    bindKeeps st st.nextW n = false := by
  obtain ⟨k1, k2, k3, k4, k5⟩ := hi
  unfold bindKeeps
  cases hn : lookupT st n with
  | none => rfl
  | some t =>
    dsimp only
    cases hd : t.disabled with
    | true => simp [hd]
    | false =>
      obtain ⟨w0, hw0, wr0, hwr0⟩ := k4 n t hn hd
      have hne : w0 ≠ st.nextW := Nat.ne_of_lt (k3 w0 wr0 hwr0)
      simp [hd, hw0, hne]

end ZleThingy

namespace ZleThingy

/-- Reference-count/`DISABLED` characterization of `unbindwidget` on an
enabled, unprotected target, from the target's widget cycle (no full
invariant needed). -/
theorem unbind_rc_active_full (st : ZleState) (n : String) (ov : Bool) (t : Thingy)
    (w : Nat) (wr : Widget) (l : List String)
    (k1 : (st.tab.map Prod.fst).Nodup) (k2 : (st.widgets.map Prod.fst).Nodup)
    (hn : lookupT st n = some t) (hd' : t.disabled = false)
    (hg' : (!ov && t.immortal) = false) (hw : t.widget = some w)
    (hwr : lookupW st w = some wr) (hcy : WidgetCycle st w l) :
    lookupT (unbindwidget st n ov).2 n =
      (if t.rc - 1 = 0 then none
       else some { t with rc := t.rc - 1, disabled := true, immortal := false }) ∧
    (∀ m v, m ≠ n → lookupT st m = some v →
       ∃ u, lookupT (unbindwidget st n ov).2 m = some u ∧ u.rc = v.rc ∧
         u.disabled = v.disabled) ∧
    (∀ m, lookupT st m = none → lookupT (unbindwidget st n ov).2 m = none) := by
  have hnl : n ∈ l := (hcy.2.2.1 n).2 (boundToB_true_intro hn hd' hw)
  by_cases hsw : t.samew = some n
  · obtain ⟨_, _, hRn, hRm, _, _, _, _, _⟩ :=
      unbind_views_sole st n ov t w l hn hd' hg' hw hcy hnl k1 k2 hsw
    refine ⟨hRn, ?_, ?_⟩
    · intro m v hm hv
      rw [hRm m hm, hv]
      exact ⟨v, rfl, rfl, rfl⟩
    · intro m hv
      have hm : m ≠ n := by
        intro h
        rw [h, hn] at hv
        exact Option.noConfusion hv
      rw [hRm m hm, hv]
  · obtain ⟨p, pt, hpt, hpts, hpl, hpn, _, hRn, hRp, hRm, _, _, _, _, _⟩ :=
      unbind_views_multi st n ov t w wr l hn hd' hg' hw hwr hcy hnl k1 k2 hsw
    refine ⟨hRn, ?_, ?_⟩
    · intro m v hm hv
      by_cases hmp : m = p
      · subst hmp
        rw [hpt] at hv
        have hvpt : v = pt := (Option.some.inj hv).symm
        subst hvpt
        exact ⟨_, hRp, rfl, rfl⟩
      · rw [hRm m hm hmp, hv]
        exact ⟨v, rfl, rfl, rfl⟩
    · intro m hv
      have hm : m ≠ n := by
        intro h
        rw [h, hn] at hv
        exact Option.noConfusion hv
      have hmp : m ≠ p := by
        intro h
        rw [h, hpt] at hv
        exact Option.noConfusion hv
      rw [hRm m hm hmp, hv]

/-- The reference-count accounting survives an `rthingy` acquisition. -/
theorem rcInv_acquire (g : GState) (n : String) (hR : RcInv g) :
    RcInv ⟨rthingy g.st n, bumpf g.infl n⟩ := by
  obtain ⟨hR1, hR2⟩ := hR
  refine ⟨?_, ?_⟩
  · intro m t hm
    dsimp only at hm ⊢
    rw [lookupT_rthingy] at hm
    unfold bumpf
    by_cases hmn : m = n
    · rw [if_pos hmn] at hm
      rw [if_pos hmn]
      subst hmn
      cases hsm : lookupT g.st m with
      | some u =>
        rw [hsm] at hm
        have ht : t = { u with rc := u.rc + 1 } := (Option.some.inj hm).symm
        subst ht
        obtain ⟨e1, e2⟩ := hR1 m u hsm
        cases hdd : u.disabled <;> simp [hdd] at e1 ⊢ <;> omega
      | none =>
        rw [hsm] at hm
        have ht : t = { makethingynode with rc := 1 } := (Option.some.inj hm).symm
        subst ht
        have h0 := hR2 m hsm
        simp [makethingynode, h0]
    · rw [if_neg hmn] at hm
      rw [if_neg hmn]
      exact hR1 m t hm
  · intro m hm
    dsimp only at hm ⊢
    rw [lookupT_rthingy] at hm
    unfold bumpf
    by_cases hmn : m = n
    · rw [if_pos hmn] at hm
      exact Option.noConfusion hm
    · rw [if_neg hmn] at hm
      rw [if_neg hmn]
      exact hR2 m hm

/-- `bindwidget` returns 0 whenever the target is not immortal. -/
theorem bind_fst_of_not_immortal (st : ZleState) (w : Nat) (n : String)
    (himm : ∀ u, lookupT st n = some u → u.immortal = false) :
    (bindwidget st w n).1 = 0 := by
  unfold bindwidget
  cases hn : lookupT st n with
  | none => rfl
  | some t =>
    dsimp only
    rw [if_neg (by simp [himm t hn])]
    by_cases hc : (!t.disabled && decide (t.widget = some w)) = true
    · rw [if_pos hc]
    · rw [if_neg hc]

end ZleThingy

namespace ZleThingy

/-- Reference accounting across a splice whose target record already
carries the final count. -/
theorem rcSplice (st S : ZleState) (w : Nat) (n : String) (infl : String → Nat)
    (tS : Thingy)
    (hSn : lookupT S n = some tS)
    (hrcS : tS.rc = (infl n : Int) + 1)
    (hkeepS : ∀ m v, m ≠ n → lookupT st m = some v →
       ∃ u, lookupT S m = some u ∧ u.rc = v.rc ∧ u.disabled = v.disabled)
    (habsS : ∀ m, m ≠ n → lookupT st m = none → lookupT S m = none)
    (hR1 : ∀ m t, lookupT st m = some t →
       t.rc = (infl m : Int) + (if t.disabled then 0 else 1) ∧ 1 ≤ t.rc)
    (hR2 : ∀ m, lookupT st m = none → infl m = 0) :
    RcInv ⟨spliceIn S w n, infl⟩ := by
  obtain ⟨⟨u0, hu0, hu0rc, hu0d, _⟩, hkeep2, habs2⟩ := spliceIn_rc S w n tS hSn
  refine ⟨?_, ?_⟩
  · intro m t hm
    dsimp only at hm ⊢
    by_cases hmn : m = n
    · subst hmn
      rw [hu0] at hm
      have ht : t = u0 := (Option.some.inj hm).symm
      subst ht
      have e : t.rc = (infl m : Int) + 1 := by rw [hu0rc, hrcS]
      constructor
      · rw [e, hu0d]
        simp
      · rw [e]
        omega
    · cases hsm : lookupT st m with
      | none =>
        rw [habs2 m hmn (habsS m hmn hsm)] at hm
        exact Option.noConfusion hm
      | some v =>
        obtain ⟨u1, hu1, hu1rc, hu1d⟩ := hkeepS m v hmn hsm
        obtain ⟨u2, hu2, hu2rc, hu2d⟩ := hkeep2 m u1 hmn hu1
        rw [hu2] at hm
        have ht : t = u2 := (Option.some.inj hm).symm
        subst ht
        obtain ⟨e1, e2⟩ := hR1 m v hsm
        rw [hu2rc, hu1rc, hu2d, hu1d]
        exact ⟨e1, e2⟩
  · intro m hm
    dsimp only at hm ⊢
    by_cases hmn : m = n
    · subst hmn
      rw [hu0] at hm
      exact Option.noConfusion hm
    · cases hsm : lookupT st m with
      | none => exact hR2 m hsm
      | some v =>
        obtain ⟨u1, hu1, _, _⟩ := hkeepS m v hmn hsm
        obtain ⟨u2, hu2, _, _⟩ := hkeep2 m u1 hmn hu1
        rw [hu2] at hm
        exact Option.noConfusion hm

/-- Reference accounting across acquire-then-bind on a non-immortal name:
the caller's reference is consumed by the binding except on the silent
no-op path, where the in-flight count records it. -/
theorem rcBind (st : ZleState) (w : Nat) (n : String) (infl : String → Nat)
    (k1 : (st.tab.map Prod.fst).Nodup) (k2 : (st.widgets.map Prod.fst).Nodup)
    (hR1 : ∀ m t, lookupT st m = some t →
       t.rc = (infl m : Int) + (if t.disabled then 0 else 1) ∧ 1 ≤ t.rc)
    (hR2 : ∀ m, lookupT st m = none → infl m = 0)
    (hk4 : ∀ u, lookupT st n = some u → u.disabled = false →
       ∃ w0 wr0 l0, u.widget = some w0 ∧ lookupW st w0 = some wr0 ∧
         WidgetCycle st w0 l0)
    (himm : ∀ u, lookupT st n = some u → u.immortal = false) :
    RcInv ⟨(bindwidget (rthingy st n) w n).2,
           if bindKeeps st w n then bumpf infl n else infl⟩ := by
  cases hn : lookupT st n with
  | none =>
    have hbk : bindKeeps st w n = false := by unfold bindKeeps; rw [hn]
    have hif : (if bindKeeps st w n then bumpf infl n else infl) = infl := by
      rw [hbk]
      simp
    have hl1 : lookupT (rthingy st n) n = some { makethingynode with rc := 1 } := by
      rw [lookupT_rthingy, if_pos rfl, hn]
    have hred : (bindwidget (rthingy st n) w n).2 = spliceIn (rthingy st n) w n := by
      rw [bind_main_eq (rthingy st n) w n _ hl1 rfl (by simp [makethingynode])]
      simp [makethingynode]
    rw [hred, hif]
    refine rcSplice st (rthingy st n) w n infl _ hl1 ?_ ?_ ?_ hR1 hR2
    · show (1 : Int) = (infl n : Int) + 1
      rw [hR2 n hn]
      simp
    · intro m v hm hv
      exact ⟨v, by rw [lookupT_rthingy, if_neg hm]; exact hv, rfl, rfl⟩
    · intro m hm hv
      rw [lookupT_rthingy, if_neg hm]
      exact hv
  | some t0 =>
    have himm0 : t0.immortal = false := himm t0 hn
    have hl1 : lookupT (rthingy st n) n = some { t0 with rc := t0.rc + 1 } := by
      rw [lookupT_rthingy, if_pos rfl, hn]
    by_cases hc : (!t0.disabled && decide (t0.widget = some w)) = true
    · have hbk : bindKeeps st w n = true := by
        unfold bindKeeps
        rw [hn]
        dsimp only
        rw [himm0, hc]
        rfl
      have hif : (if bindKeeps st w n then bumpf infl n else infl) = bumpf infl n := by
        rw [hbk]
        simp
      have hred : (bindwidget (rthingy st n) w n).2 = rthingy st n := by
        rw [bind_noop_eq (rthingy st n) w n { t0 with rc := t0.rc + 1 } hl1 himm0 hc]
      rw [hred, hif]
      exact rcInv_acquire ⟨st, infl⟩ n ⟨hR1, hR2⟩
    · have hc' : (!t0.disabled && decide (t0.widget = some w)) = false := by
        cases hcc : (!t0.disabled && decide (t0.widget = some w))
        · rfl
        · exact absurd hcc hc
      have hbk : bindKeeps st w n = false := by
        unfold bindKeeps
        rw [hn]
        dsimp only
        rw [hc']
        simp
      have hif : (if bindKeeps st w n then bumpf infl n else infl) = infl := by
        rw [hbk]
        simp
      have hred0 := bind_main_eq (rthingy st n) w n { t0 with rc := t0.rc + 1 } hl1 himm0 hc'
      cases hd0 : t0.disabled with
      | true =>
        have hred : (bindwidget (rthingy st n) w n).2 = spliceIn (rthingy st n) w n := by
          rw [hred0]
          dsimp only
          rw [hd0]
          simp
        rw [hred, hif]
        refine rcSplice st (rthingy st n) w n infl { t0 with rc := t0.rc + 1 } hl1 ?_ ?_ ?_ hR1 hR2
        · obtain ⟨e1, e2⟩ := hR1 n t0 hn
          rw [hd0] at e1
          simp at e1
          dsimp only
          omega
        · intro m v hm hv
          exact ⟨v, by rw [lookupT_rthingy, if_neg hm]; exact hv, rfl, rfl⟩
        · intro m hm hv
          rw [lookupT_rthingy, if_neg hm]
          exact hv
      | false =>
        obtain ⟨w0, wr0, l0, hw0, hwr0, hcy0⟩ := hk4 t0 hn hd0
        have k1' : ((rthingy st n).tab.map Prod.fst).Nodup := by
          rw [tabKeys_rthingy, if_neg (by simp [hn])]
          exact k1
        have k2' : ((rthingy st n).widgets.map Prod.fst).Nodup := by
          rw [widgets_rthingy]
          exact k2
        have hwr0' : lookupW (rthingy st n) w0 = some wr0 := by
          rw [lookupW_rthingy]
          exact hwr0
        have hcy0' : WidgetCycle (rthingy st n) w0 l0 :=
          widgetCycle_congr (fun m => boundToB_rthingy st n w0 m)
            (fun x _ => samewOf_rthingy st n x) (lookupW_rthingy st n w0) hcy0
        obtain ⟨hRn, hRm, hRabs⟩ :=
          unbind_rc_active_full (rthingy st n) n true { t0 with rc := t0.rc + 1 } w0 wr0 l0
            k1' k2' hl1 hd0 rfl hw0 hwr0' hcy0'
        obtain ⟨e1, e2⟩ := hR1 n t0 hn
        rw [hd0] at e1
        simp at e1
        have hne : ¬(({ t0 with rc := t0.rc + 1 } : Thingy).rc - 1 = 0) := by
          dsimp only
          omega
        rw [if_neg hne] at hRn
        have hred : (bindwidget (rthingy st n) w n).2 =
            spliceIn (unbindwidget (rthingy st n) n true).2 w n := by
          rw [hred0]
          dsimp only
          rw [hd0]
          simp
        rw [hred, hif]
        refine rcSplice st (unbindwidget (rthingy st n) n true).2 w n infl _ hRn ?_ ?_ ?_ hR1 hR2
        · dsimp only
          omega
        · intro m v hm hv
          exact hRm m v hm (by rw [lookupT_rthingy, if_neg hm]; exact hv)
        · intro m hm hv
          exact hRabs m (by rw [lookupT_rthingy, if_neg hm]; exact hv)

end ZleThingy

namespace ZleThingy

/-- One legal API step preserves the combined invariant. -/
theorem invG_step {g g' : GState} (h : InvG g) (hs : Step g g') : InvG g' := by
  obtain ⟨hI, hR⟩ := h
  obtain ⟨hR1, hR2⟩ := hR
  have hIc := hI
  obtain ⟨k1, k2, k3, k4, k5⟩ := hIc
  cases hs with
  | acquire n =>
    exact ⟨inv_rthingy g.st n hI, rcInv_acquire g n ⟨hR1, hR2⟩⟩
  | release n hpos =>
    have hdis : ∀ t, lookupT g.st n = some t → t.rc - 1 = 0 → t.disabled = true := by
      intro t ht hrc
      obtain ⟨e1, e2⟩ := hR1 n t ht
      cases hdd : t.disabled
      · rw [hdd] at e1
        simp at e1
        omega
      · rfl
    refine ⟨inv_unrefthingy g.st n hI hdis, ?_, ?_⟩
    · intro m t hm
      dsimp only at hm ⊢
      unfold dropf
      by_cases hmn : m = n
      · subst hmn
        rw [if_pos rfl]
        rw [lookupT_unrefthingy_self g.st m k1] at hm
        cases hsm : lookupT g.st m with
        | none =>
          rw [hsm] at hm
          exact Option.noConfusion hm
        | some u =>
          rw [hsm] at hm
          dsimp only at hm
          by_cases hz : u.rc - 1 = 0
          · rw [if_pos hz] at hm
            exact Option.noConfusion hm
          · rw [if_neg hz] at hm
            have ht : t = { u with rc := u.rc - 1 } := (Option.some.inj hm).symm
            subst ht
            obtain ⟨e1, e2⟩ := hR1 m u hsm
            cases hdd : u.disabled <;> simp [hdd] at e1 ⊢ <;> omega
      · rw [if_neg hmn]
        rw [lookupT_unrefthingy_ne g.st hmn] at hm
        exact hR1 m t hm
    · intro m hm
      dsimp only at hm ⊢
      unfold dropf
      by_cases hmn : m = n
      · subst hmn
        rw [if_pos rfl]
        rw [lookupT_unrefthingy_self g.st m k1] at hm
        cases hsm : lookupT g.st m with
        | none => simp [hR2 m hsm]
        | some u =>
          rw [hsm] at hm
          dsimp only at hm
          by_cases hz : u.rc - 1 = 0
          · obtain ⟨e1, e2⟩ := hR1 m u hsm
            cases hdd : u.disabled <;> simp [hdd] at e1 <;> omega
          · rw [if_neg hz] at hm
            exact Option.noConfusion hm
      · rw [if_neg hmn]
        rw [lookupT_unrefthingy_ne g.st hmn] at hm
        exact hR2 m hm
  | bindExisting w n wr hw =>
    cases hn : lookupT g.st n with
    | none =>
      refine ⟨?_, ?_⟩
      · have hl1 : lookupT (rthingy g.st n) n = some { makethingynode with rc := 1 } := by
          rw [lookupT_rthingy, if_pos rfl, hn]
        exact invx_bind (rthingy g.st n) w n wr _
          (inv_to_invx _ _ (inv_rthingy g.st n hI))
          (by rw [lookupW_rthingy]; exact hw) hl1 rfl
          (fun hd => absurd hd (by simp [makethingynode]))
      · exact rcBind g.st w n g.infl k1 k2 hR1 hR2
          (fun u hu hd => absurd (hn.symm.trans hu) (by simp))
          (fun u hu => absurd (hn.symm.trans hu) (by simp))
    | some t0 =>
      have hl1 : lookupT (rthingy g.st n) n = some { t0 with rc := t0.rc + 1 } := by
        rw [lookupT_rthingy, if_pos rfl, hn]
      by_cases hti : t0.immortal = true
      · have hfin : (bindwidget (rthingy g.st n) w n).2 = g.st := by
          rw [bind_immortal_eq (rthingy g.st n) w n _ hl1 hti]
          exact rthingy_unref_cancel g.st n (fun u hu => (hR1 n u hu).2)
        have hbk : bindKeeps g.st w n = false := by
          unfold bindKeeps
          rw [hn]
          dsimp only
          rw [hti]
          rfl
        have hifr : (if bindKeeps g.st w n then bumpf g.infl n else g.infl) = g.infl := by
          rw [hbk]
          simp
        refine ⟨?_, ?_⟩
        · dsimp only
          rw [hfin]
          exact hI
        · rw [hfin, hifr]
          exact ⟨hR1, hR2⟩
      · have hti' : t0.immortal = false := by
          cases htt : t0.immortal
          · rfl
          · exact absurd htt hti
        refine ⟨?_, ?_⟩
        · refine invx_bind (rthingy g.st n) w n wr _
            (inv_to_invx _ _ (inv_rthingy g.st n hI))
            (by rw [lookupW_rthingy]; exact hw) hl1 hti' ?_
          intro hd
          obtain ⟨e1, e2⟩ := hR1 n t0 hn
          dsimp only
          omega
        · refine rcBind g.st w n g.infl k1 k2 hR1 hR2 ?_ ?_
          · intro u hu hd
            have hut : t0 = u := Option.some.inj (hn.symm.trans hu)
            subst hut
            obtain ⟨w0, hw0, wr0, hwr0⟩ := k4 n t0 hu hd
            obtain ⟨l0, hcy0⟩ := k5 w0 wr0 hwr0
            exact ⟨w0, wr0, l0, hw0, hwr0, hcy0⟩
          · intro u hu
            exact (Option.some.inj (hn.symm.trans hu)) ▸ hti'
  | bindFresh p n =>
    have hbkf : bindKeeps g.st (addWidget g.st p).1 n = false := bindKeeps_fresh g.st n hI
    have hifr : (if bindKeeps g.st (addWidget g.st p).1 n then bumpf g.infl n else g.infl)
        = g.infl := by
      rw [hbkf]
      simp
    have k2W : ((addWidget g.st p).2.widgets.map Prod.fst).Nodup :=
      (invx_addWidget g.st p hI).2.1
    cases hn : lookupT g.st n with
    | none =>
      have himm' : ∀ u, lookupT (rthingy (addWidget g.st p).2 n) n = some u →
          u.immortal = false := by
        intro u hu
        rw [lookupT_rthingy, if_pos rfl] at hu
        have hnn : lookupT (addWidget g.st p).2 n = none := hn
        rw [hnn] at hu
        have hue : u = { makethingynode with rc := 1 } := (Option.some.inj hu).symm
        rw [hue]
        rfl
      have hfst : (bindwidget (rthingy (addWidget g.st p).2 n) (addWidget g.st p).1 n).1 = 0 :=
        bind_fst_of_not_immortal _ _ n himm'
      have hop : (bindFreshOp g.st p n).2 =
          (bindwidget (rthingy (addWidget g.st p).2 n) (addWidget g.st p).1 n).2 := by
        unfold bindFreshOp
        dsimp only
        rw [if_pos hfst]
      refine ⟨?_, ?_⟩
      · show Inv (bindFreshOp g.st p n).2
        rw [hop, rthingy_addWidget_comm g.st p n]
        have hx : InvX (addWidget (rthingy g.st n) p).2 (some g.st.nextW) := by
          rw [← nextW_rthingy g.st n]
          exact invx_addWidget (rthingy g.st n) p (inv_rthingy g.st n hI)
        have htn : lookupT (addWidget (rthingy g.st n) p).2 n =
            some { makethingynode with rc := 1 } := by
          show lookupT (rthingy g.st n) n = _
          rw [lookupT_rthingy, if_pos rfl, hn]
        have hwr : lookupW (addWidget (rthingy g.st n) p).2 (addWidget g.st p).1 =
            some ⟨p, none⟩ := by
          rw [lookupW_addWidget,
            if_pos (show (rthingy g.st n).nextW = (addWidget g.st p).1 from
              (nextW_rthingy g.st n).trans rfl)]
        exact invx_bind (addWidget (rthingy g.st n) p).2 (addWidget g.st p).1 n ⟨p, none⟩ _
          hx hwr htn rfl (fun hd => absurd hd (by simp [makethingynode]))
      · have hrc := rcBind (addWidget g.st p).2 (addWidget g.st p).1 n g.infl k1 k2W
          (fun m t hm => hR1 m t hm) (fun m hm => hR2 m hm)
          (fun u hu hd => absurd ((hn.symm.trans (hu : lookupT g.st n = some u))) (by simp))
          (fun u hu => absurd ((hn.symm.trans (hu : lookupT g.st n = some u))) (by simp))
        have hbkW : bindKeeps (addWidget g.st p).2 (addWidget g.st p).1 n = false := hbkf
        rw [hbkW] at hrc
        simp only [Bool.false_eq_true, if_false] at hrc
        show RcInv ⟨(bindFreshOp g.st p n).2, _⟩
        rw [hop, hifr]
        exact hrc
    | some t0 =>
      have hl1 : lookupT (rthingy (addWidget g.st p).2 n) n =
          some { t0 with rc := t0.rc + 1 } := by
        rw [lookupT_rthingy, if_pos rfl]
        have hnn : lookupT (addWidget g.st p).2 n = some t0 := hn
        rw [hnn]
      by_cases hti : t0.immortal = true
      · have hred := bind_immortal_eq (rthingy (addWidget g.st p).2 n)
          (addWidget g.st p).1 n _ hl1 hti
        have hcan : unrefthingy (rthingy (addWidget g.st p).2 n) n = (addWidget g.st p).2 :=
          rthingy_unref_cancel (addWidget g.st p).2 n (fun u hu => (hR1 n u hu).2)
        have hop : (bindFreshOp g.st p n).2 =
            freewidget (addWidget g.st p).2 (addWidget g.st p).1 := by
          unfold bindFreshOp
          dsimp only
          rw [hred]
          rw [if_neg (by simp)]
          dsimp only
          rw [hcan]
        have hfw : freewidget (addWidget g.st p).2 (addWidget g.st p).1 =
            { g.st with nextW := g.st.nextW + 1 } := by
          show { g.st with
                 widgets := aremove ((g.st.nextW, (⟨p, none⟩ : Widget)) :: g.st.widgets)
                   g.st.nextW,
                 nextW := g.st.nextW + 1 } = _
          rw [aremove_cons_self]
        refine ⟨?_, ?_⟩
        · show Inv (bindFreshOp g.st p n).2
          rw [hop, hfw]
          exact inv_bumpNextW g.st hI
        · show RcInv ⟨(bindFreshOp g.st p n).2, _⟩
          rw [hop, hfw, hifr]
          exact ⟨fun m t hm => hR1 m t hm, fun m hm => hR2 m hm⟩
      · have hti' : t0.immortal = false := by
          cases htt : t0.immortal
          · rfl
          · exact absurd htt hti
        have himm' : ∀ u, lookupT (rthingy (addWidget g.st p).2 n) n = some u →
            u.immortal = false := by
          intro u hu
          have hue : u = { t0 with rc := t0.rc + 1 } := (Option.some.inj (hl1.symm.trans hu)).symm
          rw [hue]
          exact hti'
        have hfst : (bindwidget (rthingy (addWidget g.st p).2 n) (addWidget g.st p).1 n).1 = 0 :=
          bind_fst_of_not_immortal _ _ n himm'
        have hop : (bindFreshOp g.st p n).2 =
            (bindwidget (rthingy (addWidget g.st p).2 n) (addWidget g.st p).1 n).2 := by
          unfold bindFreshOp
          dsimp only
          rw [if_pos hfst]
        refine ⟨?_, ?_⟩
        · show Inv (bindFreshOp g.st p n).2
          rw [hop, rthingy_addWidget_comm g.st p n]
          have hx : InvX (addWidget (rthingy g.st n) p).2 (some g.st.nextW) := by
            rw [← nextW_rthingy g.st n]
            exact invx_addWidget (rthingy g.st n) p (inv_rthingy g.st n hI)
          have htn : lookupT (addWidget (rthingy g.st n) p).2 n =
              some { t0 with rc := t0.rc + 1 } := by
            show lookupT (rthingy g.st n) n = _
            rw [lookupT_rthingy, if_pos rfl, hn]
          have hwr : lookupW (addWidget (rthingy g.st n) p).2 (addWidget g.st p).1 =
              some ⟨p, none⟩ := by
            rw [lookupW_addWidget,
            if_pos (show (rthingy g.st n).nextW = (addWidget g.st p).1 from
              (nextW_rthingy g.st n).trans rfl)]
          refine invx_bind (addWidget (rthingy g.st n) p).2 (addWidget g.st p).1 n ⟨p, none⟩ _
            hx hwr htn hti' ?_
          intro hd
          obtain ⟨e1, e2⟩ := hR1 n t0 hn
          dsimp only
          omega
        · have hrc := rcBind (addWidget g.st p).2 (addWidget g.st p).1 n g.infl k1 k2W
            (fun m t hm => hR1 m t hm) (fun m hm => hR2 m hm) ?_ ?_
          · have hbkW : bindKeeps (addWidget g.st p).2 (addWidget g.st p).1 n = false := hbkf
            rw [hbkW] at hrc
            simp only [Bool.false_eq_true, if_false] at hrc
            show RcInv ⟨(bindFreshOp g.st p n).2, _⟩
            rw [hop, hifr]
            exact hrc
          · intro u hu hd
            have hu' : lookupT g.st n = some u := hu
            have hut : t0 = u := Option.some.inj (hn.symm.trans hu')
            subst hut
            obtain ⟨w0, hw0, wr0, hwr0⟩ := k4 n t0 hu' hd
            obtain ⟨l0, hcy0⟩ := k5 w0 wr0 hwr0
            have hne : g.st.nextW ≠ w0 := ne_of_gt (k3 w0 wr0 hwr0)
            refine ⟨w0, wr0, l0, hw0, ?_, ?_⟩
            · rw [lookupW_addWidget, if_neg hne]
              exact hwr0
            · refine widgetCycle_congr ?_ ?_ ?_ hcy0
              · intro m; rfl
              · intro x _; rfl
              · rw [lookupW_addWidget, if_neg hne]
          · intro u hu
            exact (Option.some.inj (hn.symm.trans (hu : lookupT g.st n = some u))) ▸ hti'
  | unbind n ov =>
    obtain ⟨hk, habs, htgt⟩ := unbind_rc g.st n ov hI
    refine ⟨inv_unbind g.st n ov hI, ?_, ?_⟩
    · intro m t hm
      dsimp only at hm ⊢
      by_cases hmn : m = n
      · subst hmn
        cases hsm : lookupT g.st m with
        | none =>
          rw [habs m hsm] at hm
          exact Option.noConfusion hm
        | some t0 =>
          rcases htgt t0 hsm with huntouched | ⟨hd0, hcase⟩
          · rw [huntouched] at hm
            have ht : t = t0 := (Option.some.inj hm).symm
            subst ht
            exact hR1 m t hsm
          · rcases hcase with ⟨hrc1, hnone⟩ | ⟨hne1, hsome⟩
            · rw [hnone] at hm
              exact Option.noConfusion hm
            · rw [hsome] at hm
              have ht : t = { t0 with rc := t0.rc - 1, disabled := true, immortal := false } :=
                (Option.some.inj hm).symm
              subst ht
              obtain ⟨e1, e2⟩ := hR1 m t0 hsm
              rw [hd0] at e1
              simp at e1
              constructor
              · show t0.rc - 1 = (g.infl m : Int) + 0
                omega
              · show (1 : Int) ≤ t0.rc - 1
                omega
      · cases hsm : lookupT g.st m with
        | none =>
          rw [habs m hsm] at hm
          exact Option.noConfusion hm
        | some v =>
          obtain ⟨u, hu, hurc, hud⟩ := hk m v hmn hsm
          rw [hu] at hm
          have ht : t = u := (Option.some.inj hm).symm
          subst ht
          obtain ⟨e1, e2⟩ := hR1 m v hsm
          rw [hurc, hud]
          exact ⟨e1, e2⟩
    · intro m hm
      dsimp only at hm ⊢
      cases hsm : lookupT g.st m with
      | none => exact hR2 m hsm
      | some v =>
        by_cases hmn : m = n
        · subst hmn
          rcases htgt v hsm with h1 | ⟨hd0, h2⟩
          · rw [h1] at hm
            exact Option.noConfusion hm
          · rcases h2 with ⟨hrc1, _⟩ | ⟨_, hsome⟩
            · obtain ⟨e1, e2⟩ := hR1 m v hsm
              rw [hd0] at e1
              simp at e1
              omega
            · rw [hsome] at hm
              exact Option.noConfusion hm
        · obtain ⟨u, hu, _, _⟩ := hk m v hmn hsm
          rw [hu] at hm
          exact Option.noConfusion hm
  | setImmortal n =>
    refine ⟨inv_setImmortal g.st n hI, ?_, ?_⟩
    · intro m t hm
      dsimp only at hm ⊢
      rw [lookupT_updT] at hm
      by_cases hmn : m = n
      · subst hmn
        rw [if_pos rfl] at hm
        cases hsm : lookupT g.st m with
        | none =>
          rw [hsm] at hm
          exact Option.noConfusion hm
        | some v =>
          rw [hsm] at hm
          have ht : t = { v with immortal := true } := (Option.some.inj hm).symm
          subst ht
          obtain ⟨e1, e2⟩ := hR1 m v hsm
          exact ⟨e1, e2⟩
      · rw [if_neg hmn] at hm
        exact hR1 m t hm
    · intro m hm
      dsimp only at hm ⊢
      rw [lookupT_updT] at hm
      by_cases hmn : m = n
      · subst hmn
        rw [if_pos rfl] at hm
        cases hsm : lookupT g.st m with
        | none => exact hR2 m hsm
        | some v =>
          rw [hsm] at hm
          exact Option.noConfusion hm
      · rw [if_neg hmn] at hm
        exact hR2 m hm

theorem invG_init : InvG ginit := by
  refine ⟨inv_init, ?_, ?_⟩
  · intro m t hm
    exact Option.noConfusion hm
  · intro m hm
    rfl

/-- Every reachable state satisfies the combined invariant. -/
theorem reachable_invG {g : GState} (h : Reachable g) : InvG g := by
  induction h with
  | init => exact invG_init
  | step hr hs ih => exact invG_step ih hs

end ZleThingy

namespace ZleThingy

/-! ### The `zle` builtin control surface (`bin_zle`) -/

/-- The operation-selector flags of the `zle` builtin. -/
structure ZleSelOpts where
  l : Bool
  D : Bool
  A : Bool
  N : Bool
  C : Bool
  R : Bool
  M : Bool
  U : Bool
  K : Bool
  I : Bool
  F : Bool
deriving DecidableEq, Repr

/-- One entry of the `opns` table: selector character, minimum and
maximum argument counts (`-1` = unlimited). -/
structure OpEntry where
  o : Char
  min : Nat
  max : Int
deriving DecidableEq, Repr

/-- The `opns` table of `bin_zle`, in source order. -/
def opns : List OpEntry :=
  [⟨'l', 0, -1⟩, ⟨'D', 1, -1⟩, ⟨'A', 2, 2⟩, ⟨'N', 1, 2⟩, ⟨'C', 3, 3⟩,
   ⟨'R', 0, -1⟩, ⟨'M', 1, 1⟩, ⟨'U', 1, 1⟩, ⟨'K', 1, 1⟩, ⟨'I', 0, 0⟩,
   ⟨'F', 0, 2⟩]

/-- The sentinel entry (`{ 0, bin_zle_call, 0, -1 }`). -/
def callOp : OpEntry := ⟨Char.ofNat 0, 0, -1⟩

/-- `OPT_ISSET(ops, op->o)` over the modeled flags. -/
def optIsSet (ops : ZleSelOpts) (c : Char) : Bool :=
  if c = 'l' then ops.l
  else if c = 'D' then ops.D
  else if c = 'A' then ops.A
  else if c = 'N' then ops.N
  else if c = 'C' then ops.C
  else if c = 'R' then ops.R
  else if c = 'M' then ops.M
  else if c = 'U' then ops.U
  else if c = 'K' then ops.K
  else if c = 'I' then ops.I
  else if c = 'F' then ops.F
  else false

/-- The selection loop: first entry whose flag is set, else the
call sentinel. -/
def findSel : List OpEntry → ZleSelOpts → OpEntry
  | [], _ => callOp
  | e :: r, ops => if optIsSet ops e.o then e else findSel r ops

def anySet : List OpEntry → ZleSelOpts → Bool
  | [], _ => false
  | e :: r, ops => optIsSet ops e.o || anySet r ops

/-- The clash scan: after the selected entry, some further entry's flag
is also set. -/
def selClash : List OpEntry → ZleSelOpts → Bool
  | [], _ => false
  | e :: r, ops => if optIsSet ops e.o then anySet r ops else selClash r ops

/-- Outcome summary of `bin_zle`. -/
inductive BinZleRes
  | incompat
  | tooFew (o : Char)
  | tooMany (o : Char)
  | dispatch (o : Char) (args : List String)
deriving DecidableEq, Repr

/-- `bin_zle`: selector-clash check, then argument-count check, then
dispatch to the selected operation (whose exit status is abstracted by
`run`). -/
def bin_zle (run : Char → List String → Int) (ops : ZleSelOpts)
    (args : List String) : Int × BinZleRes :=
  let op := findSel opns ops
  if selClash opns ops then (1, .incompat)
  else if args.length < op.min then (1, .tooFew op.o)
  else if op.max ≠ -1 && (args.length : Int) > op.max then (1, .tooMany op.o)
  else (run op.o args, .dispatch op.o args)

/-! ### Widget invocation (`bin_zle_call`, `zle_usable`) -/

/-- The global editor-state bits read by `zle_usable`. -/
structure ZleEnv where
  zleactive : Bool
  incompctlfunc : Bool
  incompfunc : Bool
deriving DecidableEq, Repr

/-- `zle_usable()`: the editor is active and not inside a completion
callback. -/
def zle_usable (e : ZleEnv) : Bool :=
  e.zleactive && (!e.incompctlfunc && !e.incompfunc)

/-- The part of `struct modifier` touched by `bin_zle_call`: the numeric
multiplier, the `MOD_MULT` bit, and the remaining flag bits (opaque). -/
structure Modifier where
  mult : Int
  multFlag : Bool
  others : Nat
deriving DecidableEq, Repr

/-- `atoi` on the model's argument strings: optional sign, then leading
digits. -/
def atoiDigits : List Char → Nat → Nat
  | [], acc => acc
  | c :: r, acc => if c.isDigit then atoiDigits r (acc * 10 + (c.toNat - 48)) else acc

def atoiz (s : String) : Int :=
  match s.data with
  | '-' :: r => -(atoiDigits r 0 : Int)
  | '+' :: r => (atoiDigits r 0 : Int)
  | l => (atoiDigits l 0 : Int)

/-- The mutable state of the option-parsing loop of `bin_zle_call`:
the process-wide `zmod`, the currently selected keymap, the
`saveflag`, and `keymap_restore`. -/
structure CallSt where
  zmod : Modifier
  curkeymap : String
  saveflag : Bool
  keymapRestore : Option String
deriving DecidableEq, Repr

/-- Result of scanning the option characters of one argument: an error
return (`return 1`, with the state as modified so far), or completion of
the argument with a flag telling whether the following argument was
consumed as an option value. -/
inductive ChRes
  | err (st : CallSt)
  | cont (st : CallSt) (skipNext : Bool)
deriving DecidableEq, Repr

/-- The inner `while (*++(*args))` character loop of `bin_zle_call`.
`next` is the following argument (for `-n`/`-K` values in separate
words); an in-word value is scanned on as further option characters, as
in the source. -/
def parseChars (keymaps : List String) : List Char → Option String → CallSt → ChRes
  | [], _, st => .cont st false
  | c :: rest, next, st =>
    if c = 'n' then
      match rest with
      | [] =>
        match next with
        | none => .err st
        | some num =>
          .cont { st with zmod := { st.zmod with mult := atoiz num, multFlag := true },
                          saveflag := true } true
      | _ :: _ =>
        parseChars keymaps rest next
          { st with zmod := { st.zmod with mult := atoiz (String.mk rest), multFlag := true },
                    saveflag := true }
    else if c = 'N' then
      parseChars keymaps rest next
        { st with zmod := { st.zmod with mult := 1, multFlag := false }, saveflag := true }
    else if c = 'K' then
      match rest with
      | [] =>
        match next with
        | none => .err st
        | some km =>
          let st' := { st with keymapRestore := some st.curkeymap }
          if km ∈ keymaps then .cont { st' with curkeymap := km } true
          else .err st'
      | _ :: _ =>
        let st' := { st with keymapRestore := some st.curkeymap }
        if String.mk rest ∈ keymaps then
          parseChars keymaps rest next { st' with curkeymap := String.mk rest }
        else .err st'
    else .err st

/-- The outer `while (*args && **args == '-')` loop of `bin_zle_call`:
returns either the error state (`return 1`) or the final parse state and
the remaining (widget) arguments. -/
def parseArgs (keymaps : List String) (args : List String) (st : CallSt) :
    Except CallSt (CallSt × List String) :=
  match args with
  | [] => .ok (st, [])
  | a :: rest =>
    match a.data with
    | [] => .ok (st, a :: rest)
    | c :: cs =>
      if c = '-' then
        match cs with
        | [] => .ok (st, rest)
        | c2 :: _ =>
          if c2 = '-' then .ok (st, rest)
          else
            match parseChars keymaps cs rest.head? st with
            | .err st' => .error st'
            | .cont st' true => parseArgs keymaps rest.tail st'
            | .cont st' false => parseArgs keymaps rest st'
      else .ok (st, a :: rest)
  termination_by args.length
  decreasing_by
  all_goals simp only [List.length_cons, List.length_tail]
  all_goals omega

/-- The observable outcome of `bin_zle_call`: exit status, the widget
execution request handed to `execzlefunc` (if any), and the final values
of the process-wide modifier state and selected keymap. -/
structure CallOut where
  status : Int
  executed : Option (String × List String)
  zmodF : Modifier
  keymapF : String
deriving DecidableEq, Repr

/-- `bin_zle_call`: the widget-invocation path of the `zle` builtin.
`exec` abstracts `execzlefunc`; a keymap is selectable iff it is in
`keymaps`. -/
def bin_zle_call (env : ZleEnv) (keymaps : List String)
    (exec : String → List String → Int) (zmod0 : Modifier) (km0 : String)
    (args : List String) : CallOut :=
  match args with
  | [] => ⟨if zle_usable env then 0 else 1, none, zmod0, km0⟩
  | wname :: args1 =>
    if !zle_usable env then ⟨1, none, zmod0, km0⟩
    else
      match parseArgs keymaps args1 ⟨zmod0, km0, false, none⟩ with
      | .error st' => ⟨1, none, st'.zmod, st'.curkeymap⟩
      | .ok (st', rest) =>
        let ret := exec wname rest
        let zf := if st'.saveflag then zmod0 else st'.zmod
        let kf := match st'.keymapRestore with
                  | some km => if km ∈ keymaps then km else st'.curkeymap
                  | none => st'.curkeymap
        ⟨ret, some (wname, rest), zf, kf⟩

/-! ### Watched file descriptors (`bin_zle_fd`) -/

/-- The parallel `watch_fds` / `watch_funcs` arrays; the handler-name
array carries its `NULL` terminator explicitly. -/
structure WatchSt where
  fds : List Int
  funcs : List (Option String)
deriving DecidableEq, Repr

/-- Index of the first entry for a descriptor. -/
def findFd : List Int → Int → Option Nat
  | [], _ => none
  | f :: r, fd => if f = fd then some 0 else (findFd r fd).map (· + 1)

/-- The add-or-replace arm of `bin_zle_fd` (`args[1]` present). -/
def zleFdAdd (st : WatchSt) (fd : Int) (fn : String) : WatchSt :=
  match findFd st.fds fd with
  | some i => { st with funcs := st.funcs.set i (some fn) }
  | none => ⟨st.fds ++ [fd], st.funcs.dropLast ++ [some fn, none]⟩

/-- The delete arm of `bin_zle_fd` (no `args[1]`): status 1 when no
handler is installed for the descriptor. -/
def zleFdDel (st : WatchSt) (fd : Int) : Int × WatchSt :=
  match findFd st.fds fd with
  | none => (1, st)
  | some i =>
    if st.fds.length - 1 = 0 then (0, ⟨[], []⟩)
    else (0, ⟨st.fds.eraseIdx i, st.funcs.eraseIdx i⟩)

/-- Well-formedness of the watch tables: handler names parallel to the
descriptors and `NULL`-terminated, or both arrays unallocated. -/
def WatchWF (st : WatchSt) : Prop :=
  (∃ names : List String, st.funcs = names.map some ++ [none] ∧
     names.length = st.fds.length) ∨ (st.fds = [] ∧ st.funcs = [])

/-- The handler currently registered for a descriptor. -/
def watchOf (st : WatchSt) (fd : Int) : Option String :=
  match findFd st.fds fd with
  | none => none
  | some i => st.funcs.getD i none

end ZleThingy

namespace ZleThingy

/-! ### Watch-table lemmas -/

theorem findFd_lt {l : List Int} {fd : Int} {i : Nat} (h : findFd l fd = some i) :
    i < l.length := by
  induction l generalizing i with
  | nil => exact Option.noConfusion h
  | cons f r ih =>
    unfold findFd at h
    by_cases hf : f = fd
    · rw [if_pos hf] at h
      have hi : i = 0 := (Option.some.inj h).symm
      subst hi
      simp
    · rw [if_neg hf] at h
      cases hr : findFd r fd with
      | none =>
        rw [hr] at h
        exact Option.noConfusion h
      | some j =>
        rw [hr] at h
        simp at h
        have := ih hr
        simp
        omega

theorem findFd_mem {l : List Int} {fd : Int} {i : Nat} (h : findFd l fd = some i) :
    fd ∈ l := by
  induction l generalizing i with
  | nil => exact Option.noConfusion h
  | cons f r ih =>
    unfold findFd at h
    by_cases hf : f = fd
    · subst hf
      simp
    · rw [if_neg hf] at h
      cases hr : findFd r fd with
      | none =>
        rw [hr] at h
        exact Option.noConfusion h
      | some j =>
        simp [ih hr]

theorem findFd_eq_none {l : List Int} {fd : Int} : findFd l fd = none ↔ fd ∉ l := by
  induction l with
  | nil => simp [findFd]
  | cons f r ih =>
    unfold findFd
    by_cases hf : f = fd
    · subst hf
      simp
    · have hf' : fd ≠ f := fun h => hf h.symm
      simp [hf, hf', ih]

theorem findFd_eraseIdx_not_mem {l : List Int} {fd : Int} {i : Nat}
    (hnd : l.Nodup) (h : findFd l fd = some i) : fd ∉ l.eraseIdx i := by
  induction l generalizing i with
  | nil => exact Option.noConfusion h
  | cons f r ih =>
    unfold findFd at h
    by_cases hf : f = fd
    · rw [if_pos hf] at h
      have hi : i = 0 := (Option.some.inj h).symm
      subst hi
      rw [List.eraseIdx_cons_zero]
      subst hf
      exact (List.nodup_cons.1 hnd).1
    · rw [if_neg hf] at h
      cases hr : findFd r fd with
      | none =>
        rw [hr] at h
        exact Option.noConfusion h
      | some j =>
        rw [hr] at h
        simp at h
        subst h
        rw [List.eraseIdx_cons_succ]
        simp only [List.mem_cons]
        rintro (hfd | hmem)
        · exact hf hfd.symm
        · exact ih (List.nodup_cons.1 hnd).2 hr hmem

theorem getD_set_self {α : Type} (l : List α) (i : Nat) (a d : α) (h : i < l.length) :
    (l.set i a).getD i d = a := by
  induction l generalizing i with
  | nil => simp at h
  | cons x r ih =>
    cases i with
    | zero => simp
    | succ j =>
      simp only [List.set_cons_succ, List.getD_cons_succ]
      exact ih j (by simpa using h)

theorem set_map_some_append {names : List String} {i : Nat} {fn : String}
    (h : i < names.length) :
    (names.map some ++ [(none : Option String)]).set i (some fn) =
      (names.set i fn).map some ++ [none] := by
  induction names generalizing i with
  | nil => simp at h
  | cons x r ih =>
    cases i with
    | zero => simp
    | succ j =>
      simp only [List.map_cons, List.cons_append, List.set_cons_succ]
      rw [ih (by simpa using h)]

theorem eraseIdx_map_some_append {names : List String} {i : Nat} (h : i < names.length) :
    (names.map some ++ [(none : Option String)]).eraseIdx i =
      (names.eraseIdx i).map some ++ [none] := by
  induction names generalizing i with
  | nil => simp at h
  | cons x r ih =>
    cases i with
    | zero => simp
    | succ j =>
      simp only [List.map_cons, List.cons_append, List.eraseIdx_cons_succ]
      rw [ih (by simpa using h)]

end ZleThingy

namespace ZleThingy

/-! ### State-preservation facts of the option parser -/

/-- The parser state carried by either outcome of the character loop. -/
def chFinal : ChRes → CallSt
  | .err st => st
  | .cont st _ => st

/-- Through the character loop, an untouched `saveflag` means an
untouched `zmod`, and an unset `keymap_restore` means an untouched
keymap. -/
theorem parseChars_pres (keymaps : List String) (zmod0 : Modifier) (km0 : String) :
    ∀ (cs : List Char) (next : Option String) (st : CallSt),
      (st.saveflag = false → st.zmod = zmod0) →
      (st.keymapRestore = none → st.curkeymap = km0) →
      ((chFinal (parseChars keymaps cs next st)).saveflag = false →
        (chFinal (parseChars keymaps cs next st)).zmod = zmod0) ∧
      ((chFinal (parseChars keymaps cs next st)).keymapRestore = none →
        (chFinal (parseChars keymaps cs next st)).curkeymap = km0) := by
  intro cs
  induction cs with
  | nil =>
    intro next st h1 h2
    exact ⟨h1, h2⟩
  | cons c rest ih =>
    intro next st h1 h2
    simp only [parseChars]
    by_cases hcn : c = 'n'
    · rw [if_pos hcn]
      cases rest with
      | nil =>
        cases next with
        | none => exact ⟨h1, h2⟩
        | some num =>
          dsimp only [chFinal]
          refine ⟨fun hsf => absurd hsf (by simp), fun hkr => h2 hkr⟩
      | cons r0 rs =>
        exact ih next _ (fun hh => absurd hh (by simp)) (fun hh => h2 hh)
    · rw [if_neg hcn]
      by_cases hcN : c = 'N'
      · rw [if_pos hcN]
        exact ih next _ (fun hh => absurd hh (by simp)) (fun hh => h2 hh)
      · rw [if_neg hcN]
        by_cases hcK : c = 'K'
        · rw [if_pos hcK]
          cases rest with
          | nil =>
            cases next with
            | none => exact ⟨h1, h2⟩
            | some km =>
              dsimp only
              by_cases hkm : km ∈ keymaps
              · rw [if_pos hkm]
                dsimp only [chFinal]
                exact ⟨fun hsf => h1 hsf, fun hkr => absurd hkr (by simp)⟩
              · rw [if_neg hkm]
                dsimp only [chFinal]
                exact ⟨fun hsf => h1 hsf, fun hkr => absurd hkr (by simp)⟩
          | cons r0 rs =>
            dsimp only
            by_cases hkm : String.mk (r0 :: rs) ∈ keymaps
            · rw [if_pos hkm]
              exact ih next _ (fun hh => h1 hh) (fun hh => absurd hh (by simp))
            · rw [if_neg hkm]
              dsimp only [chFinal]
              exact ⟨fun hsf => h1 hsf, fun hkr => absurd hkr (by simp)⟩
        · rw [if_neg hcK]
          exact ⟨h1, h2⟩

/-- The same preservation through the whole argument loop, for both the
error return and the normal completion. -/
theorem parseArgs_pres (keymaps : List String) (zmod0 : Modifier) (km0 : String) :
    ∀ (N : Nat) (args : List String) (st : CallSt), args.length ≤ N →
      (st.saveflag = false → st.zmod = zmod0) →
      (st.keymapRestore = none → st.curkeymap = km0) →
      (∀ st', parseArgs keymaps args st = .error st' →
         (st'.saveflag = false → st'.zmod = zmod0) ∧
         (st'.keymapRestore = none → st'.curkeymap = km0)) ∧
      (∀ st' rest, parseArgs keymaps args st = .ok (st', rest) →
         (st'.saveflag = false → st'.zmod = zmod0) ∧
         (st'.keymapRestore = none → st'.curkeymap = km0)) := by
  intro N
  induction N with
  | zero =>
    intro args st hlen h1 h2
    have hargs : args = [] := List.length_eq_zero.1 (Nat.le_zero.1 hlen)
    subst hargs
    constructor
    · intro st' h
      rw [parseArgs] at h
      exact Except.noConfusion h
    · intro st' rest h
      rw [parseArgs] at h
      have hp := Except.ok.inj h
      have hst : st = st' := congrArg Prod.fst hp
      subst hst
      exact ⟨h1, h2⟩
  | succ n ihN =>
    intro args st hlen h1 h2
    cases args with
    | nil =>
      constructor
      · intro st' h
        rw [parseArgs] at h
        exact Except.noConfusion h
      · intro st' rest h
        rw [parseArgs] at h
        have hp := Except.ok.inj h
        have hst : st = st' := congrArg Prod.fst hp
        subst hst
        exact ⟨h1, h2⟩
    | cons a rest =>
      have hlen' : rest.length ≤ n := by
        simp only [List.length_cons] at hlen
        omega
      have hlen'' : rest.tail.length ≤ n := by
        have := List.length_tail rest
        omega
      rw [parseArgs]
      cases hdata : a.data with
      | nil =>
        dsimp only
        constructor
        · intro st' h
          exact Except.noConfusion h
        · intro st' rest' h
          have hp := Except.ok.inj h
          have hst : st = st' := congrArg Prod.fst hp
          subst hst
          exact ⟨h1, h2⟩
      | cons c cs =>
        dsimp only
        by_cases hc : c = '-'
        · rw [if_pos hc]
          cases cs with
          | nil =>
            dsimp only
            constructor
            · intro st' h
              exact Except.noConfusion h
            · intro st' rest' h
              have hp := Except.ok.inj h
              have hst : st = st' := congrArg Prod.fst hp
              subst hst
              exact ⟨h1, h2⟩
          | cons c2 cs2 =>
            dsimp only
            by_cases hc2 : c2 = '-'
            · rw [if_pos hc2]
              constructor
              · intro st' h
                exact Except.noConfusion h
              · intro st' rest' h
                have hp := Except.ok.inj h
                have hst : st = st' := congrArg Prod.fst hp
                subst hst
                exact ⟨h1, h2⟩
            · rw [if_neg hc2]
              obtain ⟨q1, q2⟩ := parseChars_pres keymaps zmod0 km0 (c2 :: cs2) rest.head? st h1 h2
              cases hch : parseChars keymaps (c2 :: cs2) rest.head? st with
              | err st1 =>
                rw [hch] at q1 q2
                dsimp only [chFinal] at q1 q2
                constructor
                · intro st' h
                  have hst : st1 = st' := Except.error.inj h
                  subst hst
                  exact ⟨q1, q2⟩
                · intro st' rest' h
                  exact Except.noConfusion h
              | cont st1 b =>
                rw [hch] at q1 q2
                dsimp only [chFinal] at q1 q2
                cases b with
                | true => exact ihN rest.tail st1 hlen'' q1 q2
                | false => exact ihN rest st1 hlen' q1 q2
        · rw [if_neg hc]
          constructor
          · intro st' h
            exact Except.noConfusion h
          · intro st' rest' h
            have hp := Except.ok.inj h
            have hst : st = st' := congrArg Prod.fst hp
            subst hst
            exact ⟨h1, h2⟩

end ZleThingy

namespace ZleThingy

/-- A widget cycle can be entered at any member: rotating the cycle list
yields a chain that starts at the member, visits the same set, and closes
on it. -/
theorem cycle_member_start {st : ZleState} {w : Nat} {l : List String} {m : String}
    (hcy : WidgetCycle st w l) (hm : m ∈ l) :
    ∃ l', l'.head? = some m ∧ l'.Nodup ∧
      (∀ x, x ∈ l' ↔ boundToB st w x = true) ∧ chainTo st l' m := by
  obtain ⟨hne, hnd, hmem, hfirst, hch⟩ := hcy
  obtain ⟨l₁, l₂, rfl⟩ := List.append_of_mem hm
  have hperm : (l₁ ++ m :: l₂).Perm (m :: (l₂ ++ l₁)) :=
    List.perm_middle.trans (List.perm_append_comm.cons m)
  refine ⟨m :: l₂ ++ l₁, by simp, hperm.nodup hnd, ?_, chainTo_rotate st hch⟩
  intro x
  rw [← hmem x]
  exact hperm.mem_iff.symm

/-- C1: for every sequence of bind and unbind operations starting from
the initial registry state, every enabled thingy's next-same-widget
(`samew`) chain, followed from any member, is a cycle that visits exactly
the full set of names currently bound to that thingy's widget, with no
duplicates, and returns to the start; a disabled thingy is bound to no
widget and belongs to no such chain. -/
theorem C1_cycle_invariant (g : GState) (hg : Reachable g) :
    (∀ n t, lookupT g.st n = some t → t.disabled = false →
       ∃ (w : Nat) (l : List String), t.widget = some w ∧ n ∈ l ∧ l.Nodup ∧
         (∀ x, x ∈ l ↔ boundToB g.st w x = true) ∧
         (∀ m, m ∈ l → ∃ l', l'.head? = some m ∧ l'.Nodup ∧
            (∀ x, x ∈ l' ↔ boundToB g.st w x = true) ∧ chainTo g.st l' m)) ∧
    (∀ n t, lookupT g.st n = some t → t.disabled = true →
       ∀ w, boundToB g.st w n = false) := by
  obtain ⟨hI, -⟩ := reachable_invG hg
  obtain ⟨k1, k2, k3, k4, k5⟩ := hI
  constructor
  · intro n t hn hd
    obtain ⟨w, hw, wr, hwr⟩ := k4 n t hn hd
    obtain ⟨l, hcy⟩ := k5 w wr hwr
    have hmem := hcy.2.2.1
    have hnl : n ∈ l := (hmem n).2 (boundToB_true_intro hn hd hw)
    refine ⟨w, l, hw, hnl, hcy.2.1, fun x => hmem x, ?_⟩
    intro m hm
    exact cycle_member_start hcy hm
  · intro n t hn hd w
    unfold boundToB
    rw [hn]
    simp [hd]

/-- A reachable ghost state with one internal widget bound to the single
name `"w"`. -/
def gW : GState :=
  ⟨⟨[("w", ⟨1, false, false, some 0, some "w"⟩)], [(0, ⟨.fnnam "f", some "w"⟩)], 1⟩,
   fun _ => 0⟩

theorem gW_reachable : Reachable gW :=
  Reachable.step Reachable.init (Step.bindFresh ginit (.fnnam "f") "w")

theorem C1_cycle_invariant_witness :
    ∃ (w : Nat) (l : List String),
      (⟨1, false, false, some 0, some "w"⟩ : Thingy).widget = some w ∧ "w" ∈ l ∧
      l.Nodup ∧ (∀ x, x ∈ l ↔ boundToB gW.st w x = true) ∧
      (∀ m, m ∈ l → ∃ l', l'.head? = some m ∧ l'.Nodup ∧
        (∀ x, x ∈ l' ↔ boundToB gW.st w x = true) ∧ chainTo gW.st l' m) :=
  (C1_cycle_invariant gW gW_reachable).1 "w" ⟨1, false, false, some 0, some "w"⟩ rfl rfl

/-- C6: after any balanced sequence of retain/lookup-plus-release calls,
a name that is not currently bound to any widget and has no in-flight
references is absent from the registry table. -/
theorem C6_refcount_absence (g : GState) (hg : Reachable g) (n : String)
    (hw : ∀ w, boundToB g.st w n = false) (hin : g.infl n = 0) :
    lookupT g.st n = none := by
  obtain ⟨hI, hR1, hR2⟩ := reachable_invG hg
  obtain ⟨k1, k2, k3, k4, k5⟩ := hI
  cases hn : lookupT g.st n with
  | none => rfl
  | some t =>
    exfalso
    obtain ⟨e1, e2⟩ := hR1 n t hn
    cases hd : t.disabled with
    | false =>
      obtain ⟨w, hw0, wr, hwr⟩ := k4 n t hn hd
      have hbw := hw w
      rw [boundToB_true_intro hn hd hw0] at hbw
      exact Bool.noConfusion hbw
    | true =>
      rw [hd] at e1
      simp [hin] at e1
      omega

/-- The ghost state after acquiring and then releasing one reference on
the fresh name `"x"`. -/
def gX1 : GState := ⟨rthingy init "x", bumpf (fun _ => 0) "x"⟩

def gX2 : GState := ⟨⟨[], [], 0⟩, dropf (bumpf (fun _ => 0) "x") "x"⟩

theorem gX2_reachable : Reachable gX2 :=
  Reachable.step (Reachable.step Reachable.init (Step.acquire ginit "x"))
    (Step.release gX1 "x" (by decide))

theorem C6_refcount_absence_witness : lookupT gX2.st "x" = none :=
  C6_refcount_absence gX2 gX2_reachable "x" (fun w => rfl) rfl

end ZleThingy

namespace ZleThingy

/-- C2: binding any widget to an immortal thingy fails with the protected
result (-1), releases exactly the one reference the caller passed in (one
refcount decrement, destroying the record only when the count reaches
zero), and leaves the rest of the registry unchanged: every other name's
record, the whole widget store, and — when the record survives — the
target's flags, widget pointer and `samew` link. -/
theorem C2_bind_immortal (st : ZleState) (w : Nat) (tn : String) (t : Thingy)
    (htn : lookupT st tn = some t) (him : t.immortal = true)
    (hnd : (st.tab.map Prod.fst).Nodup) :
    (bindwidget st w tn).1 = -1 ∧
    (∀ m, m ≠ tn → lookupT (bindwidget st w tn).2 m = lookupT st m) ∧
    (bindwidget st w tn).2.widgets = st.widgets ∧
    lookupT (bindwidget st w tn).2 tn =
      (if t.rc - 1 = 0 then none else some { t with rc := t.rc - 1 }) := by
  rw [bind_immortal_eq st w tn t htn him]
  refine ⟨rfl, ?_, ?_, ?_⟩
  · intro m hm
    exact lookupT_unrefthingy_ne st hm
  · exact widgets_unrefthingy st tn
  · rw [lookupT_unrefthingy_self st tn hnd, htn]

/-- A registry with one immortal name bound to an internal widget. -/
def stC2 : ZleState :=
  ⟨[("k", ⟨2, false, true, some 0, some "k"⟩)], [(0, ⟨.fnnam "f", some "k"⟩)], 1⟩

theorem C2_bind_immortal_witness :
    (bindwidget stC2 5 "k").1 = -1 ∧
    (∀ m, m ≠ "k" → lookupT (bindwidget stC2 5 "k").2 m = lookupT stC2 m) ∧
    (bindwidget stC2 5 "k").2.widgets = stC2.widgets ∧
    lookupT (bindwidget stC2 5 "k").2 "k" =
      (if (⟨2, false, true, some 0, some "k"⟩ : Thingy).rc - 1 = 0 then none
       else some { (⟨2, false, true, some 0, some "k"⟩ : Thingy) with
                   rc := (⟨2, false, true, some 0, some "k"⟩ : Thingy).rc - 1 }) :=
  C2_bind_immortal stC2 5 "k" ⟨2, false, true, some 0, some "k"⟩ rfl rfl (by decide)

/-- C3: `unbindwidget` returns success as a no-op when the thingy is
already disabled; fails with the protected result when it is immortal and
override is unset; and otherwise succeeds, removing the name from its
widget's circular list (destroying the widget when the name was the sole
member, otherwise keeping it with its `first` pointer moved to the
predecessor), clearing `TH_IMMORTAL`, setting `DISABLED`, and performing
exactly one reference decrement, which destroys the record when the count
reaches zero. -/
theorem C3_unbind_contract (st : ZleState) (n : String) (ov : Bool) (hI : Inv st) :
    (∀ t, lookupT st n = some t → t.disabled = true →
       unbindwidget st n ov = (0, st)) ∧
    (∀ t, lookupT st n = some t → t.disabled = false → ov = false →
       t.immortal = true → unbindwidget st n ov = (-1, st)) ∧
    (∀ t w, lookupT st n = some t → t.disabled = false →
       (!ov && t.immortal) = false → t.widget = some w →
       (unbindwidget st n ov).1 = 0 ∧
       lookupT (unbindwidget st n ov).2 n =
         (if t.rc - 1 = 0 then none
          else some { t with rc := t.rc - 1, disabled := true, immortal := false }) ∧
       (t.samew = some n → lookupW (unbindwidget st n ov).2 w = none) ∧
       (t.samew ≠ some n → ∃ wr p, lookupW st w = some wr ∧ p ≠ n ∧
          lookupW (unbindwidget st n ov).2 w = some { wr with first := some p })) := by
  obtain ⟨k1, k2, k3, k4, k5⟩ := hI
  refine ⟨?_, ?_, ?_⟩
  · intro t hn hd
    exact unbind_noop_disabled st n ov t hn hd
  · intro t hn hd hov him
    refine unbind_protected st n ov t hn hd ?_
    subst hov
    simp [him]
  · intro t w hn hd hg hw
    obtain ⟨w0, hw0, wr, hwr⟩ := k4 n t hn hd
    have hww : w0 = w := Option.some.inj (hw0.symm.trans hw)
    subst hww
    obtain ⟨l, hcy⟩ := k5 w0 wr hwr
    have hnl : n ∈ l := (hcy.2.2.1 n).2 (boundToB_true_intro hn hd hw0)
    by_cases hsw : t.samew = some n
    · obtain ⟨hl, hfst, hRn, hRm, hWn, hWo, hnx, hn1, hn2⟩ :=
        unbind_views_sole st n ov t w0 l hn hd hg hw0 hcy hnl k1 k2 hsw
      exact ⟨hfst, hRn, fun _ => hWn, fun hsw' => absurd hsw hsw'⟩
    · obtain ⟨p, pt, hpt, hpts, hpl, hpn, hfst, hRn, hRp, hRm, hWw, hWo, hnx, hn1, hn2⟩ :=
        unbind_views_multi st n ov t w0 wr l hn hd hg hw0 hwr hcy hnl k1 k2 hsw
      exact ⟨hfst, hRn, fun hsw' => absurd hsw' hsw, fun _ => ⟨wr, p, hwr, hpn, hWw⟩⟩

theorem C3_unbind_contract_witness :
    (∀ t, lookupT gW.st "w" = some t → t.disabled = true →
       unbindwidget gW.st "w" false = (0, gW.st)) ∧
    (∀ t, lookupT gW.st "w" = some t → t.disabled = false → false = false →
       t.immortal = true → unbindwidget gW.st "w" false = (-1, gW.st)) ∧
    (∀ t w, lookupT gW.st "w" = some t → t.disabled = false →
       (!false && t.immortal) = false → t.widget = some w →
       (unbindwidget gW.st "w" false).1 = 0 ∧
       lookupT (unbindwidget gW.st "w" false).2 "w" =
         (if t.rc - 1 = 0 then none
          else some { t with rc := t.rc - 1, disabled := true, immortal := false }) ∧
       (t.samew = some "w" → lookupW (unbindwidget gW.st "w" false).2 w = none) ∧
       (t.samew ≠ some "w" → ∃ wr p, lookupW gW.st w = some wr ∧ p ≠ "w" ∧
          lookupW (unbindwidget gW.st "w" false).2 w = some { wr with first := some p })) :=
  C3_unbind_contract gW.st "w" false ((reachable_invG gW_reachable).1)

end ZleThingy

namespace ZleThingy

/-- C9: the `zle` builtin rejects two or more simultaneous
operation-selector flags with status 1 before any argument-count check;
otherwise an argument count below the selected operation's minimum or
above its maximum yields a usage error with status 1 — distinguishing too
few from too many — and the operation is not dispatched. -/
theorem C9_selector_arity (run : Char → List String → Int) (ops : ZleSelOpts)
    (args : List String) :
    (selClash opns ops = true → bin_zle run ops args = (1, .incompat)) ∧
    (selClash opns ops = false → args.length < (findSel opns ops).min →
       bin_zle run ops args = (1, .tooFew (findSel opns ops).o)) ∧
    (selClash opns ops = false → ¬args.length < (findSel opns ops).min →
       ((findSel opns ops).max ≠ -1 &&
          ((args.length : Int) > (findSel opns ops).max)) = true →
       bin_zle run ops args = (1, .tooMany (findSel opns ops).o)) ∧
    (selClash opns ops = false → ¬args.length < (findSel opns ops).min →
       ((findSel opns ops).max ≠ -1 &&
          ((args.length : Int) > (findSel opns ops).max)) = false →
       bin_zle run ops args =
         (run (findSel opns ops).o args, .dispatch (findSel opns ops).o args)) := by
  simp only [bin_zle]
  refine ⟨?_, ?_, ?_, ?_⟩
  · intro h
    rw [if_pos h]
  · intro h hlt
    rw [if_neg (by simp [h]), if_pos hlt]
  · intro h hge hmax
    rw [if_neg (by simp [h]), if_neg hge, if_pos hmax]
  · intro h hge hmax
    rw [if_neg (by simp [h]), if_neg hge, if_neg (by rw [hmax]; simp)]

/-- C10: invoking the widget-call path with no widget-name argument
performs no widget invocation and returns status 0 exactly when the
editor is usable (active and not inside a completion callback), 1
otherwise — the empty invoke form is a usability test, not an error. -/
theorem C10_empty_invoke (env : ZleEnv) (keymaps : List String)
    (exec : String → List String → Int) (zmod0 : Modifier) (km0 : String) :
    (bin_zle_call env keymaps exec zmod0 km0 []).executed = none ∧
    ((bin_zle_call env keymaps exec zmod0 km0 []).status = 0 ↔
       zle_usable env = true) ∧
    ((bin_zle_call env keymaps exec zmod0 km0 []).status = 1 ↔
       zle_usable env = false) := by
  unfold bin_zle_call
  cases hu : zle_usable env <;> simp [hu]

/-- C7: invoking a widget by name fails with status 1 and no execution
whenever the editor is inactive or inside a completion callback; when the
editor is usable, the named widget's invocation (with the post-option
arguments) is handed to the dispatch layer and its status returned. -/
theorem C7_usability_gate (env : ZleEnv) (keymaps : List String)
    (exec : String → List String → Int) (zmod0 : Modifier) (km0 : String)
    (wname : String) (args1 : List String) :
    (zle_usable env = false →
       bin_zle_call env keymaps exec zmod0 km0 (wname :: args1) =
         ⟨1, none, zmod0, km0⟩) ∧
    (zle_usable env = true → ∀ st' rest,
       parseArgs keymaps args1 ⟨zmod0, km0, false, none⟩ = .ok (st', rest) →
       (bin_zle_call env keymaps exec zmod0 km0 (wname :: args1)).executed =
          some (wname, rest) ∧
       (bin_zle_call env keymaps exec zmod0 km0 (wname :: args1)).status =
          exec wname rest) := by
  constructor
  · intro hu
    unfold bin_zle_call
    simp [hu]
  · intro hu st' rest hok
    unfold bin_zle_call
    simp [hu, hok]

/-- C5 counterexample: the invocation `zle w -Nx` with the editor active
takes an error exit from the modifier-parsing loop after `-N` has
already cleared the numeric-multiplier state: it returns status 1 with
the process-wide `zmod` left modified, so the saved modifier state is not
restored on this exit path. -/
theorem C5_restore_counterexample :
    (bin_zle_call ⟨true, false, false⟩ ["main"] (fun _ _ => 0) ⟨7, true, 0⟩ "main"
        ["w", "-Nx"]) =
      ⟨1, none, ⟨1, false, 0⟩, "main"⟩ ∧
    (⟨1, false, 0⟩ : Modifier) ≠ ⟨7, true, 0⟩ := by
  constructor
  · simp [bin_zle_call, zle_usable, parseArgs, parseChars]
  · decide

/-- C5 (amended): on the normal exit path of `bin_zle_call` — option
parsing completed and the widget dispatched — the saved modifier state is
restored before return, and the keymap is restored to the value saved at
the last `-K` (so to the originally selected keymap when no `-K` was
processed); on the error exit paths of the parsing loop no restore is
performed. -/
theorem C5_restore_amended (env : ZleEnv) (keymaps : List String)
    (exec : String → List String → Int) (zmod0 : Modifier) (km0 : String)
    (wname : String) (args1 : List String) (st' : CallSt) (rest : List String)
    (husable : zle_usable env = true)
    (hok : parseArgs keymaps args1 ⟨zmod0, km0, false, none⟩ = .ok (st', rest)) :
    (bin_zle_call env keymaps exec zmod0 km0 (wname :: args1)).zmodF = zmod0 ∧
    (st'.keymapRestore = none →
       (bin_zle_call env keymaps exec zmod0 km0 (wname :: args1)).keymapF = km0) ∧
    (∀ km, st'.keymapRestore = some km → km ∈ keymaps →
       (bin_zle_call env keymaps exec zmod0 km0 (wname :: args1)).keymapF = km) := by
  obtain ⟨-, hq⟩ := parseArgs_pres keymaps zmod0 km0 args1.length args1
    ⟨zmod0, km0, false, none⟩ le_rfl (fun _ => rfl) (fun _ => rfl)
  obtain ⟨p1, p2⟩ := hq st' rest hok
  have hred : bin_zle_call env keymaps exec zmod0 km0 (wname :: args1) =
      ⟨exec wname rest, some (wname, rest),
       if st'.saveflag then zmod0 else st'.zmod,
       match st'.keymapRestore with
       | some km => if km ∈ keymaps then km else st'.curkeymap
       | none => st'.curkeymap⟩ := by
    unfold bin_zle_call
    simp [husable, hok]
  rw [hred]
  refine ⟨?_, ?_, ?_⟩
  · show (if st'.saveflag then zmod0 else st'.zmod) = zmod0
    cases hsf : st'.saveflag
    · simp [p1 hsf]
    · simp
  · intro hkr
    show (match st'.keymapRestore with
          | some km => if km ∈ keymaps then km else st'.curkeymap
          | none => st'.curkeymap) = km0
    rw [hkr]
    exact p2 hkr
  · intro km hkr hin
    show (match st'.keymapRestore with
          | some km => if km ∈ keymaps then km else st'.curkeymap
          | none => st'.curkeymap) = km
    rw [hkr]
    simp [hin]

theorem C5_restore_amended_witness :
    (bin_zle_call ⟨true, false, false⟩ ["main", "vim"] (fun _ _ => 0) ⟨7, true, 0⟩
        "main" ["w", "-K", "vim"]).zmodF = ⟨7, true, 0⟩ ∧
    ((⟨⟨7, true, 0⟩, "vim", false, some "main"⟩ : CallSt).keymapRestore = none →
       (bin_zle_call ⟨true, false, false⟩ ["main", "vim"] (fun _ _ => 0) ⟨7, true, 0⟩
          "main" ["w", "-K", "vim"]).keymapF = "main") ∧
    (∀ km, (⟨⟨7, true, 0⟩, "vim", false, some "main"⟩ : CallSt).keymapRestore = some km →
       km ∈ ["main", "vim"] →
       (bin_zle_call ⟨true, false, false⟩ ["main", "vim"] (fun _ _ => 0) ⟨7, true, 0⟩
          "main" ["w", "-K", "vim"]).keymapF = km) :=
  C5_restore_amended ⟨true, false, false⟩ ["main", "vim"] (fun _ _ => 0) ⟨7, true, 0⟩
    "main" "w" ["-K", "vim"] ⟨⟨7, true, 0⟩, "vim", false, some "main"⟩ [] rfl
    (by simp [parseArgs, parseChars])

end ZleThingy

namespace ZleThingy

theorem findFd_append_fresh {l : List Int} {fd : Int} (h : fd ∉ l) :
    findFd (l ++ [fd]) fd = some l.length := by
  induction l with
  | nil => simp [findFd]
  | cons f r ih =>
    rw [List.mem_cons] at h
    push_neg at h
    obtain ⟨h1, h2⟩ := h
    simp only [List.cons_append, findFd, List.append_eq]
    rw [if_neg (fun he => h1 he.symm), ih h2]
    rfl

theorem getD_append_length {α : Type} (l1 l2 : List α) (d : α) :
    (l1 ++ l2).getD l1.length d = l2.getD 0 d := by
  induction l1 with
  | nil => rfl
  | cons x r ih => simpa using ih

/-- C8: registering a watch-fd handler for a descriptor that already has
an entry replaces that entry's handler name in place, leaving exactly one
entry for that fd; registering a fresh descriptor appends one entry and
keeps the handler-name array `NULL`-terminated; deleting a descriptor
removes its entry and compacts both parallel arrays (status 1 when no
handler was installed). -/
theorem C8_watch_fd (st : WatchSt) (fd : Int) (fn : String)
    (hnd : st.fds.Nodup) (hwf : WatchWF st) :
    (∀ i, findFd st.fds fd = some i →
       (zleFdAdd st fd fn).fds = st.fds ∧
       watchOf (zleFdAdd st fd fn) fd = some fn ∧
       (zleFdAdd st fd fn).fds.count fd = 1 ∧
       WatchWF (zleFdAdd st fd fn) ∧ (zleFdAdd st fd fn).fds.Nodup) ∧
    (findFd st.fds fd = none →
       (zleFdAdd st fd fn).fds = st.fds ++ [fd] ∧
       watchOf (zleFdAdd st fd fn) fd = some fn ∧
       (zleFdAdd st fd fn).fds.count fd = 1 ∧
       WatchWF (zleFdAdd st fd fn) ∧ (zleFdAdd st fd fn).fds.Nodup) ∧
    (∀ i, findFd st.fds fd = some i →
       (zleFdDel st fd).1 = 0 ∧
       fd ∉ (zleFdDel st fd).2.fds ∧
       ((zleFdDel st fd).2 = ⟨st.fds.eraseIdx i, st.funcs.eraseIdx i⟩ ∨
        (st.fds.length = 1 ∧ (zleFdDel st fd).2 = ⟨[], []⟩)) ∧
       WatchWF (zleFdDel st fd).2 ∧ (zleFdDel st fd).2.fds.Nodup) ∧
    (findFd st.fds fd = none → zleFdDel st fd = (1, st)) := by
  refine ⟨?_, ?_, ?_, ?_⟩
  · -- replace an existing entry
    intro i hi
    have hilt : i < st.fds.length := findFd_lt hi
    have hadd : zleFdAdd st fd fn = { st with funcs := st.funcs.set i (some fn) } := by
      unfold zleFdAdd
      rw [hi]
    rcases hwf with ⟨names, hfuncs, hlen⟩ | ⟨hfds, hfuncs⟩
    · have hiln : i < names.length := by rw [hlen]; exact hilt
      rw [hadd]
      refine ⟨rfl, ?_, ?_, ?_, ?_⟩
      · unfold watchOf
        show (match findFd st.fds fd with
              | none => none
              | some j => (st.funcs.set i (some fn)).getD j none) = some fn
        rw [hi]
        dsimp only
        refine getD_set_self st.funcs i (some fn) none ?_
        rw [hfuncs]
        simp
        omega
      · exact List.count_eq_one_of_mem hnd (findFd_mem hi)
      · refine Or.inl ⟨names.set i fn, ?_, ?_⟩
        · rw [hfuncs]
          exact set_map_some_append hiln
        · simp [hlen]
      · exact hnd
    · rw [hfds] at hi
      exact Option.noConfusion hi
  · -- append a fresh entry
    intro h
    have hmem : fd ∉ st.fds := findFd_eq_none.1 h
    have hadd : zleFdAdd st fd fn =
        ⟨st.fds ++ [fd], st.funcs.dropLast ++ [some fn, none]⟩ := by
      unfold zleFdAdd
      rw [h]
    rw [hadd]
    have hfind : findFd (st.fds ++ [fd]) fd = some st.fds.length :=
      findFd_append_fresh hmem
    have hcount : (st.fds ++ [fd]).count fd = 1 := by
      rw [List.count_append, List.count_eq_zero.2 hmem]
      simp
    have hnodup : (st.fds ++ [fd]).Nodup := by
      simp [List.nodup_append, hnd, hmem]
    rcases hwf with ⟨names, hfuncs, hlen⟩ | ⟨hfds, hfuncs⟩
    · have hdrop : st.funcs.dropLast = names.map some := by
        rw [hfuncs]
        simp
      refine ⟨rfl, ?_, hcount, ?_, hnodup⟩
      · unfold watchOf
        show (match findFd (st.fds ++ [fd]) fd with
              | none => none
              | some j => (st.funcs.dropLast ++ [some fn, none]).getD j none) = some fn
        rw [hfind]
        dsimp only
        rw [hdrop]
        have hll : st.fds.length = (names.map some).length := by simp [hlen]
        rw [hll, getD_append_length]
        rfl
      · refine Or.inl ⟨names ++ [fn], ?_, ?_⟩
        · rw [hdrop]
          simp
        · simp [hlen]
    · rw [hfds, hfuncs]
      refine ⟨rfl, ?_, ?_, ?_, ?_⟩
      · unfold watchOf
        rw [hfds] at hfind
        show (match findFd (([] : List Int) ++ [fd]) fd with
              | none => none
              | some j => (([] : List (Option String)).dropLast ++ [some fn, none]).getD j none)
            = some fn
        rw [hfind]
        rfl
      · rw [hfds] at hcount
        exact hcount
      · exact Or.inl ⟨[fn], rfl, rfl⟩
      · rw [hfds] at hnodup
        exact hnodup
  · -- delete an existing entry
    intro i hi
    have hilt : i < st.fds.length := findFd_lt hi
    rcases hwf with ⟨names, hfuncs, hlen⟩ | ⟨hfds, hfuncs⟩
    · have hiln : i < names.length := by rw [hlen]; exact hilt
      by_cases hone : st.fds.length - 1 = 0
      · have hdel : zleFdDel st fd = (0, ⟨[], []⟩) := by
          unfold zleFdDel
          rw [hi]
          dsimp only
          rw [if_pos hone]
        rw [hdel]
        exact ⟨rfl, by simp, Or.inr ⟨by omega, rfl⟩, Or.inr ⟨rfl, rfl⟩, List.nodup_nil⟩
      · have hdel : zleFdDel st fd = (0, ⟨st.fds.eraseIdx i, st.funcs.eraseIdx i⟩) := by
          unfold zleFdDel
          rw [hi]
          dsimp only
          rw [if_neg hone]
        rw [hdel]
        refine ⟨rfl, findFd_eraseIdx_not_mem hnd hi, Or.inl rfl, ?_, ?_⟩
        · refine Or.inl ⟨names.eraseIdx i, ?_, ?_⟩
          · rw [hfuncs]
            exact eraseIdx_map_some_append hiln
          · simp [List.length_eraseIdx, hilt, hiln, hlen]
        · exact (List.eraseIdx_sublist st.fds i).nodup hnd
    · rw [hfds] at hi
      exact Option.noConfusion hi
  · -- delete with no entry installed
    intro h
    unfold zleFdDel
    rw [h]

/-- The watch table holding one handler `"h1"` for descriptor 5. -/
def stF : WatchSt := ⟨[5], [some "h1", none]⟩

theorem C8_watch_fd_witness :
    (∀ i, findFd stF.fds 5 = some i →
       (zleFdAdd stF 5 "h2").fds = stF.fds ∧
       watchOf (zleFdAdd stF 5 "h2") 5 = some "h2" ∧
       (zleFdAdd stF 5 "h2").fds.count 5 = 1 ∧
       WatchWF (zleFdAdd stF 5 "h2") ∧ (zleFdAdd stF 5 "h2").fds.Nodup) ∧
    (findFd stF.fds 5 = none →
       (zleFdAdd stF 5 "h2").fds = stF.fds ++ [5] ∧
       watchOf (zleFdAdd stF 5 "h2") 5 = some "h2" ∧
       (zleFdAdd stF 5 "h2").fds.count 5 = 1 ∧
       WatchWF (zleFdAdd stF 5 "h2") ∧ (zleFdAdd stF 5 "h2").fds.Nodup) ∧
    (∀ i, findFd stF.fds 5 = some i →
       (zleFdDel stF 5).1 = 0 ∧
       5 ∉ (zleFdDel stF 5).2.fds ∧
       ((zleFdDel stF 5).2 = ⟨stF.fds.eraseIdx i, stF.funcs.eraseIdx i⟩ ∨
        (stF.fds.length = 1 ∧ (zleFdDel stF 5).2 = ⟨[], []⟩)) ∧
       WatchWF (zleFdDel stF 5).2 ∧ (zleFdDel stF 5).2.fds.Nodup) ∧
    (findFd stF.fds 5 = none → zleFdDel stF 5 = (1, stF)) :=
  C8_watch_fd stF 5 "h2" (by decide) (Or.inl ⟨["h1"], rfl, rfl⟩)

end ZleThingy

namespace ZleThingy

theorem findPred_found (st : ZleState) (tn p : String) (fuel : Nat) (pt : Thingy)
    (hp : lookupT st p = some pt) (hs : pt.samew = some tn) :
    findPred st tn (fuel + 1) (some p) = some p := by
  simp only [findPred]
  rw [hp]
  dsimp only
  rw [if_pos hs]

/-- The registry resulting from a clean `addzlefunction st name isComp`:
the dotted and the plain name share the fresh internal widget, the dotted
name immortal and the plain name not, linked in a two-member cycle. -/
def regState (st : ZleState) (name : String) (isComp : Bool) : ZleState :=
  ⟨(name, ⟨1, false, false, some st.nextW, some ("." ++ name)⟩) ::
     ("." ++ name, ⟨1, false, true, some st.nextW, some name⟩) :: st.tab,
   (st.nextW, ⟨.intFn isComp, some ("." ++ name)⟩) :: st.widgets,
   st.nextW + 1⟩

/-- The registry after an ordinary delete of the plain name: the dotted
name remains, sole member of the widget's cycle. -/
def regDelState (st : ZleState) (name : String) (isComp : Bool) : ZleState :=
  ⟨("." ++ name, ⟨1, false, true, some st.nextW, some ("." ++ name)⟩) :: st.tab,
   (st.nextW, ⟨.intFn isComp, some ("." ++ name)⟩) :: st.widgets,
   st.nextW + 1⟩

end ZleThingy

namespace ZleThingy

/-- Clean registration computes to `regState`. -/
theorem addzle_reg_eq (st : ZleState) (name : String) (isComp : Bool)
    (hsd : name.startsWith "." = false)
    (hd0 : lookupT st ("." ++ name) = none) (hn0 : lookupT st name = none) :
    addzlefunction st name isComp = (some st.nextW, regState st name isComp) := by
  have hne : ("." ++ name) ≠ name := by
    intro h
    have hlen := congrArg String.length h
    rw [String.length_append] at hlen
    have h1 : (".").length = 1 := rfl
    omega
  have hne' : name ≠ "." ++ name := fun h => hne h.symm
  have hg0 : getnode st ("." ++ name) = none := by
    unfold getnode
    rw [hd0]
  have hd0' : alookup st.tab ("." ++ name) = none := hd0
  have hn0' : alookup st.tab name = none := hn0
  unfold addzlefunction
  rw [if_neg (by simp [hsd]), if_neg (by rw [hg0]; simp)]
  simp [addWidget, rthingy, refthingy, bindwidget, spliceIn, updT, updW,
    lookupT, lookupW, alookup, aupdate, regState, hd0', hn0', hne, hne', makethingynode]

end ZleThingy

namespace ZleThingy

/-- An ordinary (non-override) delete of the plain name computes to
`regDelState`: the dotted name survives as the widget's sole member. -/
theorem zleDel_reg_eq (st : ZleState) (name : String) (isComp : Bool) :
    zleDelOne (regState st name isComp) name = (0, regDelState st name isComp) := by
  have hne : ("." ++ name) ≠ name := by
    intro h
    have hlen := congrArg String.length h
    rw [String.length_append] at hlen
    have h1 : (".").length = 1 := rfl
    omega
  have hne' : name ≠ "." ++ name := fun h => hne h.symm
  have hlookN : lookupT (regState st name isComp) name =
      some ⟨1, false, false, some st.nextW, some ("." ++ name)⟩ := by
    simp [regState, lookupT, alookup]
  have hlookD : lookupT (regState st name isComp) ("." ++ name) =
      some ⟨1, false, true, some st.nextW, some name⟩ := by
    simp [regState, lookupT, alookup, hne']
  have hunb : unbindwidget (regState st name isComp) name false =
      (0, regDelState st name isComp) := by
    unfold unbindwidget
    rw [hlookN]
    dsimp only
    rw [if_neg (by simp), if_neg (by simp)]
    rw [if_neg (by simp [hne])]
    rw [show lookupW (regState st name isComp) st.nextW =
          some ⟨.intFn isComp, some ("." ++ name)⟩ from by
        simp [regState, lookupW, alookup]]
    dsimp only
    rw [findPred_found (regState st name isComp) name ("." ++ name)
          ((regState st name isComp).tab.length)
          ⟨1, false, true, some st.nextW, some name⟩ hlookD rfl]
    dsimp only
    simp [regState, regDelState, updT, updW, aupdate, unrefthingy, lookupT, alookup,
      aremove, hne, hne']
  unfold zleDelOne
  rw [show getnode (regState st name isComp) name =
        some ⟨1, false, false, some st.nextW, some ("." ++ name)⟩ from by
      unfold getnode
      rw [hlookN]
      rfl]
  rw [hunb]
  simp

end ZleThingy

namespace ZleThingy

/-- C4: registering a native (internal) widget under a name: a name
beginning with the separator `'.'` is rejected; a dotted name already
claimed by an (enabled) immortal thingy is rejected without allocating
anything; otherwise exactly two bound names are created sharing one fresh
widget — the dotted name immortal, the plain name rebindable — and a
subsequent ordinary (non-override) delete of the plain name succeeds and
leaves the dotted name still resolvable and bound to the same widget. -/
theorem C4_register_native (st : ZleState) (name : String) (isComp : Bool)
    (hI : Inv st) :
    (name.startsWith "." = true → addzlefunction st name isComp = (none, st)) ∧
    (∀ t, getnode st ("." ++ name) = some t → t.immortal = true →
       addzlefunction st name isComp = (none, st)) ∧
    (name.startsWith "." = false → lookupT st ("." ++ name) = none →
     lookupT st name = none →
       addzlefunction st name isComp = (some st.nextW, regState st name isComp) ∧
       (∀ m, boundToB (regState st name isComp) st.nextW m = true ↔
          (m = name ∨ m = "." ++ name)) ∧
       (∃ td, lookupT (regState st name isComp) ("." ++ name) = some td ∧
          td.immortal = true ∧ td.widget = some st.nextW) ∧
       (∃ tn2, lookupT (regState st name isComp) name = some tn2 ∧
          tn2.immortal = false ∧ tn2.widget = some st.nextW) ∧
       zleDelOne (regState st name isComp) name = (0, regDelState st name isComp) ∧
       (∃ td2, getnode (regDelState st name isComp) ("." ++ name) = some td2 ∧
          td2.widget = some st.nextW)) := by
  obtain ⟨k1, k2, k3, k4, k5⟩ := hI
  have hne : ("." ++ name) ≠ name := by
    intro h
    have hlen := congrArg String.length h
    rw [String.length_append] at hlen
    have h1 : (".").length = 1 := rfl
    omega
  have hne' : name ≠ "." ++ name := fun h => hne h.symm
  refine ⟨?_, ?_, ?_⟩
  · intro h
    unfold addzlefunction
    rw [if_pos h]
  · intro t hget him
    unfold addzlefunction
    by_cases hsd : name.startsWith "." = true
    · rw [if_pos hsd]
    · rw [if_neg hsd, if_pos (show _ from by rw [hget]; exact him)]
  · intro hsd hd0 hn0
    refine ⟨addzle_reg_eq st name isComp hsd hd0 hn0, ?_,
      ⟨⟨1, false, true, some st.nextW, some name⟩,
        by simp [regState, lookupT, alookup, hne'], rfl, rfl⟩,
      ⟨⟨1, false, false, some st.nextW, some ("." ++ name)⟩,
        by simp [regState, lookupT, alookup], rfl, rfl⟩,
      zleDel_reg_eq st name isComp,
      ⟨⟨1, false, true, some st.nextW, some ("." ++ name)⟩,
        by simp [getnode, regDelState, lookupT, alookup], rfl⟩⟩
    intro m
    unfold boundToB lookupT regState
    dsimp only
    by_cases hm1 : name = m
    · subst hm1
      simp [alookup]
    · by_cases hm2 : ("." ++ name) = m
      · subst hm2
        simp [alookup, hm1]
      · simp only [alookup, if_neg hm1, if_neg hm2]
        cases hm : alookup st.tab m with
        | none =>
          dsimp only
          constructor
          · intro hfalse
            exact Bool.noConfusion hfalse
          · rintro (h | h)
            · exact absurd h.symm hm1
            · exact absurd h.symm hm2
        | some u =>
          dsimp only
          constructor
          · intro htrue
            exfalso
            have hud : u.disabled = false := by
              cases hdd : u.disabled
              · rfl
              · rw [hdd] at htrue
                simp at htrue
            obtain ⟨w0, hw0, wr0, hwr0⟩ := k4 m u hm hud
            have hlt := k3 w0 wr0 hwr0
            rw [hud, hw0] at htrue
            simp at htrue
            omega
          · rintro (h | h)
            · exact absurd h.symm hm1
            · exact absurd h.symm hm2

theorem C4_register_native_witness :
    ("widget".startsWith "." = true → addzlefunction init "widget" false = (none, init)) ∧
    (∀ t, getnode init ("." ++ "widget") = some t → t.immortal = true →
       addzlefunction init "widget" false = (none, init)) ∧
    ("widget".startsWith "." = false → lookupT init ("." ++ "widget") = none →
     lookupT init "widget" = none →
       addzlefunction init "widget" false =
         (some init.nextW, regState init "widget" false) ∧
       (∀ m, boundToB (regState init "widget" false) init.nextW m = true ↔
          (m = "widget" ∨ m = "." ++ "widget")) ∧
       (∃ td, lookupT (regState init "widget" false) ("." ++ "widget") = some td ∧
          td.immortal = true ∧ td.widget = some init.nextW) ∧
       (∃ tn2, lookupT (regState init "widget" false) "widget" = some tn2 ∧
          tn2.immortal = false ∧ tn2.widget = some init.nextW) ∧
       zleDelOne (regState init "widget" false) "widget" =
         (0, regDelState init "widget" false) ∧
       (∃ td2, getnode (regDelState init "widget" false) ("." ++ "widget") = some td2 ∧
          td2.widget = some init.nextW)) :=
  C4_register_native init "widget" false inv_init

end ZleThingy
